import Mathlib

/-!
# The graph stores of package `simple`

A shallow embedding of the sparse directed store of `simple/directed.go` and of the
dense undirected store of `simple/dense_undirected_matrix.go`, followed by the
properties of the two stores that are settled against it.

Go maps are embedded as key/value lists (`GoMap`).  The position of an entry in
the list stands for the unspecified order in which Go happens to iterate the
map; no statement below depends on it.  The one place where the source returns
"whatever the iteration yields first" (`NewNodeID`) takes the starting point of
the iteration as an explicit argument, so every member can be the one returned.
-/

namespace Simple

/-! ## Values the source takes from elsewhere -/

/-- Modelled from the spec: the constant `maxInt` ("the representable maximum" of an
identifier) is declared outside the files at hand; it is the largest Go `int` of a
64-bit target. -/
def maxInt : Int := 9223372036854775807

/-- The smallest Go `int` of a 64-bit target. -/
def minInt : Int := -9223372036854775808

/-- A `float64`, kept as its IEEE-754 bit pattern.  The directed store only stores
and returns weights; it never computes with them. -/
structure Float64 where
  bits : Nat
  deriving DecidableEq, Repr

/-- The weight `0`. -/
def Float64.zero : Float64 := ⟨0⟩

/-- The weight `1`. -/
def Float64.one : Float64 := ⟨0x3FF0000000000000⟩

/-- The weight `+Inf`, as produced by `math.Inf(1)`. -/
def Float64.posInf : Float64 := ⟨0x7FF0000000000000⟩

/-- Modelled from the spec: the node type `Node` used by the tests (`Node(2)`,
`Node(g.NewNodeID())`) is declared outside the files at hand; a node is "anything
exposing a unique integer identity", here the integer itself. -/
structure Node where
  ID : Int
  deriving DecidableEq, Repr

/-- A node whose identifier is a Go `int`. -/
def Node.valid (n : Node) : Prop := minInt ≤ n.ID ∧ n.ID ≤ maxInt

instance (n : Node) : Decidable n.valid := by
  unfold Node.valid; exact inferInstance

/-- Modelled from the spec: the edge type `Edge{F, T, W}` used by the tests is
declared outside the files at hand; an edge is "anything exposing endpoints and a
numeric weight". -/
structure Edge where
  F : Node
  T : Node
  W : Float64
  deriving DecidableEq, Repr

/-- The method `From()` of an edge. -/
def Edge.From (e : Edge) : Node := e.F

/-- The method `To()` of an edge. -/
def Edge.To (e : Edge) : Node := e.T

/-- The method `Weight()` of an edge. -/
def Edge.Weight (e : Edge) : Float64 := e.W

/-- An edge whose endpoint identifiers are Go `int`s. -/
def Edge.valid (e : Edge) : Prop := e.F.valid ∧ e.T.valid

instance (e : Edge) : Decidable e.valid := by
  unfold Edge.valid; exact inferInstance

/-! ## Go maps keyed by `int` -/

/-- A Go `map[int]α`: its entries, in the order an iteration would visit them. -/
abbrev GoMap (α : Type) := List (Int × α)

namespace GoMap

variable {α : Type}

/-- The two-valued lookup `v, ok := m[k]`. -/
def index : GoMap α → Int → Option α
  | [], _ => none
  | (k', v) :: m, k => if k' = k then some v else index m k

/-- The assignment `m[k] = v`: overwrite the entry of `k`, or add one. -/
def assign : GoMap α → Int → α → GoMap α
  | [], k, v => [(k, v)]
  | (k', v') :: m, k, v => if k' = k then (k, v) :: m else (k', v') :: assign m k v

/-- The builtin `delete(m, k)`. -/
def delete : GoMap α → Int → GoMap α
  | [], _ => []
  | (k', v) :: m, k => if k' = k then delete m k else (k', v) :: delete m k

/-- The builtin `len(m)`. -/
def len (m : GoMap α) : Nat := m.length

/-- The keys a `range` over the map visits. -/
def keys (m : GoMap α) : List Int := m.map Prod.fst

/-- The key a `for k := range m { return k }` returns when the iteration starts at
entry `start` (taken modulo the size); `none` when the map is empty. -/
def rangeFirst (m : GoMap α) (start : Nat) : Option Int :=
  (keys m)[start % m.length]?

/-- The statement `delete(m[k], j)` on a map of maps: the inner map is changed in
place, and deleting from the nil map of a missing `k` does nothing. -/
def deleteIn (m : GoMap (GoMap α)) (k j : Int) : GoMap (GoMap α) :=
  match index m k with
  | none => m
  | some inner => assign m k (delete inner j)

/-- The statement `m[k][j] = v` on a map of maps; `none` stands for the run-time
panic of an assignment to the nil map of a missing `k`. -/
def assignIn (m : GoMap (GoMap α)) (k j : Int) (v : α) : Option (GoMap (GoMap α)) :=
  match index m k with
  | none => none
  | some inner => some (assign m k (assign inner j v))

/-- The two-step lookup `m[k][j]`; looking up in the nil map of a missing `k` finds
nothing. -/
def index2 (m : GoMap (GoMap α)) (k j : Int) : Option α :=
  match index m k with
  | none => none
  | some inner => index inner j

end GoMap

/-! ## The store -/

/-- The ways a call can panic. -/
inductive Panic where
  | nodeIDCollision (id : Int)
  | selfEdge
  | nilMapAssign
  | graphTooLarge
  | noFreeID
  | indexOutOfRange
  deriving DecidableEq, Repr

/-- How a call ends: with its return value, or with a panic. -/
inductive Res (α : Type) where
  | ok (val : α)
  | panic (p : Panic)
  deriving DecidableEq, Repr

/-- The struct `DirectedGraph`. -/
structure DirectedGraph where
  successors : GoMap (GoMap Edge)
  predecessors : GoMap (GoMap Edge)
  nodeMap : GoMap Node
  self : Float64
  absent : Float64
  maxID : Int
  freeMap : GoMap Unit
  deriving DecidableEq, Repr

/-- The constructor `NewDirectedGraph`. -/
def NewDirectedGraph (self absent : Float64) : DirectedGraph :=
  { successors := [], predecessors := [], nodeMap := [],
    self := self, absent := absent, maxID := 0, freeMap := [] }

/-- The loop `for i := 0; i < maxInt; i++` of `NewNodeID`, from `i` on with `fuel`
iterations left: the first `i` that is not a key of `nodeMap`. -/
def scanFree (nodeMap : GoMap Node) : Nat → Nat → Option Int
  | _, 0 => none
  | i, fuel + 1 =>
    match nodeMap.index (i : Int) with
    | none => some (i : Int)
    | some _ => scanFree nodeMap (i + 1) fuel

/-- The method `NewNodeID`.  It returns the id together with the store it leaves
behind (the watermark is moved); `start` is where the iteration over `freeMap`
begins. -/
def NewNodeID (g : DirectedGraph) (start : Nat) : Res Int × DirectedGraph :=
  if g.maxID ≠ maxInt then
    (.ok (g.maxID + 1), { g with maxID := g.maxID + 1 })
  else
    match g.freeMap.rangeFirst start with
    | some id => (.ok id, g)
    | none =>
      if (g.nodeMap.len : Int) = maxInt then (.panic .graphTooLarge, g)
      else
        match scanFree g.nodeMap 0 maxInt.toNat with
        | some i => (.ok i, g)
        | none => (.panic .noFreeID, g)

/-- The method `AddNode`, with the store as it is when the call ends or panics. -/
def AddNode (g : DirectedGraph) (n : Node) : Res Unit × DirectedGraph :=
  match g.nodeMap.index n.ID with
  | some _ => (.panic (.nodeIDCollision n.ID), g)
  | none =>
    (.ok (),
      { g with
        nodeMap := g.nodeMap.assign n.ID n
        successors := g.successors.assign n.ID []
        predecessors := g.predecessors.assign n.ID []
        freeMap := g.freeMap.delete n.ID
        maxID := max g.maxID n.ID })

/-- The method `Has`. -/
def Has (g : DirectedGraph) (n : Node) : Bool :=
  (g.nodeMap.index n.ID).isSome

/-- The statement `if !g.Has(n) { g.AddNode(n) }` of `SetEdge`. -/
def addIfMissing (g : DirectedGraph) (n : Node) : Res Unit × DirectedGraph :=
  if !Has g n then AddNode g n else (.ok (), g)

/-- The method `SetEdge`, with the store as it is when the call ends or panics. -/
def SetEdge (g : DirectedGraph) (e : Edge) : Res Unit × DirectedGraph :=
  let fid := e.From.ID
  let tid := e.To.ID
  if fid = tid then (.panic .selfEdge, g)
  else
    match addIfMissing g e.From with
    | (.panic p, g1) => (.panic p, g1)
    | (.ok _, g1) =>
      match addIfMissing g1 e.To with
      | (.panic p, g2) => (.panic p, g2)
      | (.ok _, g2) =>
        match g2.successors.assignIn fid tid e with
        | none => (.panic .nilMapAssign, g2)
        | some s =>
          let g3 := { g2 with successors := s }
          match g3.predecessors.assignIn tid fid e with
          | none => (.panic .nilMapAssign, g3)
          | some p => (.ok (), { g3 with predecessors := p })

/-- The entries of `m[k]`, none for the nil map of a missing `k`. -/
def innerKeys (m : GoMap (GoMap Edge)) (k : Int) : List Int :=
  match m.index k with
  | none => []
  | some inner => inner.keys

/-- The method `RemoveNode`. -/
def RemoveNode (g : DirectedGraph) (n : Node) : DirectedGraph :=
  match g.nodeMap.index n.ID with
  | none => g
  | some _ =>
    let nodeMap := g.nodeMap.delete n.ID
    let predecessors :=
      (innerKeys g.successors n.ID).foldl (fun p succ => GoMap.deleteIn p succ n.ID)
        g.predecessors
    let successors := g.successors.delete n.ID
    let successors :=
      (innerKeys predecessors n.ID).foldl (fun s pred => GoMap.deleteIn s pred n.ID)
        successors
    let predecessors := predecessors.delete n.ID
    { g with
      nodeMap := nodeMap
      successors := successors
      predecessors := predecessors
      freeMap := g.freeMap.assign n.ID () }

/-- The method `RemoveEdge`. -/
def RemoveEdge (g : DirectedGraph) (e : Edge) : DirectedGraph :=
  match g.nodeMap.index e.From.ID with
  | none => g
  | some _ =>
    match g.nodeMap.index e.To.ID with
    | none => g
    | some _ =>
      { g with
        successors := g.successors.deleteIn e.From.ID e.To.ID
        predecessors := g.predecessors.deleteIn e.To.ID e.From.ID }

/-- The method `EmptyGraph`. -/
def EmptyGraph (g : DirectedGraph) : DirectedGraph :=
  { g with successors := [], predecessors := [], nodeMap := [] }

/-- The method `Edge`; `none` is the nil edge. -/
def DirectedGraph.Edge (g : DirectedGraph) (u v : Node) : Option Edge :=
  match g.nodeMap.index u.ID with
  | none => none
  | some _ =>
    match g.nodeMap.index v.ID with
    | none => none
    | some _ => g.successors.index2 u.ID v.ID

/-- The method `HasEdgeFromTo`. -/
def HasEdgeFromTo (g : DirectedGraph) (u v : Node) : Bool :=
  match g.nodeMap.index u.ID with
  | none => false
  | some _ =>
    match g.nodeMap.index v.ID with
    | none => false
    | some _ =>
      match g.successors.index2 u.ID v.ID with
      | none => false
      | some _ => true

/-- The method `Weight`. -/
def Weight (g : DirectedGraph) (x y : Node) : Float64 × Bool :=
  if x.ID = y.ID then (g.self, true)
  else
    match g.successors.index x.ID with
    | some s =>
      match s.index y.ID with
      | some e => (e.Weight, true)
      | none => (g.absent, false)
    | none => (g.absent, false)

/-- The value of `len(m[k])`; the nil map of a missing `k` has length 0. -/
def innerLen (m : GoMap (GoMap Edge)) (k : Int) : Nat :=
  match m.index k with
  | none => 0
  | some inner => inner.len

/-- The method `Degree`. -/
def Degree (g : DirectedGraph) (n : Node) : Nat :=
  match g.nodeMap.index n.ID with
  | none => 0
  | some _ => innerLen g.successors n.ID + innerLen g.predecessors n.ID

/-- The method `InDegree`. -/
def InDegree (g : DirectedGraph) (n : Node) : Nat :=
  match g.nodeMap.index n.ID with
  | none => 0
  | some _ => innerLen g.predecessors n.ID

/-- The method `OutDegree`. -/
def OutDegree (g : DirectedGraph) (n : Node) : Nat :=
  match g.nodeMap.index n.ID with
  | none => 0
  | some _ => innerLen g.successors n.ID

/-- The method `From`.  The outer `none` is the nil slice; an inner `none` is a nil
entry (`g.nodeMap[succ]` for a `succ` that is no key of `nodeMap`). -/
def From (g : DirectedGraph) (n : Node) : Option (List (Option Node)) :=
  match g.successors.index n.ID with
  | none => none
  | some s => some (s.keys.map (fun succ => g.nodeMap.index succ))

/-- The method `To`.  It tests `successors` and reads `predecessors`, as the source
does. -/
def To (g : DirectedGraph) (n : Node) : Option (List (Option Node)) :=
  match g.successors.index n.ID with
  | none => none
  | some _ => some ((innerKeys g.predecessors n.ID).map (fun p => g.nodeMap.index p))

/-- The loop of `Nodes`: store the values of `nodeMap` at the positions `i`, `i+1`,
... of the slice; writing past its end panics. -/
def fillNodes : List (Option Node) → Nat → List Node → Res (List (Option Node))
  | nodes, _, [] => .ok nodes
  | nodes, i, n :: rest =>
    if i < nodes.length then fillNodes (nodes.set i (some n)) (i + 1) rest
    else .panic .indexOutOfRange

/-- The method `Nodes`: a slice of `len(g.successors)` nil entries, filled from
`nodeMap`. -/
def Nodes (g : DirectedGraph) : Res (List (Option Node)) :=
  fillNodes (List.replicate g.successors.len none) 0 (g.nodeMap.map Prod.snd)

/-! ## Intermediate states of `SetEdge` and `RemoveNode` -/

/-- The store after the two `if !g.Has(..) { g.AddNode(..) }` statements of `SetEdge`. -/
def withEndpoints (g : DirectedGraph) (e : Edge) : DirectedGraph :=
  (addIfMissing (addIfMissing g e.From).2 e.To).2

/-- The predecessors index after the first loop of `RemoveNode`. -/
def predAfterLoop (g : DirectedGraph) (id : Int) : GoMap (GoMap Edge) :=
  (innerKeys g.successors id).foldl (fun p succ => GoMap.deleteIn p succ id) g.predecessors

/-- The successors index after the second loop of `RemoveNode`. -/
def succAfterLoop (g : DirectedGraph) (id : Int) : GoMap (GoMap Edge) :=
  (innerKeys (predAfterLoop g id) id).foldl (fun s pred => GoMap.deleteIn s pred id)
    (g.successors.delete id)

/-! ## The invariant of the store -/

/-- What every state of the store satisfies between two calls. -/
structure Inv (g : DirectedGraph) : Prop where
  nodesNodup : g.nodeMap.keys.Nodup
  succNodup : g.successors.keys.Nodup
  predNodup : g.predecessors.keys.Nodup
  freeNodup : g.freeMap.keys.Nodup
  succInner : ∀ k s, g.successors.index k = some s → s.keys.Nodup
  predInner : ∀ k s, g.predecessors.index k = some s → s.keys.Nodup
  succKeys : ∀ k, g.successors.index k = none ↔ g.nodeMap.index k = none
  predKeys : ∀ k, g.predecessors.index k = none ↔ g.nodeMap.index k = none
  mirror : ∀ u v, g.successors.index2 u v = g.predecessors.index2 v u
  noLoop : ∀ u, g.successors.index2 u u = none
  targetLive : ∀ u v, g.successors.index2 u v ≠ none → g.nodeMap.index v ≠ none
  endpoints : ∀ u v e, g.successors.index2 u v = some e → e.From.ID = u ∧ e.To.ID = v
  nodeID : ∀ k n, g.nodeMap.index k = some n → n.ID = k
  freeDead : ∀ k, g.freeMap.index k ≠ none → g.nodeMap.index k = none
  liveLeMax : ∀ k, g.nodeMap.index k ≠ none → k ≤ g.maxID
  maxLe : g.maxID ≤ maxInt
  maxNonneg : 0 ≤ g.maxID

/-! ## Reachable states -/

/-- The states of the store a caller can bring about: start from `NewDirectedGraph`
and call the mutating methods with Go `int` identifiers.  The state a call leaves
behind counts whether the call returned or panicked (a caller may recover). -/
inductive Reachable : DirectedGraph → Prop where
  | new (self absent : Float64) : Reachable (NewDirectedGraph self absent)
  | addNode {g : DirectedGraph} (n : Node) :
      Reachable g → n.valid → Reachable (AddNode g n).2
  | setEdge {g : DirectedGraph} (e : Edge) :
      Reachable g → e.valid → Reachable (SetEdge g e).2
  | removeEdge {g : DirectedGraph} (e : Edge) : Reachable g → Reachable (RemoveEdge g e)
  | removeNode {g : DirectedGraph} (n : Node) : Reachable g → Reachable (RemoveNode g n)
  | newNodeID {g : DirectedGraph} (start : Nat) :
      Reachable g → Reachable (NewNodeID g start).2
  | emptyGraph {g : DirectedGraph} : Reachable g → Reachable (EmptyGraph g)

/-! ## The stores built by the tests -/

/-- The store `NewDirectedGraph(0, math.Inf(1))` the tests start from. -/
def emptyStore : DirectedGraph := NewDirectedGraph Float64.zero Float64.posInf

/-- The edge `Edge{F: Node(a), T: Node(b), W: 1}` of the tests. -/
def unitEdge (a b : Int) : Edge := ⟨⟨a⟩, ⟨b⟩, Float64.one⟩

/-- The function `generateDummyGraph` of `directed_test.go`: the edges 2->1, 1->0, 2->0
and 0->2, set in this order. -/
def generateDummyGraph : DirectedGraph :=
  [unitEdge 2 1, unitEdge 1 0, unitEdge 2 0, unitEdge 0 2].foldl
    (fun g e => (SetEdge g e).2) emptyStore

/-- The scenario of the spec: on an empty store `AddNode(0)`, `AddNode(1)`, then
`RemoveNode(0)`. -/
def reuseScenario : DirectedGraph :=
  RemoveNode (AddNode (AddNode emptyStore ⟨0⟩).2 ⟨1⟩).2 ⟨0⟩

/-- A store whose watermark stands at `maxInt`, with 5 in the free set:
`AddNode(maxInt)`, `AddNode(5)`, `AddNode(7)`, then `RemoveNode(5)`. -/
def watermarkAtMax : DirectedGraph :=
  RemoveNode (AddNode (AddNode (AddNode emptyStore ⟨maxInt⟩).2 ⟨5⟩).2 ⟨7⟩).2 ⟨5⟩

/-- The store of `TestIssue123DirectedGraph` before its last allocation: two nodes
are added under the ids `NewNodeID` returns (1 and 2), then the first is removed. -/
def issue123Store : DirectedGraph :=
  RemoveNode (AddNode (NewNodeID (AddNode (NewNodeID emptyStore 0).2 ⟨1⟩).2 0).2 ⟨2⟩).2 ⟨1⟩

/-- An edge 2->1 of weight 0, to overwrite the edge 2->1 of weight 1 that
`generateDummyGraph` stores. -/
def overwrittenEdge : Edge := ⟨⟨2⟩, ⟨1⟩, Float64.zero⟩

/-- The store of `generateDummyGraph` after one more `SetEdge` for the pair 2->1. -/
def edgeSetTwice : DirectedGraph := (SetEdge generateDummyGraph overwrittenEdge).2

/-! ## Sequences of calls -/

/-- A call of one of the mutating methods of the directed store. -/
inductive Call where
  | addNode (n : Node)
  | setEdge (e : Edge)
  | removeEdge (e : Edge)
  | removeNode (n : Node)
  | newNodeID (start : Nat)
  | emptyGraph
  deriving DecidableEq, Repr

/-- A call whose node identifiers are Go `int`s, where that matters. -/
def Call.valid : Call → Prop
  | .addNode n => n.valid
  | .setEdge e => e.valid
  | _ => True

instance (c : Call) : Decidable c.valid := by
  cases c <;> unfold Call.valid <;> exact inferInstance

/-- The store a call leaves behind. -/
def Call.run (g : DirectedGraph) : Call → DirectedGraph
  | .addNode n => (AddNode g n).2
  | .setEdge e => (SetEdge g e).2
  | .removeEdge e => RemoveEdge g e
  | .removeNode n => RemoveNode g n
  | .newNodeID start => (NewNodeID g start).2
  | .emptyGraph => EmptyGraph g

/-- The store a sequence of calls leaves behind. -/
def runCalls (g : DirectedGraph) (calls : List Call) : DirectedGraph :=
  calls.foldl Call.run g

/-! ## `Edges` -/

/-- The values a `range` over `m[k]` visits, none for the nil map of a missing `k`. -/
def innerValues (m : GoMap (GoMap Edge)) (k : Int) : List Edge :=
  match m.index k with
  | none => []
  | some inner => inner.map Prod.snd

/-- The method `Edges`: for every value `u` of `nodeMap`, append the values of
`successors[u.ID()]`.  The empty list is the nil slice. -/
def Edges (g : DirectedGraph) : List Edge :=
  g.nodeMap.foldl (fun edges p => edges ++ innerValues g.successors p.2.ID) []

/-- All values `successors[u][v]` of a map of maps. -/
def storedEdges (m : GoMap (GoMap Edge)) : List Edge :=
  m.flatMap (fun p => p.2.map Prod.snd)

/-- The calls of `generateDummyGraph`, followed by the removal of the edge 1->0, the
addition and removal of node 3, and an allocation. -/
def sampleCalls : List Call :=
  [.setEdge (unitEdge 2 1), .setEdge (unitEdge 1 0), .setEdge (unitEdge 2 0),
    .setEdge (unitEdge 0 2), .removeEdge (unitEdge 1 0), .addNode ⟨3⟩, .removeNode ⟨3⟩,
    .newNodeID 0]

/-! ## The dense store of `simple/dense_undirected_matrix.go` -/

/-- The test `math.IsNaN` on the bit pattern: all exponent bits set, mantissa not 0. -/
def Float64.isNaN (x : Float64) : Bool :=
  decide ((x.bits / 2 ^ 52) % 2 ^ 11 = 2047) && decide (x.bits % 2 ^ 52 ≠ 0)

/-- The Go comparison `a == b` of two `float64`: false when one is a NaN, true for equal
bit patterns and for the two zeros. -/
def Float64.goEq (a b : Float64) : Bool :=
  !a.isNaN && !b.isNaN &&
    (decide (a.bits = b.bits) || (decide (a.bits % 2 ^ 63 = 0) && decide (b.bits % 2 ^ 63 = 0)))

/-- Modelled from the spec: the helper `isSame` is declared outside the files at hand;
it is "the store's float-equality policy, not raw `==`", under which two NaNs are the
same value: `a == b || (math.IsNaN(a) && math.IsNaN(b))`. -/
def isSame (a b : Float64) : Bool :=
  a.goEq b || (a.isNaN && b.isNaN)

/-- The ways a call on the dense store can panic. -/
inductive DensePanic where
  | illegalEdge
  | rowAccess
  | colAccess
  | indexOutOfRange
  | makeSliceLen
  | negativeDimension
  | shape
  deriving DecidableEq, Repr

/-- How a call on the dense store ends: with its return value, or with a panic. -/
inductive DenseRes (α : Type) where
  | ok (val : α)
  | panic (p : DensePanic)
  deriving DecidableEq, Repr

/-- Modelled from the spec: the type `mat64.SymDense` of the dense-matrix library,
"a symmetric matrix abstraction offering `Dims()`, `At(i,j)`, `SetSym(i,j,w)`,
constructed from a flat row-major backing array of size `n*n`".  Symmetry is
structural: only the upper triangle of the array is read and written. -/
structure SymDense where
  n : Nat
  data : List Float64
  deriving DecidableEq, Repr

namespace SymDense

/-- The method `Symmetric`: the order of the matrix. -/
def Symmetric (s : SymDense) : Nat := s.n

/-- The position of the cell of row `i` and column `j` in the backing array. -/
def offset (s : SymDense) (i j : Nat) : Nat :=
  if i > j then j * s.n + i else i * s.n + j

/-- The read of a cell whose row and column are in range. -/
def read (s : SymDense) (i j : Nat) : DenseRes Float64 :=
  match s.data[s.offset i j]? with
  | some v => .ok v
  | none => .panic .indexOutOfRange

/-- The method `At`: it panics for a row or a column outside `[0, n)`. -/
def At (s : SymDense) (i j : Int) : DenseRes Float64 :=
  if i < 0 ∨ (s.n : Int) ≤ i then .panic .rowAccess
  else if j < 0 ∨ (s.n : Int) ≤ j then .panic .colAccess
  else s.read i.toNat j.toNat

/-- The method `SetSym`, with the matrix as it is when the call ends or panics: it
panics for a row or a column outside `[0, n)`. -/
def SetSym (s : SymDense) (i j : Int) (v : Float64) : DenseRes Unit × SymDense :=
  if i < 0 ∨ (s.n : Int) ≤ i then (.panic .rowAccess, s)
  else if j < 0 ∨ (s.n : Int) ≤ j then (.panic .colAccess, s)
  else if s.offset i.toNat j.toNat < s.data.length then
    (.ok (), { s with data := s.data.set (s.offset i.toNat j.toNat) v })
  else (.panic .indexOutOfRange, s)

end SymDense

/-- The struct `UndirectedDenseGraph`. -/
structure UndirectedDenseGraph where
  self : Float64
  absent : Float64
  mat : SymDense
  deriving DecidableEq, Repr

/-- The value of a Go `int` expression on a 64-bit target: arithmetic wraps around. -/
def wrapInt (x : Int) : Int := (x + 2 ^ 63) % 2 ^ 64 - 2 ^ 63

/-- Modelled from the spec: the constructor `mat64.NewSymDense(n, mat)` of the
dense-matrix library, "constructed from a flat row-major backing array of size `n*n`".
It panics for a negative `n` and for a slice whose length is not `n*n`, the product
taken as a Go `int`. -/
def NewSymDense (n : Int) (mat : List Float64) : DenseRes SymDense :=
  if n < 0 then .panic .negativeDimension
  else if wrapInt (n * n) ≠ (mat.length : Int) then .panic .shape
  else .ok { n := n.toNat, data := mat }

/-- The constructor `NewUndirectedDenseGraph`.  The length `n*n` of the slice is a Go
`int` and wraps around; `make` panics for a negative length.  Running out of memory is
outside the model. -/
def NewUndirectedDenseGraph (n : Int) (passable : Bool) (self absent : Float64) :
    DenseRes UndirectedDenseGraph :=
  if wrapInt (n * n) < 0 then .panic .makeSliceLen
  else
    let v := if !passable then absent else Float64.one
    match NewSymDense n (List.replicate (wrapInt (n * n)).toNat v) with
    | .panic p => .panic p
    | .ok mat => .ok { mat := mat, self := self, absent := absent }

/-- The store a call of the constructor returned; the store without nodes when the call
panicked. -/
def DenseRes.store : DenseRes UndirectedDenseGraph → UndirectedDenseGraph
  | .ok g => g
  | .panic _ => { mat := { n := 0, data := [] }, self := Float64.zero, absent := Float64.zero }

/-- The store of `n` nodes all of whose `n*n` cells hold 1 (`passable`) or `absent`:
what the constructor returns when `n*n` does not wrap around. -/
def filledStore (n : Nat) (passable : Bool) (self absent : Float64) :
    UndirectedDenseGraph :=
  let v := if !passable then absent else Float64.one
  { mat := { n := n, data := List.replicate (n * n) v }, self := self, absent := absent }

namespace UndirectedDenseGraph

/-- The method `has`. -/
def has (g : UndirectedDenseGraph) (id : Int) : Bool :=
  decide (0 ≤ id) && decide (id < (g.mat.Symmetric : Int))

/-- The method `Has`. -/
def Has (g : UndirectedDenseGraph) (n : Node) : Bool := g.has n.ID

/-- The method `Nodes`. -/
def Nodes (g : UndirectedDenseGraph) : List Node :=
  (List.range g.mat.Symmetric).map (fun i => (⟨(i : Int)⟩ : Node))

/-- One turn of the inner loop of `Edges`. -/
def edgesStep (g : UndirectedDenseGraph) (i : Nat) (acc : DenseRes (List Edge)) (j : Nat) :
    DenseRes (List Edge) :=
  match acc with
  | .panic p => .panic p
  | .ok edges =>
    match g.mat.At i j with
    | .panic p => .panic p
    | .ok w => if !isSame w g.absent then .ok (edges ++ [⟨⟨i⟩, ⟨j⟩, w⟩]) else .ok edges

/-- The method `Edges`: `for i := 0; i < r; i++ { for j := i + 1; j < r; j++ { .. } }`. -/
def Edges (g : UndirectedDenseGraph) : DenseRes (List Edge) :=
  (List.range g.mat.n).foldl
    (fun acc i => (List.range' (i + 1) (g.mat.n - (i + 1))).foldl (g.edgesStep i) acc)
    (.ok [])

/-- One turn of the loop of `Degree`. -/
def degreeStep (g : UndirectedDenseGraph) (id : Int) (acc : DenseRes Nat) (i : Nat) :
    DenseRes Nat :=
  match acc with
  | .panic p => .panic p
  | .ok deg =>
    if (i : Int) = id then .ok deg
    else
      match g.mat.At id i with
      | .panic p => .panic p
      | .ok w => if !isSame w g.absent then .ok (deg + 1) else .ok deg

/-- The method `Degree`. -/
def Degree (g : UndirectedDenseGraph) (n : Node) : DenseRes Nat :=
  (List.range g.mat.Symmetric).foldl (g.degreeStep n.ID) (.ok 0)

/-- One turn of the loop of `From`. -/
def fromStep (g : UndirectedDenseGraph) (id : Int) (acc : DenseRes (List Node)) (i : Nat) :
    DenseRes (List Node) :=
  match acc with
  | .panic p => .panic p
  | .ok neighbors =>
    if (i : Int) = id then .ok neighbors
    else
      match g.mat.At id i with
      | .panic p => .panic p
      | .ok w => if !isSame w g.absent then .ok (neighbors ++ [⟨i⟩]) else .ok neighbors

/-- The method `From`; the empty list is the nil slice. -/
def From (g : UndirectedDenseGraph) (n : Node) : DenseRes (List Node) :=
  (List.range g.mat.Symmetric).foldl (g.fromStep n.ID) (.ok [])

/-- The method `HasEdgeBetween`; `&&` does not evaluate `At` for equal ids. -/
def HasEdgeBetween (g : UndirectedDenseGraph) (u v : Node) : DenseRes Bool :=
  if u.ID = v.ID then .ok false
  else
    match g.mat.At u.ID v.ID with
    | .panic p => .panic p
    | .ok w => .ok (!isSame w g.absent)

/-- The method `EdgeBetween`; `none` is the nil edge. -/
def EdgeBetween (g : UndirectedDenseGraph) (u v : Node) : DenseRes (Option Edge) :=
  match g.HasEdgeBetween u v with
  | .panic p => .panic p
  | .ok true =>
    match g.mat.At u.ID v.ID with
    | .panic p => .panic p
    | .ok w => .ok (some ⟨u, v, w⟩)
  | .ok false => .ok none

/-- The method `Edge`. -/
def Edge (g : UndirectedDenseGraph) (u v : Node) : DenseRes (Option Simple.Edge) :=
  g.EdgeBetween u v

/-- The method `Weight`. -/
def Weight (g : UndirectedDenseGraph) (x y : Node) : DenseRes (Float64 × Bool) :=
  if x.ID = y.ID then .ok (g.self, true)
  else if g.has x.ID && g.has y.ID then
    match g.mat.At x.ID y.ID with
    | .panic p => .panic p
    | .ok w => .ok (w, true)
  else .ok (g.absent, false)

/-- The method `SetEdgeWeight`, with the store as it is when the call ends or panics. -/
def SetEdgeWeight (g : UndirectedDenseGraph) (e : Simple.Edge) :
    DenseRes Unit × UndirectedDenseGraph :=
  if e.From.ID = e.To.ID then (.panic .illegalEdge, g)
  else
    ((g.mat.SetSym e.From.ID e.To.ID e.Weight).1,
      { g with mat := (g.mat.SetSym e.From.ID e.To.ID e.Weight).2 })

/-- The method `RemoveEdge`, with the store as it is when the call ends or panics. -/
def RemoveEdge (g : UndirectedDenseGraph) (e : Simple.Edge) :
    DenseRes Unit × UndirectedDenseGraph :=
  ((g.mat.SetSym e.From.ID e.To.ID g.absent).1,
    { g with mat := (g.mat.SetSym e.From.ID e.To.ID g.absent).2 })

/-- The method `Matrix`: a copy of the matrix header, over the same cells. -/
def Matrix (g : UndirectedDenseGraph) : SymDense := g.mat

/-- A store whose backing array has `n*n` elements, as the constructor makes it. -/
def WF (g : UndirectedDenseGraph) : Prop := g.mat.data.length = g.mat.n * g.mat.n

instance (g : UndirectedDenseGraph) : Decidable g.WF := by
  unfold WF; exact inferInstance

/-- The cell of row `i` and column `j`, for `i` and `j` in range. -/
def cell (g : UndirectedDenseGraph) (i j : Nat) : Float64 :=
  g.mat.data.getD (g.mat.offset i j) Float64.zero

/-- The test of the loops of the store: the cell of `i` and `j` holds an edge. -/
def present (g : UndirectedDenseGraph) (i j : Nat) : Bool :=
  !isSame (g.cell i j) g.absent

end UndirectedDenseGraph

namespace UndirectedDenseGraph

/-- The number of cells of row `i`, off the diagonal, that hold an edge. -/
def degreeOf (g : UndirectedDenseGraph) (i : Nat) : Nat :=
  (List.range g.mat.n).countP (fun j => decide (j ≠ i) && g.present i j)

/-- The columns of row `i`, off the diagonal, whose cell holds an edge. -/
def neighborsOf (g : UndirectedDenseGraph) (i : Nat) : List Node :=
  ((List.range g.mat.n).filter (fun j => decide (j ≠ i) && g.present i j)).map
    (fun j : Nat => (⟨(j : Int)⟩ : Node))

/-- The edges of row `i` right of the diagonal. -/
def rowEdges (g : UndirectedDenseGraph) (i : Nat) : List Simple.Edge :=
  ((List.range' (i + 1) (g.mat.n - (i + 1))).filter (g.present i)).map
    (fun j : Nat => (⟨⟨(i : Int)⟩, ⟨(j : Int)⟩, g.cell i j⟩ : Simple.Edge))

/-- The edges of the upper triangle, row by row. -/
def upperEdges (g : UndirectedDenseGraph) : List Simple.Edge :=
  (List.range g.mat.n).flatMap g.rowEdges

end UndirectedDenseGraph

/-- A call of one of the two mutating methods of the dense store. -/
inductive DenseCall where
  | setEdgeWeight (e : Edge)
  | removeEdge (e : Edge)
  deriving DecidableEq, Repr

/-- The dense store a call leaves behind. -/
def DenseCall.run (g : UndirectedDenseGraph) : DenseCall → UndirectedDenseGraph
  | .setEdgeWeight e => (g.SetEdgeWeight e).2
  | .removeEdge e => (g.RemoveEdge e).2

/-- The dense store a sequence of calls leaves behind. -/
def runDense (g : UndirectedDenseGraph) (calls : List DenseCall) : UndirectedDenseGraph :=
  calls.foldl DenseCall.run g

/-- The scenario of the spec: a 4-node dense store, fully disconnected, with
`absent = +Inf`. -/
def denseFour : UndirectedDenseGraph :=
  (NewUndirectedDenseGraph 4 false Float64.zero Float64.posInf).store

/-- A 3-node dense store, fully connected, with `absent = +Inf`. -/
def denseThree : UndirectedDenseGraph :=
  (NewUndirectedDenseGraph 3 true Float64.zero Float64.posInf).store

/-- The scenario of the spec after `SetEdge({0, 1, w=1})`. -/
def denseFourEdge : UndirectedDenseGraph := (denseFour.SetEdgeWeight (unitEdge 0 1)).2

/-- Calls on a dense store: set 0-1, try the self-pair 2-2, remove 0-1, set 1-2, remove
the self-pair 1-1. -/
def sampleDenseCalls : List DenseCall :=
  [.setEdgeWeight (unitEdge 0 1), .setEdgeWeight (unitEdge 2 2), .removeEdge (unitEdge 0 1),
    .setEdgeWeight (unitEdge 1 2), .removeEdge (unitEdge 1 1)]

/-- A 2-node dense store made with `passable = true` and `absent = 1`. -/
def denseAbsentOne : UndirectedDenseGraph :=
  (NewUndirectedDenseGraph 2 true Float64.zero Float64.one).store

/-- The weight `-0`. -/
def Float64.negZero : Float64 := ⟨0x8000000000000000⟩

/-- A 4-node dense store, fully disconnected, with `absent = +0`, after
`SetEdgeWeight` of the pair 0-1 with the weight `-0`. -/
def denseNegZero : UndirectedDenseGraph :=
  ((NewUndirectedDenseGraph 4 false Float64.zero Float64.zero).store.SetEdgeWeight
    ⟨⟨0⟩, ⟨1⟩, Float64.negZero⟩).2

/-- The store the constructor returns for `n = 1<<32`, `passable = true` and
`absent = +Inf`. -/
def denseOverflow : UndirectedDenseGraph :=
  (NewUndirectedDenseGraph 4294967296 true Float64.zero Float64.posInf).store

/-! ## Facts about Go maps -/

namespace GoMap

variable {α : Type}

theorem index_assign (m : GoMap α) (k k' : Int) (v : α) :
    index (assign m k v) k' = if k' = k then some v else index m k' := by
  induction m with
  | nil =>
    by_cases h : k' = k
    · simp [assign, index, h]
    · have h' : ¬ k = k' := fun e => h e.symm
      simp [assign, index, h, h']
  | cons p m ih =>
    obtain ⟨a, b⟩ := p
    by_cases hak : a = k
    · subst hak
      by_cases h : k' = a
      · simp [assign, index, h]
      · have h' : ¬ a = k' := fun e => h e.symm
        simp [assign, index, h, h']
    · by_cases h : k' = k
      · subst h
        simp [assign, index, hak, ih]
      · by_cases hak' : a = k'
        · simp [assign, index, hak, hak', h]
        · simp [assign, index, hak, hak', h, ih]

theorem index_assign_self (m : GoMap α) (k : Int) (v : α) :
    index (assign m k v) k = some v := by
  simp [index_assign]

theorem index_assign_ne (m : GoMap α) {k k' : Int} (v : α) (h : k' ≠ k) :
    index (assign m k v) k' = index m k' := by
  simp [index_assign, h]

theorem index_delete (m : GoMap α) (k k' : Int) :
    index (delete m k) k' = if k' = k then none else index m k' := by
  induction m with
  | nil => simp [delete, index]
  | cons p m ih =>
    obtain ⟨a, b⟩ := p
    by_cases hak : a = k
    · subst hak
      by_cases h : k' = a
      · subst h
        simpa [delete] using ih
      · have h' : ¬ a = k' := fun e => h e.symm
        simp [delete, index, ih, h, h']
    · by_cases h : k' = k
      · subst h
        simp [delete, index, hak, ih]
      · by_cases hak' : a = k'
        · subst hak'
          simp [delete, index, h]
        · simp [delete, index, hak, hak', h, ih]

theorem index_delete_self (m : GoMap α) (k : Int) : index (delete m k) k = none := by
  simp [index_delete]

theorem index_delete_ne (m : GoMap α) {k k' : Int} (h : k' ≠ k) :
    index (delete m k) k' = index m k' := by
  simp [index_delete, h]

theorem mem_keys_iff (m : GoMap α) (k : Int) : k ∈ keys m ↔ index m k ≠ none := by
  induction m with
  | nil => simp [keys, index]
  | cons p m ih =>
    obtain ⟨a, b⟩ := p
    by_cases hak : a = k
    · simp [keys, index, hak]
    · have h' : ¬ k = a := fun e => hak e.symm
      have ih' : k ∈ List.map Prod.fst m ↔ index m k ≠ none := ih
      simp [keys, index, hak, h', ih']

theorem not_mem_keys_iff (m : GoMap α) (k : Int) : k ∉ keys m ↔ index m k = none := by
  rw [mem_keys_iff]; simp

theorem keys_assign_of_mem (m : GoMap α) (k : Int) (v : α) (h : index m k ≠ none) :
    keys (assign m k v) = keys m := by
  induction m with
  | nil => simp [index] at h
  | cons p m ih =>
    obtain ⟨a, b⟩ := p
    by_cases hak : a = k
    · simp [assign, keys, hak]
    · have h2 : index m k ≠ none := by simpa [index, hak] using h
      have ih' : List.map Prod.fst (assign m k v) = List.map Prod.fst m := ih h2
      simp [assign, keys, hak, ih']

theorem keys_assign_of_not_mem (m : GoMap α) (k : Int) (v : α) (h : index m k = none) :
    keys (assign m k v) = keys m ++ [k] := by
  induction m with
  | nil => simp [assign, keys]
  | cons p m ih =>
    obtain ⟨a, b⟩ := p
    by_cases hak : a = k
    · simp [index, hak] at h
    · have h2 : index m k = none := by simpa [index, hak] using h
      have ih' : List.map Prod.fst (assign m k v) = List.map Prod.fst m ++ [k] := ih h2
      simp [assign, keys, hak, ih']

theorem nodup_keys_assign (m : GoMap α) (k : Int) (v : α) (h : (keys m).Nodup) :
    (keys (assign m k v)).Nodup := by
  by_cases hk : index m k = none
  · rw [keys_assign_of_not_mem m k v hk]
    have hn : k ∉ keys m := (not_mem_keys_iff m k).2 hk
    exact List.Nodup.append h (List.nodup_singleton k) (by
      intro x hx hx2
      simp at hx2
      subst hx2
      exact hn hx)
  · rw [keys_assign_of_mem m k v hk]; exact h

theorem keys_delete (m : GoMap α) (k : Int) :
    keys (delete m k) = (keys m).filter (fun x => decide (x ≠ k)) := by
  induction m with
  | nil => simp [delete, keys]
  | cons p m ih =>
    obtain ⟨a, b⟩ := p
    have ih' : List.map Prod.fst (delete m k)
        = List.filter (fun x => decide (x ≠ k)) (List.map Prod.fst m) := ih
    by_cases hak : a = k
    · simp [delete, keys, hak] at ih' ⊢
      exact ih'
    · simp [delete, keys, hak] at ih' ⊢
      exact ih'

theorem nodup_keys_delete (m : GoMap α) (k : Int) (h : (keys m).Nodup) :
    (keys (delete m k)).Nodup := by
  rw [keys_delete]; exact h.filter _

theorem assign_eq_self (m : GoMap α) (k : Int) (v : α) (h : index m k = some v) :
    assign m k v = m := by
  induction m with
  | nil => simp [index] at h
  | cons p m ih =>
    obtain ⟨a, b⟩ := p
    by_cases hak : a = k
    · simp [index, hak] at h
      simp [assign, hak, h]
    · have h2 : index m k = some v := by simpa [index, hak] using h
      simp [assign, hak, ih h2]

theorem delete_eq_self (m : GoMap α) (k : Int) (h : index m k = none) :
    delete m k = m := by
  induction m with
  | nil => rfl
  | cons p m ih =>
    obtain ⟨a, b⟩ := p
    by_cases hak : a = k
    · simp [index, hak] at h
    · have h2 : index m k = none := by simpa [index, hak] using h
      simp [delete, hak, ih h2]

theorem assign_assign (m : GoMap α) (k : Int) (v w : α) :
    assign (assign m k v) k w = assign m k w := by
  induction m with
  | nil => simp [assign]
  | cons p m ih =>
    obtain ⟨a, b⟩ := p
    by_cases hak : a = k
    · simp [assign, hak]
    · simp [assign, hak, ih]

theorem delete_delete (m : GoMap α) (k : Int) : delete (delete m k) k = delete m k :=
  delete_eq_self _ _ (index_delete_self m k)

theorem len_assign_of_mem (m : GoMap α) (k : Int) (v : α) (h : index m k ≠ none) :
    len (assign m k v) = len m := by
  have := congrArg List.length (keys_assign_of_mem m k v h)
  simpa [keys, len] using this

theorem len_assign_of_not_mem (m : GoMap α) (k : Int) (v : α) (h : index m k = none) :
    len (assign m k v) = len m + 1 := by
  have := congrArg List.length (keys_assign_of_not_mem m k v h)
  simpa [keys, len] using this

/-! ### Maps of maps -/

theorem index2_assign (m : GoMap (GoMap α)) (k : Int) (inner : GoMap α) (u v : Int) :
    index2 (assign m k inner) u v = if u = k then index inner v else index2 m u v := by
  unfold index2
  rw [index_assign]
  by_cases h : u = k <;> simp [h]

theorem index2_delete (m : GoMap (GoMap α)) (k u v : Int) :
    index2 (delete m k) u v = if u = k then none else index2 m u v := by
  unfold index2
  rw [index_delete]
  by_cases h : u = k <;> simp [h]

theorem index_deleteIn (m : GoMap (GoMap α)) (k j u : Int) :
    index (deleteIn m k j) u
      = (index m u).map (fun s => if u = k then delete s j else s) := by
  unfold deleteIn
  cases hk : index m k with
  | none =>
    by_cases h : u = k
    · subst h; simp [hk]
    · simp [h]
  | some inner =>
    simp only [index_assign]
    by_cases h : u = k
    · subst h; simp [hk]
    · simp [h]

theorem index_deleteIn_eq_none (m : GoMap (GoMap α)) (k j u : Int) :
    index (deleteIn m k j) u = none ↔ index m u = none := by
  rw [index_deleteIn]; simp

theorem keys_deleteIn (m : GoMap (GoMap α)) (k j : Int) :
    keys (deleteIn m k j) = keys m := by
  unfold deleteIn
  cases hk : index m k with
  | none => rfl
  | some inner => exact keys_assign_of_mem m k _ (by simp [hk])

theorem index2_deleteIn (m : GoMap (GoMap α)) (k j u v : Int) :
    index2 (deleteIn m k j) u v = if u = k ∧ v = j then none else index2 m u v := by
  unfold index2
  rw [index_deleteIn]
  cases hu : index m u with
  | none => simp
  | some s =>
    by_cases h : u = k
    · by_cases hv : v = j
      · simp [h, hv, index_delete]
      · simp [h, hv, index_delete]
    · simp [h]

theorem deleteIn_eq_self (m : GoMap (GoMap α)) (k j : Int) (h : index2 m k j = none) :
    deleteIn m k j = m := by
  unfold deleteIn
  unfold index2 at h
  cases hk : index m k with
  | none => rfl
  | some inner =>
    rw [hk] at h
    simp only
    rw [delete_eq_self inner j h]
    exact assign_eq_self m k inner hk

theorem deleteIn_deleteIn (m : GoMap (GoMap α)) (k j : Int) :
    deleteIn (deleteIn m k j) k j = deleteIn m k j :=
  deleteIn_eq_self _ _ _ (by simp [index2_deleteIn])

/-- The loop `for k := range ks { delete(m[k], j) }`. -/
theorem index_foldl_deleteIn (ks : List Int) (m : GoMap (GoMap α)) (j u : Int) :
    index (ks.foldl (fun p k => deleteIn p k j) m) u
      = (index m u).map (fun s => if u ∈ ks then delete s j else s) := by
  induction ks generalizing m with
  | nil => simp
  | cons k ks ih =>
    rw [List.foldl_cons, ih, index_deleteIn]
    cases hu : index m u with
    | none => simp
    | some s =>
      by_cases h : u = k
      · by_cases h2 : u ∈ ks
        · have h3 : k ∈ ks := by rw [← h]; exact h2
          simp [h, h3, delete_delete]
        · have h3 : k ∉ ks := by rw [← h]; exact h2
          simp [h, h3]
      · by_cases h2 : u ∈ ks
        · simp [h, h2]
        · simp [h, h2]

theorem keys_foldl_deleteIn (ks : List Int) (m : GoMap (GoMap α)) (j : Int) :
    keys (ks.foldl (fun p k => deleteIn p k j) m) = keys m := by
  induction ks generalizing m with
  | nil => rfl
  | cons k ks ih => rw [List.foldl_cons, ih, keys_deleteIn]

theorem index2_foldl_deleteIn (ks : List Int) (m : GoMap (GoMap α)) (j u v : Int) :
    index2 (ks.foldl (fun p k => deleteIn p k j) m) u v
      = if u ∈ ks ∧ v = j then none else index2 m u v := by
  unfold index2
  rw [index_foldl_deleteIn]
  cases hu : index m u with
  | none => simp
  | some s =>
    by_cases h : u ∈ ks
    · by_cases hv : v = j
      · simp [h, hv, index_delete]
      · simp [h, hv, index_delete]
    · simp [h]

theorem foldl_deleteIn_eq_self (ks : List Int) (m : GoMap (GoMap α)) (j : Int)
    (h : ∀ k ∈ ks, index2 m k j = none) :
    ks.foldl (fun p k => deleteIn p k j) m = m := by
  induction ks generalizing m with
  | nil => rfl
  | cons k ks ih =>
    rw [List.foldl_cons, deleteIn_eq_self m k j (h k (List.mem_cons_self k ks))]
    exact ih m (fun x hx => h x (List.mem_cons_of_mem k hx))

theorem index_assignIn (m m' : GoMap (GoMap α)) (k j : Int) (v : α)
    (h : assignIn m k j v = some m') (u : Int) :
    index m' u = (index m u).map (fun s => if u = k then assign s j v else s) := by
  unfold assignIn at h
  cases hk : index m k with
  | none => simp [hk] at h
  | some inner =>
    simp [hk] at h
    subst h
    rw [index_assign]
    by_cases hu : u = k
    · subst hu; simp [hk]
    · simp [hu]

theorem index2_assignIn (m m' : GoMap (GoMap α)) (k j : Int) (v : α)
    (h : assignIn m k j v = some m') (u w : Int) :
    index2 m' u w = if u = k ∧ w = j then some v else index2 m u w := by
  unfold index2
  rw [index_assignIn m m' k j v h u]
  have hk : index m k ≠ none := by
    unfold assignIn at h
    intro hn
    simp [hn] at h
  cases hu : index m u with
  | none =>
    have : u ≠ k := by
      intro e
      rw [e] at hu
      exact hk hu
    simp [this]
  | some s =>
    by_cases hu2 : u = k
    · by_cases hw : w = j
      · simp [hu2, hw, index_assign]
      · simp [hu2, hw, index_assign]
    · simp [hu2]

theorem assignIn_isSome (m : GoMap (GoMap α)) (k j : Int) (v : α)
    (h : index m k ≠ none) : ∃ m', assignIn m k j v = some m' := by
  unfold assignIn
  cases hk : index m k with
  | none => exact absurd hk h
  | some inner => exact ⟨_, rfl⟩

theorem keys_assignIn (m m' : GoMap (GoMap α)) (k j : Int) (v : α)
    (h : assignIn m k j v = some m') : keys m' = keys m := by
  unfold assignIn at h
  cases hk : index m k with
  | none => simp [hk] at h
  | some inner =>
    simp [hk] at h
    subst h
    exact keys_assign_of_mem m k _ (by simp [hk])

end GoMap

theorem mem_innerKeys (m : GoMap (GoMap Edge)) (k u : Int) :
    u ∈ innerKeys m k ↔ m.index2 k u ≠ none := by
  unfold innerKeys GoMap.index2
  cases m.index k with
  | none => simp
  | some inner => exact GoMap.mem_keys_iff inner u

/-! ## The invariant is kept by every call -/

theorem index2_eq_none_of_index (m : GoMap (GoMap Edge)) (k v : Int)
    (h : m.index k = none) : m.index2 k v = none := by
  unfold GoMap.index2; rw [h]

theorem index_ne_none_of_index2 (m : GoMap (GoMap Edge)) (k v : Int)
    (h : m.index2 k v ≠ none) : m.index k ≠ none := by
  intro hn; exact h (index2_eq_none_of_index m k v hn)

theorem Inv.sourceLive {g : DirectedGraph} (h : Inv g) (u v : Int)
    (he : g.successors.index2 u v ≠ none) : g.nodeMap.index u ≠ none := by
  intro hn
  exact index_ne_none_of_index2 _ _ _ he ((h.succKeys u).2 hn)

theorem Inv.succ_dead_left {g : DirectedGraph} (h : Inv g) (u v : Int)
    (hd : g.nodeMap.index u = none) : g.successors.index2 u v = none :=
  index2_eq_none_of_index _ _ _ ((h.succKeys u).2 hd)

theorem Inv.succ_dead_right {g : DirectedGraph} (h : Inv g) (u v : Int)
    (hd : g.nodeMap.index v = none) : g.successors.index2 u v = none := by
  by_contra hne
  exact h.targetLive u v hne hd

theorem Inv.pred_dead_left {g : DirectedGraph} (h : Inv g) (u v : Int)
    (hd : g.nodeMap.index u = none) : g.predecessors.index2 u v = none :=
  index2_eq_none_of_index _ _ _ ((h.predKeys u).2 hd)

theorem Inv.pred_dead_right {g : DirectedGraph} (h : Inv g) (u v : Int)
    (hd : g.nodeMap.index v = none) : g.predecessors.index2 u v = none := by
  rw [← h.mirror]; exact h.succ_dead_left v u hd

theorem Inv_NewDirectedGraph (self absent : Float64) : Inv (NewDirectedGraph self absent) := by
  constructor <;> simp [NewDirectedGraph, GoMap.keys, GoMap.index, GoMap.index2, maxInt]

theorem AddNode_of_dead (g : DirectedGraph) (n : Node) (h : g.nodeMap.index n.ID = none) :
    AddNode g n = (.ok (),
      { g with
        nodeMap := g.nodeMap.assign n.ID n
        successors := g.successors.assign n.ID []
        predecessors := g.predecessors.assign n.ID []
        freeMap := g.freeMap.delete n.ID
        maxID := max g.maxID n.ID }) := by
  unfold AddNode; rw [h]

theorem AddNode_of_live (g : DirectedGraph) (n : Node) (h : g.nodeMap.index n.ID ≠ none) :
    AddNode g n = (.panic (.nodeIDCollision n.ID), g) := by
  unfold AddNode
  cases hn : g.nodeMap.index n.ID with
  | none => exact absurd hn h
  | some x => rfl

theorem Inv_AddNode (g : DirectedGraph) (n : Node) (hI : Inv g) (hv : n.valid) :
    Inv (AddNode g n).2 := by
  by_cases hd : g.nodeMap.index n.ID = none
  · rw [AddNode_of_dead g n hd]
    have hsd := (hI.succKeys n.ID).2 hd
    have hpd := (hI.predKeys n.ID).2 hd
    constructor
    · exact GoMap.nodup_keys_assign _ _ _ hI.nodesNodup
    · exact GoMap.nodup_keys_assign _ _ _ hI.succNodup
    · exact GoMap.nodup_keys_assign _ _ _ hI.predNodup
    · exact GoMap.nodup_keys_delete _ _ hI.freeNodup
    · intro k s hk
      simp only [GoMap.index_assign] at hk
      by_cases hkn : k = n.ID
      · simp [hkn] at hk; subst hk; simp [GoMap.keys]
      · simp [hkn] at hk; exact hI.succInner k s hk
    · intro k s hk
      simp only [GoMap.index_assign] at hk
      by_cases hkn : k = n.ID
      · simp [hkn] at hk; subst hk; simp [GoMap.keys]
      · simp [hkn] at hk; exact hI.predInner k s hk
    · intro k
      simp only [GoMap.index_assign]
      by_cases hkn : k = n.ID
      · simp [hkn]
      · simp [hkn]; exact hI.succKeys k
    · intro k
      simp only [GoMap.index_assign]
      by_cases hkn : k = n.ID
      · simp [hkn]
      · simp [hkn]; exact hI.predKeys k
    · intro u v
      simp only [GoMap.index2_assign]
      by_cases hu : u = n.ID
      · by_cases hv2 : v = n.ID
        · simp [hu, hv2, GoMap.index]
        · simp [hu, hv2, GoMap.index]
          exact (hI.pred_dead_right v n.ID hd).symm
      · by_cases hv2 : v = n.ID
        · simp [hu, hv2, GoMap.index]
          exact hI.succ_dead_right u n.ID hd
        · simp [hu, hv2]; exact hI.mirror u v
    · intro u
      simp only [GoMap.index2_assign]
      by_cases hu : u = n.ID
      · simp [hu, GoMap.index]
      · simp [hu]; exact hI.noLoop u
    · intro u v
      simp only [GoMap.index2_assign, GoMap.index_assign]
      by_cases hu : u = n.ID
      · simp [hu, GoMap.index]
      · by_cases hv2 : v = n.ID
        · simp [hu, hv2]
        · simp [hu, hv2]; exact hI.targetLive u v
    · intro u v e
      simp only [GoMap.index2_assign]
      by_cases hu : u = n.ID
      · simp [hu, GoMap.index]
      · simp [hu]; exact hI.endpoints u v e
    · intro k m
      simp only [GoMap.index_assign]
      by_cases hkn : k = n.ID
      · simp [hkn]; intro e; rw [← e]
      · simp [hkn]; exact hI.nodeID k m
    · intro k
      simp only [GoMap.index_assign, GoMap.index_delete]
      by_cases hkn : k = n.ID
      · simp [hkn]
      · simp [hkn]; exact hI.freeDead k
    · intro k
      simp only [GoMap.index_assign]
      by_cases hkn : k = n.ID
      · simp [hkn]
      · simp [hkn]
        intro hk
        exact Or.inl (hI.liveLeMax k hk)
    · exact max_le hI.maxLe hv.2
    · exact le_max_of_le_left hI.maxNonneg
  · rw [AddNode_of_live g n hd]; exact hI

theorem addIfMissing_fst (g : DirectedGraph) (n : Node) : (addIfMissing g n).1 = .ok () := by
  unfold addIfMissing Has
  cases h : g.nodeMap.index n.ID with
  | none => simp [AddNode_of_dead g n h]
  | some x => simp

theorem addIfMissing_of_live (g : DirectedGraph) (n : Node)
    (h : g.nodeMap.index n.ID ≠ none) : addIfMissing g n = (.ok (), g) := by
  unfold addIfMissing Has
  cases hn : g.nodeMap.index n.ID with
  | none => exact absurd hn h
  | some x => simp

theorem addIfMissing_of_dead (g : DirectedGraph) (n : Node)
    (h : g.nodeMap.index n.ID = none) : addIfMissing g n = AddNode g n := by
  unfold addIfMissing Has
  simp [h]

theorem Inv_addIfMissing (g : DirectedGraph) (n : Node) (hI : Inv g) (hv : n.valid) :
    Inv (addIfMissing g n).2 := by
  by_cases h : g.nodeMap.index n.ID = none
  · rw [addIfMissing_of_dead g n h]; exact Inv_AddNode g n hI hv
  · rw [addIfMissing_of_live g n h]; exact hI

theorem addIfMissing_nodeMap (g : DirectedGraph) (n : Node) (k : Int) :
    (addIfMissing g n).2.nodeMap.index k
      = if k = n.ID ∧ g.nodeMap.index n.ID = none then some n else g.nodeMap.index k := by
  by_cases h : g.nodeMap.index n.ID = none
  · rw [addIfMissing_of_dead g n h, AddNode_of_dead g n h]
    simp [GoMap.index_assign, h]
  · rw [addIfMissing_of_live g n h]
    simp [h]

theorem addIfMissing_live (g : DirectedGraph) (n : Node) :
    (addIfMissing g n).2.nodeMap.index n.ID ≠ none := by
  rw [addIfMissing_nodeMap]
  by_cases h : g.nodeMap.index n.ID = none
  · simp [h]
  · simp [h]

theorem addIfMissing_keeps_live (g : DirectedGraph) (n : Node) (k : Int)
    (hk : g.nodeMap.index k ≠ none) : (addIfMissing g n).2.nodeMap.index k ≠ none := by
  rw [addIfMissing_nodeMap]
  by_cases h : k = n.ID ∧ g.nodeMap.index n.ID = none
  · simp [h]
  · simp [h]; exact hk

theorem addIfMissing_succ2 (g : DirectedGraph) (n : Node) (hI : Inv g) (u v : Int) :
    (addIfMissing g n).2.successors.index2 u v = g.successors.index2 u v := by
  by_cases h : g.nodeMap.index n.ID = none
  · rw [addIfMissing_of_dead g n h, AddNode_of_dead g n h]
    simp only [GoMap.index2_assign]
    by_cases hu : u = n.ID
    · simp [hu, GoMap.index]; exact (hI.succ_dead_left n.ID v h).symm
    · simp [hu]
  · rw [addIfMissing_of_live g n h]

theorem addIfMissing_pred2 (g : DirectedGraph) (n : Node) (hI : Inv g) (u v : Int) :
    (addIfMissing g n).2.predecessors.index2 u v = g.predecessors.index2 u v := by
  by_cases h : g.nodeMap.index n.ID = none
  · rw [addIfMissing_of_dead g n h, AddNode_of_dead g n h]
    simp only [GoMap.index2_assign]
    by_cases hu : u = n.ID
    · simp [hu, GoMap.index]; exact (hI.pred_dead_left n.ID v h).symm
    · simp [hu]
  · rw [addIfMissing_of_live g n h]

theorem Inv_withEndpoints (g : DirectedGraph) (e : Edge) (hI : Inv g) (hv : e.valid) :
    Inv (withEndpoints g e) :=
  Inv_addIfMissing _ _ (Inv_addIfMissing _ _ hI hv.1) hv.2

theorem withEndpoints_from_live (g : DirectedGraph) (e : Edge) :
    (withEndpoints g e).nodeMap.index e.From.ID ≠ none :=
  addIfMissing_keeps_live _ _ _ (addIfMissing_live g e.From)

theorem withEndpoints_to_live (g : DirectedGraph) (e : Edge) :
    (withEndpoints g e).nodeMap.index e.To.ID ≠ none :=
  addIfMissing_live _ e.To

theorem withEndpoints_keeps_live (g : DirectedGraph) (e : Edge) (k : Int)
    (hk : g.nodeMap.index k ≠ none) : (withEndpoints g e).nodeMap.index k ≠ none :=
  addIfMissing_keeps_live _ _ _ (addIfMissing_keeps_live _ _ _ hk)

theorem withEndpoints_succ2 (g : DirectedGraph) (e : Edge) (hI : Inv g) (hv : e.valid)
    (u v : Int) : (withEndpoints g e).successors.index2 u v = g.successors.index2 u v := by
  unfold withEndpoints
  rw [addIfMissing_succ2 (addIfMissing g e.From).2 e.To (Inv_addIfMissing g e.From hI hv.1),
    addIfMissing_succ2 g e.From hI]

theorem withEndpoints_pred2 (g : DirectedGraph) (e : Edge) (hI : Inv g) (hv : e.valid)
    (u v : Int) : (withEndpoints g e).predecessors.index2 u v = g.predecessors.index2 u v := by
  unfold withEndpoints
  rw [addIfMissing_pred2 (addIfMissing g e.From).2 e.To (Inv_addIfMissing g e.From hI hv.1),
    addIfMissing_pred2 g e.From hI]

/-- How `SetEdge` ends for distinct endpoint ids: the two assignments are made on the
store with both endpoints added, and each panics exactly when its inner map is nil. -/
theorem SetEdge_of_ne (g : DirectedGraph) (e : Edge) (hne : e.From.ID ≠ e.To.ID) :
    SetEdge g e =
      match (withEndpoints g e).successors.assignIn e.From.ID e.To.ID e with
      | none => (.panic .nilMapAssign, withEndpoints g e)
      | some s =>
        match (withEndpoints g e).predecessors.assignIn e.To.ID e.From.ID e with
        | none => (.panic .nilMapAssign, { withEndpoints g e with successors := s })
        | some p => (.ok (), { withEndpoints g e with successors := s, predecessors := p }) := by
  unfold SetEdge withEndpoints
  simp only [hne, if_false]
  have h1 := addIfMissing_fst g e.From
  generalize addIfMissing g e.From = r1 at h1 ⊢
  obtain ⟨a1, g1⟩ := r1
  simp only at h1
  subst h1
  simp only
  have h2 := addIfMissing_fst g1 e.To
  generalize addIfMissing g1 e.To = r2 at h2 ⊢
  obtain ⟨a2, g2⟩ := r2
  simp only at h2
  subst h2
  rfl

theorem SetEdge_of_eq (g : DirectedGraph) (e : Edge) (h : e.From.ID = e.To.ID) :
    SetEdge g e = (.panic .selfEdge, g) := by
  unfold SetEdge
  simp [h]

/-- For a store that satisfies the invariant, `SetEdge` with distinct endpoint ids
makes both assignments. -/
theorem SetEdge_ok (g : DirectedGraph) (e : Edge) (hI : Inv g) (hv : e.valid)
    (hne : e.From.ID ≠ e.To.ID) :
    ∃ s p, (withEndpoints g e).successors.assignIn e.From.ID e.To.ID e = some s ∧
      (withEndpoints g e).predecessors.assignIn e.To.ID e.From.ID e = some p ∧
      SetEdge g e = (.ok (), { withEndpoints g e with successors := s, predecessors := p }) := by
  have hI2 := Inv_withEndpoints g e hI hv
  have hs : (withEndpoints g e).successors.index e.From.ID ≠ none := fun hn =>
    withEndpoints_from_live g e ((hI2.succKeys _).1 hn)
  have hp : (withEndpoints g e).predecessors.index e.To.ID ≠ none := fun hn =>
    withEndpoints_to_live g e ((hI2.predKeys _).1 hn)
  obtain ⟨s, hs'⟩ := GoMap.assignIn_isSome _ e.From.ID e.To.ID e hs
  obtain ⟨p, hp'⟩ := GoMap.assignIn_isSome _ e.To.ID e.From.ID e hp
  refine ⟨s, p, hs', hp', ?_⟩
  rw [SetEdge_of_ne g e hne, hs']
  simp only
  rw [hp']

theorem Inv_assignEdge (g : DirectedGraph) (e : Edge) (s p : GoMap (GoMap Edge))
    (hI : Inv g) (hne : e.From.ID ≠ e.To.ID)
    (hs : g.successors.assignIn e.From.ID e.To.ID e = some s)
    (hp : g.predecessors.assignIn e.To.ID e.From.ID e = some p)
    (htl : g.nodeMap.index e.To.ID ≠ none) :
    Inv { g with successors := s, predecessors := p } := by
  constructor
  · exact hI.nodesNodup
  · show (GoMap.keys s).Nodup
    rw [GoMap.keys_assignIn _ _ _ _ _ hs]; exact hI.succNodup
  · show (GoMap.keys p).Nodup
    rw [GoMap.keys_assignIn _ _ _ _ _ hp]; exact hI.predNodup
  · exact hI.freeNodup
  · intro k x hk
    simp only [GoMap.index_assignIn _ _ _ _ _ hs] at hk
    cases h0 : g.successors.index k with
    | none => simp [h0] at hk
    | some s0 =>
      simp [h0] at hk
      subst hk
      by_cases hkf : k = e.From.ID
      · simp [hkf]; exact GoMap.nodup_keys_assign _ _ _ (hI.succInner k s0 h0)
      · simp [hkf]; exact hI.succInner k s0 h0
  · intro k x hk
    simp only [GoMap.index_assignIn _ _ _ _ _ hp] at hk
    cases h0 : g.predecessors.index k with
    | none => simp [h0] at hk
    | some s0 =>
      simp [h0] at hk
      subst hk
      by_cases hkf : k = e.To.ID
      · simp [hkf]; exact GoMap.nodup_keys_assign _ _ _ (hI.predInner k s0 h0)
      · simp [hkf]; exact hI.predInner k s0 h0
  · intro k
    simp only [GoMap.index_assignIn _ _ _ _ _ hs, Option.map_eq_none']
    exact hI.succKeys k
  · intro k
    simp only [GoMap.index_assignIn _ _ _ _ _ hp, Option.map_eq_none']
    exact hI.predKeys k
  · intro u v
    simp only [GoMap.index2_assignIn _ _ _ _ _ hs, GoMap.index2_assignIn _ _ _ _ _ hp]
    by_cases h : u = e.From.ID ∧ v = e.To.ID
    · simp [h]
    · have h' : ¬ (v = e.To.ID ∧ u = e.From.ID) := fun c => h ⟨c.2, c.1⟩
      simp only [h, h', if_false]
      exact hI.mirror u v
  · intro u
    simp only [GoMap.index2_assignIn _ _ _ _ _ hs]
    have h : ¬ (u = e.From.ID ∧ u = e.To.ID) := fun c => hne (c.1.symm.trans c.2)
    simp only [h, if_false]
    exact hI.noLoop u
  · intro u v
    simp only [GoMap.index2_assignIn _ _ _ _ _ hs]
    by_cases h : u = e.From.ID ∧ v = e.To.ID
    · intro _
      rw [h.2]; exact htl
    · simp only [h, if_false]
      exact hI.targetLive u v
  · intro u v x
    simp only [GoMap.index2_assignIn _ _ _ _ _ hs]
    by_cases h : u = e.From.ID ∧ v = e.To.ID
    · simp only [h, and_self, if_true]
      intro hx
      injection hx with hx
      subst hx
      exact ⟨rfl, rfl⟩
    · simp only [h, if_false]
      exact hI.endpoints u v x
  · exact hI.nodeID
  · exact hI.freeDead
  · exact hI.liveLeMax
  · exact hI.maxLe
  · exact hI.maxNonneg

theorem Inv_SetEdge (g : DirectedGraph) (e : Edge) (hI : Inv g) (hv : e.valid) :
    Inv (SetEdge g e).2 := by
  by_cases hne : e.From.ID = e.To.ID
  · rw [SetEdge_of_eq g e hne]; exact hI
  · obtain ⟨s, p, hs, hp, h⟩ := SetEdge_ok g e hI hv hne
    rw [h]
    have hI2 := Inv_withEndpoints g e hI hv
    have hp' : ({ withEndpoints g e with successors := s } : DirectedGraph).predecessors.assignIn
        e.To.ID e.From.ID e = some p := hp
    exact Inv_assignEdge (withEndpoints g e) e s p hI2 hne hs hp (withEndpoints_to_live g e)

theorem Inv_EmptyGraph (g : DirectedGraph) (hI : Inv g) : Inv (EmptyGraph g) := by
  have hf : (List.map Prod.fst g.freeMap).Nodup := hI.freeNodup
  constructor <;>
    simp [EmptyGraph, GoMap.keys, GoMap.index, GoMap.index2, hf, hI.maxLe, hI.maxNonneg]

theorem Inv_RemoveEdge (g : DirectedGraph) (e : Edge) (hI : Inv g) : Inv (RemoveEdge g e) := by
  unfold RemoveEdge
  cases hf : g.nodeMap.index e.From.ID with
  | none => exact hI
  | some nf =>
    cases ht : g.nodeMap.index e.To.ID with
    | none => exact hI
    | some nt =>
      simp only
      constructor
      · exact hI.nodesNodup
      · show (GoMap.keys (GoMap.deleteIn _ _ _)).Nodup
        rw [GoMap.keys_deleteIn]; exact hI.succNodup
      · show (GoMap.keys (GoMap.deleteIn _ _ _)).Nodup
        rw [GoMap.keys_deleteIn]; exact hI.predNodup
      · exact hI.freeNodup
      · intro k x hk
        simp only [GoMap.index_deleteIn] at hk
        cases h0 : g.successors.index k with
        | none => simp [h0] at hk
        | some s0 =>
          simp [h0] at hk
          subst hk
          by_cases hkf : k = e.From.ID
          · simp [hkf]; exact GoMap.nodup_keys_delete _ _ (hI.succInner k s0 h0)
          · simp [hkf]; exact hI.succInner k s0 h0
      · intro k x hk
        simp only [GoMap.index_deleteIn] at hk
        cases h0 : g.predecessors.index k with
        | none => simp [h0] at hk
        | some s0 =>
          simp [h0] at hk
          subst hk
          by_cases hkf : k = e.To.ID
          · simp [hkf]; exact GoMap.nodup_keys_delete _ _ (hI.predInner k s0 h0)
          · simp [hkf]; exact hI.predInner k s0 h0
      · intro k
        simp only [GoMap.index_deleteIn_eq_none]
        exact hI.succKeys k
      · intro k
        simp only [GoMap.index_deleteIn_eq_none]
        exact hI.predKeys k
      · intro u v
        simp only [GoMap.index2_deleteIn]
        by_cases h : u = e.From.ID ∧ v = e.To.ID
        · simp [h]
        · have h' : ¬ (v = e.To.ID ∧ u = e.From.ID) := fun c => h ⟨c.2, c.1⟩
          simp only [h, h', if_false]
          exact hI.mirror u v
      · intro u
        simp only [GoMap.index2_deleteIn]
        by_cases h : u = e.From.ID ∧ u = e.To.ID
        · rw [if_pos h]
        · simp only [h, if_false]; exact hI.noLoop u
      · intro u v
        simp only [GoMap.index2_deleteIn]
        by_cases h : u = e.From.ID ∧ v = e.To.ID
        · simp [h]
        · simp only [h, if_false]; exact hI.targetLive u v
      · intro u v x
        simp only [GoMap.index2_deleteIn]
        by_cases h : u = e.From.ID ∧ v = e.To.ID
        · simp [h]
        · simp only [h, if_false]; exact hI.endpoints u v x
      · exact hI.nodeID
      · exact hI.freeDead
      · exact hI.liveLeMax
      · exact hI.maxLe
      · exact hI.maxNonneg

/-! ### `RemoveNode` -/

theorem RemoveNode_of_live (g : DirectedGraph) (n : Node)
    (h : g.nodeMap.index n.ID ≠ none) :
    RemoveNode g n =
      { g with
        nodeMap := g.nodeMap.delete n.ID
        successors := succAfterLoop g n.ID
        predecessors := (predAfterLoop g n.ID).delete n.ID
        freeMap := g.freeMap.assign n.ID () } := by
  unfold RemoveNode
  cases hn : g.nodeMap.index n.ID with
  | none => exact absurd hn h
  | some x => rfl

theorem RemoveNode_of_dead (g : DirectedGraph) (n : Node)
    (h : g.nodeMap.index n.ID = none) : RemoveNode g n = g := by
  unfold RemoveNode; rw [h]

theorem predAfterLoop_index2 (g : DirectedGraph) (hI : Inv g) (id u v : Int) :
    (predAfterLoop g id).index2 u v
      = if u ≠ id ∧ v = id then none else g.predecessors.index2 u v := by
  unfold predAfterLoop
  rw [GoMap.index2_foldl_deleteIn]
  by_cases hv : v = id
  · subst hv
    by_cases hu : u = v
    · subst hu
      have : g.predecessors.index2 u u = none := by rw [← hI.mirror]; exact hI.noLoop u
      simp [this]
    · by_cases hm : u ∈ innerKeys g.successors v
      · simp [hu, hm]
      · have h0 : g.successors.index2 v u = none := by
          by_contra hc
          exact hm ((mem_innerKeys _ _ _).2 hc)
        have h1 : g.predecessors.index2 u v = none := by rw [← hI.mirror]; exact h0
        simp [hu, hm, h1]
  · simp [hv]

theorem succAfterLoop_index2 (g : DirectedGraph) (hI : Inv g) (id u v : Int) :
    (succAfterLoop g id).index2 u v
      = if u = id ∨ v = id then none else g.successors.index2 u v := by
  unfold succAfterLoop
  rw [GoMap.index2_foldl_deleteIn, GoMap.index2_delete]
  by_cases hu : u = id
  · simp [hu]
  · by_cases hv : v = id
    · subst hv
      by_cases hm : u ∈ innerKeys (predAfterLoop g v) v
      · simp [hu, hm]
      · have h0 : (predAfterLoop g v).index2 v u = none := by
          by_contra hc
          exact hm ((mem_innerKeys _ _ _).2 hc)
        rw [predAfterLoop_index2 g hI] at h0
        have hu' : ¬ (v ≠ v ∧ u = v) := fun c => c.1 rfl
        rw [if_neg hu'] at h0
        have h1 : g.successors.index2 u v = none := by rw [hI.mirror]; exact h0
        simp [hu, hm, h1]
    · simp [hu, hv]

theorem RemoveNode_succ2 (g : DirectedGraph) (n : Node) (hI : Inv g)
    (h : g.nodeMap.index n.ID ≠ none) (u v : Int) :
    (RemoveNode g n).successors.index2 u v
      = if u = n.ID ∨ v = n.ID then none else g.successors.index2 u v := by
  rw [RemoveNode_of_live g n h]
  exact succAfterLoop_index2 g hI n.ID u v

theorem RemoveNode_pred2 (g : DirectedGraph) (n : Node) (hI : Inv g)
    (h : g.nodeMap.index n.ID ≠ none) (u v : Int) :
    (RemoveNode g n).predecessors.index2 u v
      = if u = n.ID ∨ v = n.ID then none else g.predecessors.index2 u v := by
  rw [RemoveNode_of_live g n h]
  show ((predAfterLoop g n.ID).delete n.ID).index2 u v = _
  rw [GoMap.index2_delete, predAfterLoop_index2 g hI]
  by_cases hu : u = n.ID
  · simp [hu]
  · by_cases hv : v = n.ID
    · simp [hu, hv]
    · simp [hu, hv]

theorem predAfterLoop_index (g : DirectedGraph) (id k : Int) :
    ∃ f : GoMap Edge → GoMap Edge, (∀ s, f s = s ∨ f s = s.delete id) ∧
      (predAfterLoop g id).index k = (g.predecessors.index k).map f := by
  unfold predAfterLoop
  refine ⟨fun s => if k ∈ innerKeys g.successors id then s.delete id else s, ?_, ?_⟩
  · intro s
    by_cases hm : k ∈ innerKeys g.successors id
    · right; simp [hm]
    · left; simp [hm]
  · exact GoMap.index_foldl_deleteIn _ _ _ _

theorem succAfterLoop_index (g : DirectedGraph) (id k : Int) :
    ∃ f : GoMap Edge → GoMap Edge, (∀ s, f s = s ∨ f s = s.delete id) ∧
      (succAfterLoop g id).index k
        = if k = id then none else (g.successors.index k).map f := by
  unfold succAfterLoop
  refine ⟨fun s => if k ∈ innerKeys (predAfterLoop g id) id then s.delete id else s, ?_, ?_⟩
  · intro s
    by_cases hm : k ∈ innerKeys (predAfterLoop g id) id
    · right; simp [hm]
    · left; simp [hm]
  · rw [GoMap.index_foldl_deleteIn, GoMap.index_delete]
    by_cases hk : k = id
    · simp [hk]
    · simp [hk]

theorem RemoveNode_succ_index_none (g : DirectedGraph) (n : Node)
    (h : g.nodeMap.index n.ID ≠ none) (k : Int) :
    (RemoveNode g n).successors.index k = none ↔ (k = n.ID ∨ g.successors.index k = none) := by
  rw [RemoveNode_of_live g n h]
  obtain ⟨f, _, hf⟩ := succAfterLoop_index g n.ID k
  show (succAfterLoop g n.ID).index k = none ↔ _
  rw [hf]
  by_cases hk : k = n.ID
  · simp [hk]
  · simp [hk]

theorem RemoveNode_pred_index_none (g : DirectedGraph) (n : Node)
    (h : g.nodeMap.index n.ID ≠ none) (k : Int) :
    (RemoveNode g n).predecessors.index k = none
      ↔ (k = n.ID ∨ g.predecessors.index k = none) := by
  rw [RemoveNode_of_live g n h]
  obtain ⟨f, _, hf⟩ := predAfterLoop_index g n.ID k
  show ((predAfterLoop g n.ID).delete n.ID).index k = none ↔ _
  rw [GoMap.index_delete, hf]
  by_cases hk : k = n.ID
  · simp [hk]
  · simp [hk]

theorem RemoveNode_nodeMap (g : DirectedGraph) (n : Node) (k : Int) :
    (RemoveNode g n).nodeMap.index k = if k = n.ID then none else g.nodeMap.index k := by
  by_cases h : g.nodeMap.index n.ID = none
  · rw [RemoveNode_of_dead g n h]
    by_cases hk : k = n.ID
    · simp [hk, h]
    · simp [hk]
  · rw [RemoveNode_of_live g n h]
    exact GoMap.index_delete _ _ _

theorem Inv_RemoveNode (g : DirectedGraph) (n : Node) (hI : Inv g) : Inv (RemoveNode g n) := by
  by_cases h : g.nodeMap.index n.ID = none
  · rw [RemoveNode_of_dead g n h]; exact hI
  · have hs2 := RemoveNode_succ2 g n hI h
    have hp2 := RemoveNode_pred2 g n hI h
    have hsn := RemoveNode_succ_index_none g n h
    have hpn := RemoveNode_pred_index_none g n h
    have hnm := RemoveNode_nodeMap g n
    constructor
    · rw [RemoveNode_of_live g n h]
      exact GoMap.nodup_keys_delete _ _ hI.nodesNodup
    · rw [RemoveNode_of_live g n h]
      show (GoMap.keys (succAfterLoop g n.ID)).Nodup
      unfold succAfterLoop
      rw [GoMap.keys_foldl_deleteIn]
      exact GoMap.nodup_keys_delete _ _ hI.succNodup
    · rw [RemoveNode_of_live g n h]
      show (GoMap.keys ((predAfterLoop g n.ID).delete n.ID)).Nodup
      apply GoMap.nodup_keys_delete
      unfold predAfterLoop
      rw [GoMap.keys_foldl_deleteIn]
      exact hI.predNodup
    · rw [RemoveNode_of_live g n h]
      exact GoMap.nodup_keys_assign _ _ _ hI.freeNodup
    · intro k x hk
      rw [RemoveNode_of_live g n h] at hk
      obtain ⟨f, hf1, hf2⟩ := succAfterLoop_index g n.ID k
      have hk' : (succAfterLoop g n.ID).index k = some x := hk
      rw [hf2] at hk'
      by_cases hkn : k = n.ID
      · simp [hkn] at hk'
      · simp only [hkn, if_false] at hk'
        cases h0 : g.successors.index k with
        | none => simp [h0] at hk'
        | some s0 =>
          simp [h0] at hk'
          subst hk'
          rcases hf1 s0 with e1 | e1
          · rw [e1]; exact hI.succInner k s0 h0
          · rw [e1]; exact GoMap.nodup_keys_delete _ _ (hI.succInner k s0 h0)
    · intro k x hk
      rw [RemoveNode_of_live g n h] at hk
      obtain ⟨f, hf1, hf2⟩ := predAfterLoop_index g n.ID k
      have hk' : ((predAfterLoop g n.ID).delete n.ID).index k = some x := hk
      rw [GoMap.index_delete, hf2] at hk'
      by_cases hkn : k = n.ID
      · simp [hkn] at hk'
      · simp only [hkn, if_false] at hk'
        cases h0 : g.predecessors.index k with
        | none => simp [h0] at hk'
        | some s0 =>
          simp [h0] at hk'
          subst hk'
          rcases hf1 s0 with e1 | e1
          · rw [e1]; exact hI.predInner k s0 h0
          · rw [e1]; exact GoMap.nodup_keys_delete _ _ (hI.predInner k s0 h0)
    · intro k
      rw [hsn, hnm]
      by_cases hk : k = n.ID
      · simp [hk]
      · simp [hk]; exact hI.succKeys k
    · intro k
      rw [hpn, hnm]
      by_cases hk : k = n.ID
      · simp [hk]
      · simp [hk]; exact hI.predKeys k
    · intro u v
      rw [hs2, hp2]
      by_cases hc : u = n.ID ∨ v = n.ID
      · have hc' : v = n.ID ∨ u = n.ID := hc.symm
        simp [hc, hc']
      · have hc' : ¬ (v = n.ID ∨ u = n.ID) := fun c => hc c.symm
        simp only [hc, hc', if_false]
        exact hI.mirror u v
    · intro u
      rw [hs2]
      by_cases hc : u = n.ID ∨ u = n.ID
      · rw [if_pos hc]
      · rw [if_neg hc]; exact hI.noLoop u
    · intro u v
      rw [hs2, hnm]
      by_cases hc : u = n.ID ∨ v = n.ID
      · rw [if_pos hc]; simp
      · rw [if_neg hc]
        have hv : ¬ v = n.ID := fun c => hc (Or.inr c)
        rw [if_neg hv]
        exact hI.targetLive u v
    · intro u v x
      rw [hs2]
      by_cases hc : u = n.ID ∨ v = n.ID
      · rw [if_pos hc]; simp
      · rw [if_neg hc]; exact hI.endpoints u v x
    · intro k m
      rw [hnm]
      by_cases hk : k = n.ID
      · simp [hk]
      · rw [if_neg hk]; exact hI.nodeID k m
    · intro k
      rw [hnm, RemoveNode_of_live g n h]
      simp only [GoMap.index_assign]
      by_cases hk : k = n.ID
      · simp [hk]
      · simp [hk]; exact hI.freeDead k
    · intro k
      rw [hnm, RemoveNode_of_live g n h]
      by_cases hk : k = n.ID
      · simp [hk]
      · rw [if_neg hk]; exact hI.liveLeMax k
    · rw [RemoveNode_of_live g n h]; exact hI.maxLe
    · rw [RemoveNode_of_live g n h]; exact hI.maxNonneg

/-! ### `NewNodeID` -/

theorem NewNodeID_of_ne (g : DirectedGraph) (start : Nat) (h : g.maxID ≠ maxInt) :
    NewNodeID g start = (.ok (g.maxID + 1), { g with maxID := g.maxID + 1 }) := by
  unfold NewNodeID
  rw [if_pos h]

theorem NewNodeID_of_eq (g : DirectedGraph) (start : Nat) (h : g.maxID = maxInt) :
    NewNodeID g start =
      match g.freeMap.rangeFirst start with
      | some id => (.ok id, g)
      | none =>
        if (g.nodeMap.len : Int) = maxInt then (.panic .graphTooLarge, g)
        else
          match scanFree g.nodeMap 0 maxInt.toNat with
          | some i => (.ok i, g)
          | none => (.panic .noFreeID, g) := by
  unfold NewNodeID
  rw [if_neg (fun c => c h)]

theorem NewNodeID_state_of_eq (g : DirectedGraph) (start : Nat) (h : g.maxID = maxInt) :
    (NewNodeID g start).2 = g := by
  rw [NewNodeID_of_eq g start h]
  cases g.freeMap.rangeFirst start with
  | some id => rfl
  | none =>
    simp only
    split
    · rfl
    · cases scanFree g.nodeMap 0 maxInt.toNat <;> rfl

theorem Inv_NewNodeID (g : DirectedGraph) (start : Nat) (hI : Inv g) :
    Inv (NewNodeID g start).2 := by
  by_cases h : g.maxID = maxInt
  · rw [NewNodeID_state_of_eq g start h]; exact hI
  · rw [NewNodeID_of_ne g start h]
    have h1 : g.maxID ≤ maxInt := hI.maxLe
    have h2 : 0 ≤ g.maxID := hI.maxNonneg
    exact
      { nodesNodup := hI.nodesNodup
        succNodup := hI.succNodup
        predNodup := hI.predNodup
        freeNodup := hI.freeNodup
        succInner := hI.succInner
        predInner := hI.predInner
        succKeys := hI.succKeys
        predKeys := hI.predKeys
        mirror := hI.mirror
        noLoop := hI.noLoop
        targetLive := hI.targetLive
        endpoints := hI.endpoints
        nodeID := hI.nodeID
        freeDead := hI.freeDead
        liveLeMax := fun k hk => by
          have := hI.liveLeMax k hk
          show k ≤ g.maxID + 1
          omega
        maxLe := by
          show g.maxID + 1 ≤ maxInt
          omega
        maxNonneg := by
          show 0 ≤ g.maxID + 1
          omega }

theorem rangeFirst_mem (m : GoMap Unit) (start : Nat) (id : Int)
    (h : m.rangeFirst start = some id) : m.index id ≠ none := by
  unfold GoMap.rangeFirst at h
  have hm : id ∈ GoMap.keys m := List.getElem?_mem h
  exact (GoMap.mem_keys_iff m id).1 hm

theorem rangeFirst_eq_none (m : GoMap Unit) (start : Nat)
    (h : m.rangeFirst start = none) : m = [] := by
  unfold GoMap.rangeFirst at h
  rw [List.getElem?_eq_none_iff] at h
  cases m with
  | nil => rfl
  | cons a l =>
    exfalso
    have hpos : 0 < l.length + 1 := Nat.succ_pos _
    have := Nat.mod_lt start hpos
    simp only [GoMap.keys, List.length_map, List.length_cons] at h
    omega

theorem rangeFirst_complete (m : GoMap Unit) (id : Int) (h : m.index id ≠ none) :
    ∃ start, m.rangeFirst start = some id := by
  have hm : id ∈ GoMap.keys m := (GoMap.mem_keys_iff m id).2 h
  obtain ⟨i, hi, hget⟩ := List.getElem_of_mem hm
  have hlen : i < m.length := by simpa [GoMap.keys] using hi
  refine ⟨i, ?_⟩
  unfold GoMap.rangeFirst
  rw [Nat.mod_eq_of_lt hlen, List.getElem?_eq_getElem hi, hget]

theorem scanFree_dead (nodeMap : GoMap Node) (fuel i : Nat) (id : Int)
    (h : scanFree nodeMap i fuel = some id) : nodeMap.index id = none := by
  induction fuel generalizing i with
  | zero => simp [scanFree] at h
  | succ fuel ih =>
    unfold scanFree at h
    cases hi : nodeMap.index (i : Int) with
    | none =>
      rw [hi] at h
      simp at h
      rw [← h]; exact hi
    | some x =>
      rw [hi] at h
      exact ih (i + 1) h

/-- Every id `NewNodeID` returns is dead in the store it was asked of. -/
theorem NewNodeID_dead (g : DirectedGraph) (start : Nat) (id : Int) (hI : Inv g)
    (h : (NewNodeID g start).1 = .ok id) : g.nodeMap.index id = none := by
  by_cases hm : g.maxID = maxInt
  · rw [NewNodeID_of_eq g start hm] at h
    cases hr : g.freeMap.rangeFirst start with
    | some x =>
      rw [hr] at h
      simp at h
      subst h
      exact hI.freeDead x (rangeFirst_mem _ _ _ hr)
    | none =>
      rw [hr] at h
      simp only at h
      split at h
      · simp at h
      · cases hsc : scanFree g.nodeMap 0 maxInt.toNat with
        | none => rw [hsc] at h; simp at h
        | some i =>
          rw [hsc] at h
          simp at h
          subst h
          exact scanFree_dead _ _ _ _ hsc
  · rw [NewNodeID_of_ne g start hm] at h
    simp at h
    subst h
    by_contra hc
    have := hI.liveLeMax _ hc
    omega

/-! ## Every reachable state satisfies the invariant -/

theorem Reachable.inv {g : DirectedGraph} (h : Reachable g) : Inv g := by
  induction h with
  | new self absent => exact Inv_NewDirectedGraph self absent
  | addNode n _ hv ih => exact Inv_AddNode _ n ih hv
  | setEdge e _ hv ih => exact Inv_SetEdge _ e ih hv
  | removeEdge e _ ih => exact Inv_RemoveEdge _ e ih
  | removeNode n _ ih => exact Inv_RemoveNode _ n ih
  | newNodeID start _ ih => exact Inv_NewNodeID _ start ih
  | emptyGraph _ ih => exact Inv_EmptyGraph _ ih

/-! ## `Nodes` -/

theorem fillNodes_append (ns : List Node) (filled : List (Option Node)) (k : Nat)
    (h : ns.length ≤ k) :
    fillNodes (filled ++ List.replicate k none) filled.length ns
      = .ok (filled ++ ns.map some ++ List.replicate (k - ns.length) none) := by
  induction ns generalizing filled k with
  | nil => simp [fillNodes]
  | cons n rest ih =>
    cases k with
    | zero => simp at h
    | succ k =>
      have hlen : rest.length ≤ k := by simpa using h
      unfold fillNodes
      have h1 : filled.length < (filled ++ List.replicate (k + 1) none).length := by
        simp
      rw [if_pos h1]
      have h2 : (filled ++ List.replicate (k + 1) (none : Option Node)).set filled.length (some n)
          = (filled ++ [some n]) ++ List.replicate k none := by
        rw [List.set_append_right _ _ (Nat.le_refl _)]
        simp [List.replicate_succ]
      rw [h2]
      have h3 : filled.length + 1 = (filled ++ [some n]).length := by simp
      rw [h3, ih (filled ++ [some n]) k hlen]
      simp

theorem keys_length_eq {α β : Type} (a : GoMap α) (b : GoMap β)
    (ha : a.keys.Nodup) (hb : b.keys.Nodup)
    (h : ∀ k, a.index k = none ↔ b.index k = none) : a.len = b.len := by
  have hp : List.Perm a.keys b.keys := by
    rw [List.perm_ext_iff_of_nodup ha hb]
    intro k
    rw [GoMap.mem_keys_iff, GoMap.mem_keys_iff, not_iff_not]
    exact h k
  have := hp.length_eq
  simpa [GoMap.keys, GoMap.len] using this

/-- In a store that satisfies the invariant `Nodes` returns the values of `nodeMap`,
one slot each. -/
theorem Nodes_of_inv (g : DirectedGraph) (hI : Inv g) :
    Nodes g = .ok (g.nodeMap.map (fun p => some p.2)) := by
  unfold Nodes
  have hlen : g.successors.len = g.nodeMap.len :=
    keys_length_eq _ _ hI.succNodup hI.nodesNodup hI.succKeys
  have hlen' : List.length g.successors = List.length g.nodeMap := hlen
  have h := fillNodes_append (g.nodeMap.map Prod.snd) [] g.successors.len
    (by simp [GoMap.len, hlen'])
  simp only [List.nil_append, List.length_nil] at h
  rw [h]
  simp [GoMap.len, hlen', List.map_map, Function.comp_def]

theorem index_of_mem {α : Type} (m : GoMap α) (k : Int) (v : α) (hn : m.keys.Nodup)
    (h : (k, v) ∈ m) : m.index k = some v := by
  induction m with
  | nil => simp at h
  | cons p m ih =>
    obtain ⟨a, b⟩ := p
    have hn' : a ∉ GoMap.keys m ∧ (GoMap.keys m).Nodup := by
      simpa [GoMap.keys] using hn
    rcases List.mem_cons.1 h with h1 | h1
    · injection h1 with h2 h3
      subst h2; subst h3
      simp [GoMap.index]
    · have hk : k ∈ GoMap.keys m := by
        simp only [GoMap.keys, List.mem_map]
        exact ⟨(k, v), h1, rfl⟩
      have hak : a ≠ k := by
        intro e
        subst e
        exact hn'.1 hk
      simp [GoMap.index, hak]
      exact ih hn'.2 h1

theorem mem_of_index {α : Type} (m : GoMap α) (k : Int) (v : α)
    (h : m.index k = some v) : (k, v) ∈ m := by
  induction m with
  | nil => simp [GoMap.index] at h
  | cons p m ih =>
    obtain ⟨a, b⟩ := p
    by_cases hak : a = k
    · simp [GoMap.index, hak] at h
      subst h; subst hak
      exact List.mem_cons_self _ _
    · simp [GoMap.index, hak] at h
      exact List.mem_cons_of_mem _ (ih h)

theorem reachable_generateDummyGraph : Reachable generateDummyGraph :=
  Reachable.setEdge (unitEdge 0 2)
    (Reachable.setEdge (unitEdge 2 0)
      (Reachable.setEdge (unitEdge 1 0)
        (Reachable.setEdge (unitEdge 2 1) (Reachable.new Float64.zero Float64.posInf)
          (by decide))
        (by decide))
      (by decide))
    (by decide)

/-! ## The mirror invariant -/

/-- C1. Mirror invariant of the directed store: in every reachable state, for all ids
`u` and `v`, `successors[u][v]` holds the edge `e` if and only if `predecessors[v][u]`
holds the same edge `e`, and in that case `u != v` and both `u` and `v` are live in
`nodeMap`. -/
theorem mirror_invariant (g : DirectedGraph) (hR : Reachable g) (u v : Int) (e : Edge) :
    (g.successors.index2 u v = some e ↔ g.predecessors.index2 v u = some e) ∧
    (g.successors.index2 u v = some e →
      u ≠ v ∧ g.nodeMap.index u ≠ none ∧ g.nodeMap.index v ≠ none) := by
  have hI := hR.inv
  refine ⟨by rw [hI.mirror u v], ?_⟩
  intro he
  have hne : g.successors.index2 u v ≠ none := by rw [he]; simp
  refine ⟨?_, hI.sourceLive u v hne, hI.targetLive u v hne⟩
  intro huv
  subst huv
  exact hne (hI.noLoop u)

/-- C1 at the store of `generateDummyGraph`, for the stored edge 2->1. -/
theorem mirror_invariant_witness :
    Reachable generateDummyGraph ∧
    generateDummyGraph.successors.index2 2 1 = some (unitEdge 2 1) ∧
    ((generateDummyGraph.successors.index2 2 1 = some (unitEdge 2 1)
        ↔ generateDummyGraph.predecessors.index2 1 2 = some (unitEdge 2 1)) ∧
      (generateDummyGraph.successors.index2 2 1 = some (unitEdge 2 1) →
        (2 : Int) ≠ 1 ∧ generateDummyGraph.nodeMap.index 2 ≠ none
          ∧ generateDummyGraph.nodeMap.index 1 ≠ none)) :=
  ⟨reachable_generateDummyGraph, by decide,
    mirror_invariant generateDummyGraph reachable_generateDummyGraph 2 1 (unitEdge 2 1)⟩

/-! ## Removing a node -/

/-- C2. No dangling references: for every reachable state and every live node `n`,
after `RemoveNode(n)` the id of `n` is not a key of `nodeMap`, `successors` or
`predecessors`, no other node's successor map or predecessor map contains `n`'s id as
a key, `n` is not in `Nodes()`, `n`'s id is in the free set, and every edge whose
endpoints are both different from `n` is still stored unchanged. -/
theorem removeNode_no_dangling (g : DirectedGraph) (n : Node) (hR : Reachable g)
    (hl : g.nodeMap.index n.ID ≠ none) :
    (RemoveNode g n).nodeMap.index n.ID = none ∧
    (RemoveNode g n).successors.index n.ID = none ∧
    (RemoveNode g n).predecessors.index n.ID = none ∧
    (∀ k s, (RemoveNode g n).successors.index k = some s → s.index n.ID = none) ∧
    (∀ k p, (RemoveNode g n).predecessors.index k = some p → p.index n.ID = none) ∧
    (∃ l, Nodes (RemoveNode g n) = .ok l ∧ ∀ m : Node, some m ∈ l → m.ID ≠ n.ID) ∧
    (RemoveNode g n).freeMap.index n.ID ≠ none ∧
    (∀ u v, u ≠ n.ID → v ≠ n.ID →
      (RemoveNode g n).successors.index2 u v = g.successors.index2 u v ∧
      (RemoveNode g n).predecessors.index2 u v = g.predecessors.index2 u v) := by
  have hI := hR.inv
  have hI' := Inv_RemoveNode g n hI
  have hnm : (RemoveNode g n).nodeMap.index n.ID = none := by
    rw [RemoveNode_nodeMap]; simp
  refine ⟨hnm, (hI'.succKeys _).2 hnm, (hI'.predKeys _).2 hnm, ?_, ?_, ?_, ?_, ?_⟩
  · intro k s hk
    have h2 := RemoveNode_succ2 g n hI hl k n.ID
    unfold GoMap.index2 at h2
    rw [hk] at h2
    simpa using h2
  · intro k p hk
    have h2 := RemoveNode_pred2 g n hI hl k n.ID
    unfold GoMap.index2 at h2
    rw [hk] at h2
    simpa using h2
  · refine ⟨_, Nodes_of_inv _ hI', ?_⟩
    intro m hm hid
    rw [List.mem_map] at hm
    obtain ⟨⟨k, m'⟩, hmem, hval⟩ := hm
    simp only [Option.some.injEq] at hval
    subst hval
    have hidx := index_of_mem _ k m' hI'.nodesNodup hmem
    have hk : m'.ID = k := hI'.nodeID k m' hidx
    rw [← hk, hid, hnm] at hidx
    simp at hidx
  · rw [RemoveNode_of_live g n hl]
    simp [GoMap.index_assign]
  · intro u v hu hv
    rw [RemoveNode_succ2 g n hI hl, RemoveNode_pred2 g n hI hl]
    simp [hu, hv]

/-- C2 at the store of `generateDummyGraph`, removing node 0: the edge 2->1 stays,
the edges to and from 0 are gone. -/
theorem removeNode_no_dangling_witness :
    (Reachable generateDummyGraph ∧ generateDummyGraph.nodeMap.index 0 ≠ none) ∧
    ((RemoveNode generateDummyGraph ⟨0⟩).nodeMap.index 0 = none ∧
    (RemoveNode generateDummyGraph ⟨0⟩).successors.index 0 = none ∧
    (RemoveNode generateDummyGraph ⟨0⟩).predecessors.index 0 = none ∧
    (∀ k s, (RemoveNode generateDummyGraph ⟨0⟩).successors.index k = some s
      → s.index 0 = none) ∧
    (∀ k p, (RemoveNode generateDummyGraph ⟨0⟩).predecessors.index k = some p
      → p.index 0 = none) ∧
    (∃ l, Nodes (RemoveNode generateDummyGraph ⟨0⟩) = .ok l
      ∧ ∀ m : Node, some m ∈ l → m.ID ≠ 0) ∧
    (RemoveNode generateDummyGraph ⟨0⟩).freeMap.index 0 ≠ none ∧
    (∀ u v, u ≠ 0 → v ≠ 0 →
      (RemoveNode generateDummyGraph ⟨0⟩).successors.index2 u v
        = generateDummyGraph.successors.index2 u v ∧
      (RemoveNode generateDummyGraph ⟨0⟩).predecessors.index2 u v
        = generateDummyGraph.predecessors.index2 u v)) :=
  ⟨⟨reachable_generateDummyGraph, by decide⟩,
    removeNode_no_dangling generateDummyGraph ⟨0⟩ reachable_generateDummyGraph (by decide)⟩

/-! ## The allocator -/

theorem NewNodeID_nodeMap (g : DirectedGraph) (start : Nat) :
    (NewNodeID g start).2.nodeMap = g.nodeMap := by
  by_cases h : g.maxID = maxInt
  · rw [NewNodeID_state_of_eq g start h]
  · rw [NewNodeID_of_ne g start h]

theorem RemoveNode_maxID (g : DirectedGraph) (n : Node) : (RemoveNode g n).maxID = g.maxID := by
  by_cases h : g.nodeMap.index n.ID = none
  · rw [RemoveNode_of_dead g n h]
  · rw [RemoveNode_of_live g n h]

theorem reachable_reuseScenario : Reachable reuseScenario :=
  Reachable.removeNode ⟨0⟩
    (Reachable.addNode ⟨1⟩
      (Reachable.addNode ⟨0⟩ (Reachable.new Float64.zero Float64.posInf) (by decide))
      (by decide))

theorem reachable_watermarkAtMax : Reachable watermarkAtMax :=
  Reachable.removeNode ⟨5⟩
    (Reachable.addNode ⟨7⟩
      (Reachable.addNode ⟨5⟩
        (Reachable.addNode ⟨maxInt⟩ (Reachable.new Float64.zero Float64.posInf) (by decide))
        (by decide))
      (by decide))

theorem reachable_issue123Store : Reachable issue123Store :=
  Reachable.removeNode ⟨1⟩
    (Reachable.addNode ⟨2⟩
      (Reachable.newNodeID 0
        (Reachable.addNode ⟨1⟩
          (Reachable.newNodeID 0 (Reachable.new Float64.zero Float64.posInf))
          (by decide)))
      (by decide))

theorem AddNode_freeLeMax (g : DirectedGraph) (n : Node)
    (h : ∀ k, g.freeMap.index k ≠ none → k ≤ g.maxID) :
    ∀ k, (AddNode g n).2.freeMap.index k ≠ none → k ≤ (AddNode g n).2.maxID := by
  by_cases hd : g.nodeMap.index n.ID = none
  · rw [AddNode_of_dead g n hd]
    intro k hk
    simp only [GoMap.index_delete] at hk
    by_cases hkn : k = n.ID
    · simp [hkn] at hk
    · simp only [hkn, if_false] at hk
      exact le_trans (h k hk) (le_max_left _ _)
  · rw [AddNode_of_live g n hd]; exact h

theorem addIfMissing_freeLeMax (g : DirectedGraph) (n : Node)
    (h : ∀ k, g.freeMap.index k ≠ none → k ≤ g.maxID) :
    ∀ k, (addIfMissing g n).2.freeMap.index k ≠ none → k ≤ (addIfMissing g n).2.maxID := by
  by_cases hd : g.nodeMap.index n.ID = none
  · rw [addIfMissing_of_dead g n hd]; exact AddNode_freeLeMax g n h
  · rw [addIfMissing_of_live g n hd]; exact h

theorem SetEdge_freeLeMax (g : DirectedGraph) (e : Edge)
    (h : ∀ k, g.freeMap.index k ≠ none → k ≤ g.maxID) :
    ∀ k, (SetEdge g e).2.freeMap.index k ≠ none → k ≤ (SetEdge g e).2.maxID := by
  have hw : ∀ k, (withEndpoints g e).freeMap.index k ≠ none → k ≤ (withEndpoints g e).maxID :=
    addIfMissing_freeLeMax _ e.To (addIfMissing_freeLeMax g e.From h)
  by_cases hne : e.From.ID = e.To.ID
  · rw [SetEdge_of_eq g e hne]; exact h
  · rw [SetEdge_of_ne g e hne]
    cases (withEndpoints g e).successors.assignIn e.From.ID e.To.ID e with
    | none => exact hw
    | some s =>
      simp only
      cases ({ withEndpoints g e with successors := s } : DirectedGraph).predecessors.assignIn
          e.To.ID e.From.ID e with
      | none => exact hw
      | some p => exact hw

theorem RemoveEdge_freeMap (g : DirectedGraph) (e : Edge) :
    (RemoveEdge g e).freeMap = g.freeMap ∧ (RemoveEdge g e).maxID = g.maxID := by
  unfold RemoveEdge
  cases g.nodeMap.index e.From.ID with
  | none => exact ⟨rfl, rfl⟩
  | some a =>
    cases g.nodeMap.index e.To.ID with
    | none => exact ⟨rfl, rfl⟩
    | some b => exact ⟨rfl, rfl⟩

/-- In a reachable state every id of the free set is at most the watermark: it was
live when it was freed, and the watermark does not go down. -/
theorem Reachable.freeLeMax {g : DirectedGraph} (h : Reachable g) :
    ∀ k, g.freeMap.index k ≠ none → k ≤ g.maxID := by
  induction h with
  | new self absent =>
    intro k hk
    simp [NewDirectedGraph, GoMap.index] at hk
  | addNode n _ _ ih => exact AddNode_freeLeMax _ n ih
  | setEdge e _ _ ih => exact SetEdge_freeLeMax _ e ih
  | @removeEdge g0 e _ ih =>
    intro k hk
    rw [(RemoveEdge_freeMap g0 e).1] at hk
    rw [(RemoveEdge_freeMap g0 e).2]
    exact ih k hk
  | @removeNode g0 n hR ih =>
    by_cases hd : g0.nodeMap.index n.ID = none
    · rw [RemoveNode_of_dead g0 n hd]; exact ih
    · rw [RemoveNode_of_live g0 n hd]
      intro k hk
      simp only [GoMap.index_assign] at hk
      by_cases hkn : k = n.ID
      · rw [hkn]; exact hR.inv.liveLeMax n.ID hd
      · simp only [hkn, if_false] at hk
        exact ih k hk
  | @newNodeID g0 start _ ih =>
    by_cases hm : g0.maxID = maxInt
    · rw [NewNodeID_state_of_eq g0 start hm]; exact ih
    · rw [NewNodeID_of_ne g0 start hm]
      intro k hk
      have := ih k hk
      show k ≤ g0.maxID + 1
      omega
  | emptyGraph _ ih => exact ih

/-- C3 as stated fails: after `AddNode(0)`, `AddNode(1)`, `RemoveNode(0)`
on an empty store the free set holds 0 and the watermark is 1, yet `NewNodeID` returns 2,
which is neither 0 nor a member of the free set. -/
theorem newNodeID_reuse_counterexample :
    reuseScenario.freeMap.index 0 ≠ none ∧ reuseScenario.maxID = 1 ∧
    (NewNodeID reuseScenario 0).1 = .ok 2 ∧ reuseScenario.freeMap.index 2 = none ∧
    (NewNodeID reuseScenario 0).1 ≠ .ok 0 := by
  decide

/-- C3, amended. While `maxID` is not `maxInt`, `NewNodeID` returns `maxID + 1` and
moves the watermark there, whatever the free set holds; so after removing a live node
`k` the next id is `maxID + 1`, which is not `k`.  Only when `maxID` equals `maxInt`
and the free set is non-empty does `NewNodeID` return a member of the free set, leaving
the store as it is: in a reachable state whose `maxID` is not `maxInt` the id returned
is no member of the free set.  On an empty store `AddNode(0)`, `AddNode(1)`,
`RemoveNode(0)` followed by `NewNodeID` yields 2. -/
theorem newNodeID_watermark_first (g : DirectedGraph) (start : Nat) :
    (g.maxID ≠ maxInt →
      NewNodeID g start = (.ok (g.maxID + 1), { g with maxID := g.maxID + 1 })) ∧
    (∀ k : Node, Reachable g → g.nodeMap.index k.ID ≠ none → g.maxID ≠ maxInt →
      (NewNodeID (RemoveNode g k) start).1 = .ok (g.maxID + 1) ∧ g.maxID + 1 ≠ k.ID) ∧
    (g.maxID = maxInt → g.freeMap ≠ [] →
      ∃ id, NewNodeID g start = (.ok id, g) ∧ g.freeMap.index id ≠ none) ∧
    (NewNodeID reuseScenario start).1 = .ok 2 ∧
    (Reachable g → ∀ id, (NewNodeID g start).1 = .ok id → g.freeMap.index id ≠ none →
      g.maxID = maxInt ∧ g.freeMap ≠ []) ∧
    (Reachable g → g.maxID ≠ maxInt → g.freeMap.index (g.maxID + 1) = none) := by
  have honly : Reachable g → g.maxID ≠ maxInt → g.freeMap.index (g.maxID + 1) = none := by
    intro hR _
    by_contra hc
    have := hR.freeLeMax (g.maxID + 1) hc
    omega
  refine ⟨NewNodeID_of_ne g start, ?_, ?_, ?_, ?_, honly⟩
  rotate_right
  · intro hR id hid hfree
    have hmem : g.freeMap ≠ [] := by
      intro he
      rw [he] at hfree
      simp [GoMap.index] at hfree
    refine ⟨?_, hmem⟩
    by_contra hm
    rw [NewNodeID_of_ne g start hm] at hid
    simp only [Res.ok.injEq] at hid
    rw [← hid] at hfree
    exact hfree (honly hR hm)
  · intro k hR hl hm
    have hm' : (RemoveNode g k).maxID ≠ maxInt := by rw [RemoveNode_maxID]; exact hm
    rw [NewNodeID_of_ne _ start hm', RemoveNode_maxID]
    refine ⟨rfl, ?_⟩
    have := hR.inv.liveLeMax k.ID hl
    omega
  · intro hm hne
    rw [NewNodeID_of_eq g start hm]
    cases hr : g.freeMap.rangeFirst start with
    | none => exact absurd (rangeFirst_eq_none _ _ hr) hne
    | some id => exact ⟨id, rfl, rangeFirst_mem _ _ _ hr⟩
  · have hm : reuseScenario.maxID ≠ maxInt := by decide
    rw [NewNodeID_of_ne _ start hm]
    rfl

/-- C3, amended, at three stores: the store of `generateDummyGraph`, whose watermark is 2
and where the id returned after removing node 0 is 3; a store whose watermark is
`maxInt`, where the id returned is a member of the free set; and the scenario of the
spec, where 0 is free and the id `maxID + 1` is no member of the free set. -/
theorem newNodeID_watermark_first_witness :
    generateDummyGraph.maxID ≠ maxInt ∧
    NewNodeID generateDummyGraph 0
      = (.ok (generateDummyGraph.maxID + 1),
          { generateDummyGraph with maxID := generateDummyGraph.maxID + 1 }) ∧
    (Reachable generateDummyGraph ∧ generateDummyGraph.nodeMap.index 0 ≠ none) ∧
    ((NewNodeID (RemoveNode generateDummyGraph ⟨0⟩) 0).1 = .ok (generateDummyGraph.maxID + 1)
      ∧ generateDummyGraph.maxID + 1 ≠ 0) ∧
    (watermarkAtMax.maxID = maxInt ∧ watermarkAtMax.freeMap ≠ []) ∧
    (∃ id, NewNodeID watermarkAtMax 0 = (.ok id, watermarkAtMax)
      ∧ watermarkAtMax.freeMap.index id ≠ none) ∧
    (Reachable reuseScenario ∧ reuseScenario.maxID ≠ maxInt ∧
      reuseScenario.freeMap.index 0 ≠ none) ∧
    reuseScenario.freeMap.index (reuseScenario.maxID + 1) = none :=
  ⟨by decide, (newNodeID_watermark_first generateDummyGraph 0).1 (by decide),
    ⟨reachable_generateDummyGraph, by decide⟩,
    (newNodeID_watermark_first generateDummyGraph 0).2.1 ⟨0⟩ reachable_generateDummyGraph
      (by decide) (by decide),
    ⟨by decide, by decide⟩,
    (newNodeID_watermark_first watermarkAtMax 0).2.2.1 (by decide) (by decide),
    ⟨reachable_reuseScenario, by decide, by decide⟩,
    (newNodeID_watermark_first reuseScenario 0).2.2.2.2.2 reachable_reuseScenario (by decide)⟩

/-- C4. Fresh ids never collide: in every reachable state, an id returned by
`NewNodeID` is not the id of a live node, neither before nor after the call, so
`AddNode(Node(g.NewNodeID()))` does not fail with an ID collision. -/
theorem newNodeID_fresh (g : DirectedGraph) (start : Nat) (id : Int) (hR : Reachable g)
    (h : (NewNodeID g start).1 = .ok id) :
    g.nodeMap.index id = none ∧
    (NewNodeID g start).2.nodeMap.index id = none ∧
    (AddNode (NewNodeID g start).2 ⟨id⟩).1 = .ok () := by
  have hd := NewNodeID_dead g start id hR.inv h
  have hd' : (NewNodeID g start).2.nodeMap.index id = none := by
    rw [NewNodeID_nodeMap]; exact hd
  refine ⟨hd, hd', ?_⟩
  rw [AddNode_of_dead _ ⟨id⟩ hd']

/-- C4 at the store of `TestIssue123DirectedGraph`: two allocated nodes are added, the
first is removed, and the id allocated next is 3. -/
theorem newNodeID_fresh_witness :
    (NewNodeID emptyStore 0).1 = .ok 1 ∧
    (NewNodeID (AddNode (NewNodeID emptyStore 0).2 ⟨1⟩).2 0).1 = .ok 2 ∧
    (Reachable issue123Store ∧ (NewNodeID issue123Store 0).1 = .ok 3) ∧
    (issue123Store.nodeMap.index 3 = none ∧
      (NewNodeID issue123Store 0).2.nodeMap.index 3 = none ∧
      (AddNode (NewNodeID issue123Store 0).2 ⟨3⟩).1 = .ok ()) :=
  ⟨by decide, by decide, ⟨reachable_issue123Store, by decide⟩,
    newNodeID_fresh issue123Store 0 3 reachable_issue123Store (by decide)⟩

/-! ## Setting an edge -/

theorem index2_eq_some (m : GoMap (GoMap Edge)) (k j : Int) (e : Edge)
    (h : m.index2 k j = some e) : ∃ inner, m.index k = some inner ∧ inner.index j = some e := by
  unfold GoMap.index2 at h
  cases hk : m.index k with
  | none => rw [hk] at h; simp at h
  | some inner => rw [hk] at h; exact ⟨inner, rfl, h⟩

theorem Weight_eq (g : DirectedGraph) (x y : Node) :
    Weight g x y =
      if x.ID = y.ID then (g.self, true)
      else
        match g.successors.index2 x.ID y.ID with
        | some e => (e.Weight, true)
        | none => (g.absent, false) := by
  unfold Weight GoMap.index2
  cases g.successors.index x.ID with
  | none => rfl
  | some s =>
    cases s.index y.ID <;> rfl

/-- What `SetEdge` does to a store that satisfies the invariant, when the endpoint ids
differ. -/
theorem SetEdge_effect (g : DirectedGraph) (e : Edge) (hI : Inv g) (hv : e.valid)
    (hne : e.From.ID ≠ e.To.ID) :
    (SetEdge g e).1 = .ok () ∧
    (SetEdge g e).2.nodeMap = (withEndpoints g e).nodeMap ∧
    (∀ u v, (SetEdge g e).2.successors.index2 u v
      = if u = e.From.ID ∧ v = e.To.ID then some e else g.successors.index2 u v) ∧
    (∀ u v, (SetEdge g e).2.predecessors.index2 u v
      = if u = e.To.ID ∧ v = e.From.ID then some e else g.predecessors.index2 u v) := by
  obtain ⟨s, p, hs, hp, h⟩ := SetEdge_ok g e hI hv hne
  rw [h]
  refine ⟨rfl, rfl, ?_, ?_⟩
  · intro u v
    show s.index2 u v = _
    rw [GoMap.index2_assignIn _ _ _ _ _ hs, withEndpoints_succ2 g e hI hv]
  · intro u v
    show p.index2 u v = _
    rw [GoMap.index2_assignIn _ _ _ _ _ hp, withEndpoints_pred2 g e hI hv]

/-- C5. `SetEdge`/`Edge` round trip with last-write-wins: for every reachable store
and every edge `e` with `From().ID() != To().ID()`, `SetEdge(e)` returns, and after it
`Edge(e.From(), e.To())` is `e`, `HasEdgeFromTo(e.From(), e.To())` is true and
`Weight(e.From(), e.To())` is `(e.Weight(), true)`, whether or not an edge for that
ordered pair was stored before. -/
theorem setEdge_round_trip (g : DirectedGraph) (e : Edge) (hR : Reachable g) (hv : e.valid)
    (hne : e.From.ID ≠ e.To.ID) :
    (SetEdge g e).1 = .ok () ∧
    (SetEdge g e).2.Edge e.From e.To = some e ∧
    HasEdgeFromTo (SetEdge g e).2 e.From e.To = true ∧
    Weight (SetEdge g e).2 e.From e.To = (e.Weight, true) := by
  obtain ⟨hok, hnm, hs, _⟩ := SetEdge_effect g e hR.inv hv hne
  have hf : (SetEdge g e).2.nodeMap.index e.From.ID ≠ none := by
    rw [hnm]; exact withEndpoints_from_live g e
  have ht : (SetEdge g e).2.nodeMap.index e.To.ID ≠ none := by
    rw [hnm]; exact withEndpoints_to_live g e
  have he : (SetEdge g e).2.successors.index2 e.From.ID e.To.ID = some e := by
    rw [hs]; simp
  refine ⟨hok, ?_, ?_, ?_⟩
  · unfold DirectedGraph.Edge
    cases h1 : (SetEdge g e).2.nodeMap.index e.From.ID with
    | none => exact absurd h1 hf
    | some a =>
      cases h2 : (SetEdge g e).2.nodeMap.index e.To.ID with
      | none => exact absurd h2 ht
      | some b => exact he
  · unfold HasEdgeFromTo
    cases h1 : (SetEdge g e).2.nodeMap.index e.From.ID with
    | none => exact absurd h1 hf
    | some a =>
      cases h2 : (SetEdge g e).2.nodeMap.index e.To.ID with
      | none => exact absurd h2 ht
      | some b => simp only [he]
  · rw [Weight_eq, if_neg hne, he]

/-- C5 at the store of `generateDummyGraph`, where the edge 2->1 of weight 1 is
stored, for an edge 2->1 of weight 0. -/
theorem setEdge_round_trip_witness :
    generateDummyGraph.Edge ⟨2⟩ ⟨1⟩ = some (unitEdge 2 1) ∧
    (Reachable generateDummyGraph ∧ overwrittenEdge.valid
      ∧ overwrittenEdge.From.ID ≠ overwrittenEdge.To.ID) ∧
    ((SetEdge generateDummyGraph overwrittenEdge).1 = .ok () ∧
    (SetEdge generateDummyGraph overwrittenEdge).2.Edge overwrittenEdge.From overwrittenEdge.To
      = some overwrittenEdge ∧
    HasEdgeFromTo (SetEdge generateDummyGraph overwrittenEdge).2
      overwrittenEdge.From overwrittenEdge.To = true ∧
    Weight (SetEdge generateDummyGraph overwrittenEdge).2
      overwrittenEdge.From overwrittenEdge.To = (overwrittenEdge.Weight, true)) :=
  ⟨by decide, ⟨reachable_generateDummyGraph, by decide, by decide⟩,
    setEdge_round_trip generateDummyGraph overwrittenEdge reachable_generateDummyGraph
      (by decide) (by decide)⟩

/-! ## Failing calls -/

/-- C6. `AddNode` fails (with the ID-collision panic) if and only if the node's id is
already live, and a failing call leaves every field of the store unchanged.  A
successful call makes the node live with empty successor and predecessor maps
(`Degree` 0), removes its id from the free set, leaves `maxID >=` the id, and changes
neither the liveness nor the edges of any other node. -/
theorem addNode_contract (g : DirectedGraph) (n : Node) :
    ((AddNode g n).1 ≠ .ok () ↔ g.nodeMap.index n.ID ≠ none) ∧
    (g.nodeMap.index n.ID ≠ none →
      AddNode g n = (.panic (.nodeIDCollision n.ID), g)) ∧
    (g.nodeMap.index n.ID = none →
      (AddNode g n).1 = .ok () ∧
      (AddNode g n).2.nodeMap.index n.ID = some n ∧
      (AddNode g n).2.successors.index n.ID = some [] ∧
      (AddNode g n).2.predecessors.index n.ID = some [] ∧
      Degree (AddNode g n).2 n = 0 ∧
      (AddNode g n).2.freeMap.index n.ID = none ∧
      n.ID ≤ (AddNode g n).2.maxID ∧
      ∀ k, k ≠ n.ID →
        (AddNode g n).2.nodeMap.index k = g.nodeMap.index k ∧
        (AddNode g n).2.successors.index k = g.successors.index k ∧
        (AddNode g n).2.predecessors.index k = g.predecessors.index k ∧
        (AddNode g n).2.freeMap.index k = g.freeMap.index k) := by
  refine ⟨?_, AddNode_of_live g n, ?_⟩
  · by_cases h : g.nodeMap.index n.ID = none
    · rw [AddNode_of_dead g n h]; simp [h]
    · rw [AddNode_of_live g n h]; simp [h]
  · intro h
    rw [AddNode_of_dead g n h]
    refine ⟨rfl, GoMap.index_assign_self _ _ _, GoMap.index_assign_self _ _ _,
      GoMap.index_assign_self _ _ _, ?_, GoMap.index_delete_self _ _, le_max_right _ _, ?_⟩
    · unfold Degree innerLen
      simp [GoMap.index_assign_self, GoMap.len]
    · intro k hk
      exact ⟨GoMap.index_assign_ne _ _ hk, GoMap.index_assign_ne _ _ hk,
        GoMap.index_assign_ne _ _ hk, GoMap.index_delete_ne _ hk⟩

/-- C6 at the store of `generateDummyGraph`: adding node 0, which is live, fails and
changes nothing; adding node 3, which is not, succeeds. -/
theorem addNode_contract_witness :
    (generateDummyGraph.nodeMap.index 0 ≠ none ∧
      AddNode generateDummyGraph ⟨0⟩ = (.panic (.nodeIDCollision 0), generateDummyGraph)) ∧
    (generateDummyGraph.nodeMap.index 3 = none ∧
      (AddNode generateDummyGraph ⟨3⟩).1 = .ok () ∧
      (AddNode generateDummyGraph ⟨3⟩).2.nodeMap.index 3 = some ⟨3⟩) :=
  ⟨⟨by decide, (addNode_contract generateDummyGraph ⟨0⟩).2.1 (by decide)⟩,
    ⟨by decide, ((addNode_contract generateDummyGraph ⟨3⟩).2.2 (by decide)).1,
      ((addNode_contract generateDummyGraph ⟨3⟩).2.2 (by decide)).2.1⟩⟩

/-- C7. `SetEdge` fails if and only if `e.From().ID() == e.To().ID()`, and a failing
call leaves the store unchanged.  For every reachable state and every edge with
distinct endpoint ids it succeeds, whether the endpoints were live or not; both
endpoints are live afterwards, already-live nodes stay live, and the stored edge of
every other ordered pair is unchanged. -/
theorem setEdge_contract (g : DirectedGraph) (e : Edge) (hR : Reachable g) (hv : e.valid) :
    ((SetEdge g e).1 ≠ .ok () ↔ e.From.ID = e.To.ID) ∧
    (e.From.ID = e.To.ID → SetEdge g e = (.panic .selfEdge, g)) ∧
    (e.From.ID ≠ e.To.ID →
      (SetEdge g e).1 = .ok () ∧
      (SetEdge g e).2.nodeMap.index e.From.ID ≠ none ∧
      (SetEdge g e).2.nodeMap.index e.To.ID ≠ none ∧
      (∀ k, g.nodeMap.index k ≠ none → (SetEdge g e).2.nodeMap.index k ≠ none) ∧
      ∀ u v, ¬ (u = e.From.ID ∧ v = e.To.ID) →
        (SetEdge g e).2.successors.index2 u v = g.successors.index2 u v ∧
        (SetEdge g e).2.predecessors.index2 v u = g.predecessors.index2 v u) := by
  have hsucc : e.From.ID ≠ e.To.ID →
      (SetEdge g e).1 = .ok () ∧
      (SetEdge g e).2.nodeMap.index e.From.ID ≠ none ∧
      (SetEdge g e).2.nodeMap.index e.To.ID ≠ none ∧
      (∀ k, g.nodeMap.index k ≠ none → (SetEdge g e).2.nodeMap.index k ≠ none) ∧
      ∀ u v, ¬ (u = e.From.ID ∧ v = e.To.ID) →
        (SetEdge g e).2.successors.index2 u v = g.successors.index2 u v ∧
        (SetEdge g e).2.predecessors.index2 v u = g.predecessors.index2 v u := by
    intro hne
    obtain ⟨hok, hnm, hs, hp⟩ := SetEdge_effect g e hR.inv hv hne
    refine ⟨hok, ?_, ?_, ?_, ?_⟩
    · rw [hnm]; exact withEndpoints_from_live g e
    · rw [hnm]; exact withEndpoints_to_live g e
    · intro k hk
      rw [hnm]; exact withEndpoints_keeps_live g e k hk
    · intro u v huv
      have huv' : ¬ (v = e.To.ID ∧ u = e.From.ID) := fun c => huv ⟨c.2, c.1⟩
      rw [hs, hp, if_neg huv, if_neg huv']
      exact ⟨rfl, rfl⟩
  refine ⟨?_, SetEdge_of_eq g e, hsucc⟩
  by_cases h : e.From.ID = e.To.ID
  · rw [SetEdge_of_eq g e h]; simp [h]
  · simp [h, (hsucc h).1]

/-- C7 at the store of `generateDummyGraph`: the self-loop 1->1 is rejected and
nothing changes; the edge 3->4 between two nodes that are not live is accepted. -/
theorem setEdge_contract_witness :
    (Reachable generateDummyGraph ∧ (unitEdge 1 1).valid ∧ (unitEdge 3 4).valid) ∧
    SetEdge generateDummyGraph (unitEdge 1 1) = (.panic .selfEdge, generateDummyGraph) ∧
    (SetEdge generateDummyGraph (unitEdge 3 4)).1 = .ok () ∧
    (SetEdge generateDummyGraph (unitEdge 3 4)).2.nodeMap.index 3 ≠ none :=
  ⟨⟨reachable_generateDummyGraph, by decide, by decide⟩,
    (setEdge_contract generateDummyGraph (unitEdge 1 1) reachable_generateDummyGraph
      (by decide)).2.1 (by decide),
    ((setEdge_contract generateDummyGraph (unitEdge 3 4) reachable_generateDummyGraph
      (by decide)).2.2 (by decide)).1,
    ((setEdge_contract generateDummyGraph (unitEdge 3 4) reachable_generateDummyGraph
      (by decide)).2.2 (by decide)).2.1⟩

/-! ## Removing what is not there -/

theorem RemoveEdge_of_live (g : DirectedGraph) (e : Edge)
    (hf : g.nodeMap.index e.From.ID ≠ none) (ht : g.nodeMap.index e.To.ID ≠ none) :
    RemoveEdge g e =
      { g with
        successors := g.successors.deleteIn e.From.ID e.To.ID
        predecessors := g.predecessors.deleteIn e.To.ID e.From.ID } := by
  unfold RemoveEdge
  cases h1 : g.nodeMap.index e.From.ID with
  | none => exact absurd h1 hf
  | some a =>
    cases h2 : g.nodeMap.index e.To.ID with
    | none => exact absurd h2 ht
    | some b => rfl

theorem RemoveEdge_of_dead (g : DirectedGraph) (e : Edge)
    (h : g.nodeMap.index e.From.ID = none ∨ g.nodeMap.index e.To.ID = none) :
    RemoveEdge g e = g := by
  unfold RemoveEdge
  cases h1 : g.nodeMap.index e.From.ID with
  | none => rfl
  | some a =>
    cases h2 : g.nodeMap.index e.To.ID with
    | none => rfl
    | some b =>
      rcases h with h | h
      · rw [h1] at h; simp at h
      · rw [h2] at h; simp at h

theorem RemoveEdge_nodeMap (g : DirectedGraph) (e : Edge) :
    (RemoveEdge g e).nodeMap = g.nodeMap := by
  unfold RemoveEdge
  cases g.nodeMap.index e.From.ID with
  | none => rfl
  | some a =>
    cases g.nodeMap.index e.To.ID with
    | none => rfl
    | some b => rfl

theorem RemoveEdge_twice (g : DirectedGraph) (e : Edge) :
    RemoveEdge (RemoveEdge g e) e = RemoveEdge g e := by
  by_cases h : g.nodeMap.index e.From.ID = none ∨ g.nodeMap.index e.To.ID = none
  · rw [RemoveEdge_of_dead g e h, RemoveEdge_of_dead g e h]
  · have hf : g.nodeMap.index e.From.ID ≠ none := fun c => h (Or.inl c)
    have ht : g.nodeMap.index e.To.ID ≠ none := fun c => h (Or.inr c)
    have hf' : (RemoveEdge g e).nodeMap.index e.From.ID ≠ none := by
      rw [RemoveEdge_nodeMap]; exact hf
    have ht' : (RemoveEdge g e).nodeMap.index e.To.ID ≠ none := by
      rw [RemoveEdge_nodeMap]; exact ht
    rw [RemoveEdge_of_live _ e hf' ht', RemoveEdge_of_live g e hf ht]
    simp only [GoMap.deleteIn_deleteIn]

theorem RemoveNode_twice (g : DirectedGraph) (n : Node) :
    RemoveNode (RemoveNode g n) n = RemoveNode g n := by
  apply RemoveNode_of_dead
  rw [RemoveNode_nodeMap]
  simp

/-- C8. Idempotent removal: `RemoveNode(n)` for a node that is not live, and
`RemoveEdge(e)` when an endpoint is not live or, in a reachable state, when no edge
From->To is stored, leave every field of the store unchanged; applying `RemoveNode(n)`
or `RemoveEdge(e)` twice gives the same state as applying it once; `RemoveEdge` never
changes which nodes are live.  Neither method can fail. -/
theorem removal_idempotent (g : DirectedGraph) (n : Node) (e : Edge) :
    (g.nodeMap.index n.ID = none → RemoveNode g n = g) ∧
    (g.nodeMap.index e.From.ID = none ∨ g.nodeMap.index e.To.ID = none →
      RemoveEdge g e = g) ∧
    (Reachable g → g.successors.index2 e.From.ID e.To.ID = none → RemoveEdge g e = g) ∧
    RemoveNode (RemoveNode g n) n = RemoveNode g n ∧
    RemoveEdge (RemoveEdge g e) e = RemoveEdge g e ∧
    (RemoveEdge g e).nodeMap = g.nodeMap := by
  refine ⟨RemoveNode_of_dead g n, RemoveEdge_of_dead g e, ?_, RemoveNode_twice g n,
    RemoveEdge_twice g e, RemoveEdge_nodeMap g e⟩
  intro hR hnone
  by_cases h : g.nodeMap.index e.From.ID = none ∨ g.nodeMap.index e.To.ID = none
  · exact RemoveEdge_of_dead g e h
  · have hf : g.nodeMap.index e.From.ID ≠ none := fun c => h (Or.inl c)
    have ht : g.nodeMap.index e.To.ID ≠ none := fun c => h (Or.inr c)
    have hp : g.predecessors.index2 e.To.ID e.From.ID = none := by
      rw [← hR.inv.mirror]; exact hnone
    rw [RemoveEdge_of_live g e hf ht, GoMap.deleteIn_eq_self _ _ _ hnone,
      GoMap.deleteIn_eq_self _ _ _ hp]

/-- C8 at the store of `generateDummyGraph`: node 3 is not live, node 5 is not live,
and between the live nodes 1 and 2 no edge 1->2 is stored. -/
theorem removal_idempotent_witness :
    (generateDummyGraph.nodeMap.index 3 = none ∧
      RemoveNode generateDummyGraph ⟨3⟩ = generateDummyGraph) ∧
    (generateDummyGraph.nodeMap.index 5 = none ∧
      RemoveEdge generateDummyGraph (unitEdge 1 5) = generateDummyGraph) ∧
    (Reachable generateDummyGraph ∧ generateDummyGraph.successors.index2 1 2 = none ∧
      generateDummyGraph.nodeMap.index 1 ≠ none ∧ generateDummyGraph.nodeMap.index 2 ≠ none ∧
      RemoveEdge generateDummyGraph (unitEdge 1 2) = generateDummyGraph) :=
  ⟨⟨by decide, (removal_idempotent generateDummyGraph ⟨3⟩ (unitEdge 1 5)).1 (by decide)⟩,
    ⟨by decide,
      (removal_idempotent generateDummyGraph ⟨3⟩ (unitEdge 1 5)).2.1 (Or.inr (by decide))⟩,
    ⟨reachable_generateDummyGraph, by decide, by decide, by decide,
      (removal_idempotent generateDummyGraph ⟨3⟩ (unitEdge 1 2)).2.2.1
        reachable_generateDummyGraph (by decide)⟩⟩

/-! ## Degrees and neighbour lists -/

theorem index2_of_index (m : GoMap (GoMap Edge)) (k j : Int) (inner : GoMap Edge)
    (h : m.index k = some inner) : m.index2 k j = inner.index j := by
  unfold GoMap.index2; rw [h]

/-- C9. Degrees: `OutDegree(n)` is the number of entries of `n`'s successor map,
`InDegree(n)` the number of entries of its predecessor map, and
`Degree(n) = InDegree(n) + OutDegree(n)`; all three are 0 when `n` is not live.  In a
reachable state the entries of the two maps are the distinct successors and
predecessors of `n`.  For the store of `generateDummyGraph` this gives `Degree(0)=3`,
`InDegree(0)=2`, `OutDegree(0)=1` and `Degree(3)=0`. -/
theorem degree_contract (g : DirectedGraph) (n : Node) :
    (g.nodeMap.index n.ID ≠ none →
      OutDegree g n = innerLen g.successors n.ID ∧
      InDegree g n = innerLen g.predecessors n.ID) ∧
    Degree g n = InDegree g n + OutDegree g n ∧
    (g.nodeMap.index n.ID = none →
      OutDegree g n = 0 ∧ InDegree g n = 0 ∧ Degree g n = 0) ∧
    (Reachable g → g.nodeMap.index n.ID ≠ none →
      ∃ s p, g.successors.index n.ID = some s ∧ g.predecessors.index n.ID = some p ∧
        s.keys.Nodup ∧ p.keys.Nodup ∧
        OutDegree g n = s.keys.length ∧ InDegree g n = p.keys.length ∧
        (∀ v, v ∈ s.keys ↔ g.successors.index2 n.ID v ≠ none) ∧
        (∀ u, u ∈ p.keys ↔ g.successors.index2 u n.ID ≠ none)) ∧
    (Degree generateDummyGraph ⟨0⟩ = 3 ∧ InDegree generateDummyGraph ⟨0⟩ = 2 ∧
      OutDegree generateDummyGraph ⟨0⟩ = 1 ∧ Degree generateDummyGraph ⟨3⟩ = 0) := by
  refine ⟨?_, ?_, ?_, ?_, by decide⟩
  · intro h
    unfold OutDegree InDegree
    cases hn : g.nodeMap.index n.ID with
    | none => exact absurd hn h
    | some x => exact ⟨rfl, rfl⟩
  · unfold Degree InDegree OutDegree
    cases g.nodeMap.index n.ID with
    | none => rfl
    | some x => exact Nat.add_comm _ _
  · intro h
    unfold OutDegree InDegree Degree
    rw [h]
    exact ⟨rfl, rfl, rfl⟩
  · intro hR hl
    have hI := hR.inv
    cases hs : g.successors.index n.ID with
    | none => exact absurd ((hI.succKeys _).1 hs) hl
    | some s =>
      cases hp : g.predecessors.index n.ID with
      | none => exact absurd ((hI.predKeys _).1 hp) hl
      | some p =>
        refine ⟨s, p, rfl, rfl, hI.succInner _ _ hs, hI.predInner _ _ hp, ?_, ?_, ?_, ?_⟩
        · unfold OutDegree innerLen
          cases hn : g.nodeMap.index n.ID with
          | none => exact absurd hn hl
          | some x => simp [hs, GoMap.len, GoMap.keys]
        · unfold InDegree innerLen
          cases hn : g.nodeMap.index n.ID with
          | none => exact absurd hn hl
          | some x => simp [hp, GoMap.len, GoMap.keys]
        · intro v
          rw [GoMap.mem_keys_iff, index2_of_index _ _ _ _ hs]
        · intro u
          rw [GoMap.mem_keys_iff, hI.mirror, index2_of_index _ _ _ _ hp]

/-- C9 at node 0 of the store of `generateDummyGraph`, which has the successor 2 and
the predecessors 1 and 2. -/
theorem degree_contract_witness :
    (Reachable generateDummyGraph ∧ generateDummyGraph.nodeMap.index 0 ≠ none) ∧
    (OutDegree generateDummyGraph ⟨0⟩ = innerLen generateDummyGraph.successors 0 ∧
      InDegree generateDummyGraph ⟨0⟩ = innerLen generateDummyGraph.predecessors 0) ∧
    (∃ s p, generateDummyGraph.successors.index 0 = some s ∧
        generateDummyGraph.predecessors.index 0 = some p ∧
        s.keys.Nodup ∧ p.keys.Nodup ∧
        OutDegree generateDummyGraph ⟨0⟩ = s.keys.length ∧
        InDegree generateDummyGraph ⟨0⟩ = p.keys.length ∧
        (∀ v, v ∈ s.keys ↔ generateDummyGraph.successors.index2 0 v ≠ none) ∧
        (∀ u, u ∈ p.keys ↔ generateDummyGraph.successors.index2 u 0 ≠ none)) ∧
    (generateDummyGraph.nodeMap.index 3 = none ∧ OutDegree generateDummyGraph ⟨3⟩ = 0) :=
  ⟨⟨reachable_generateDummyGraph, by decide⟩,
    (degree_contract generateDummyGraph ⟨0⟩).1 (by decide),
    (degree_contract generateDummyGraph ⟨0⟩).2.2.2.1 reachable_generateDummyGraph (by decide),
    ⟨by decide, ((degree_contract generateDummyGraph ⟨3⟩).2.2.1 (by decide)).1⟩⟩

theorem From_of_index (g : DirectedGraph) (n : Node) (s : GoMap Edge)
    (h : g.successors.index n.ID = some s) :
    From g n = some (s.keys.map (fun succ => g.nodeMap.index succ)) := by
  unfold From; rw [h]

theorem To_of_index (g : DirectedGraph) (n : Node) (s p : GoMap Edge)
    (hs : g.successors.index n.ID = some s) (hp : g.predecessors.index n.ID = some p) :
    To g n = some (p.keys.map (fun u => g.nodeMap.index u)) := by
  unfold To innerKeys; rw [hs, hp]

/-- The node values `nodeMap` holds under a list of distinct live ids: no nil entry,
no value twice, and `m` is among them exactly when `m` is the value held under an id of
the list. -/
theorem neighbours_of_keys (g : DirectedGraph) (hI : Inv g) (ks : List Int)
    (hn : ks.Nodup) (hlive : ∀ k ∈ ks, g.nodeMap.index k ≠ none) :
    none ∉ ks.map (fun k => g.nodeMap.index k) ∧
    (ks.map (fun k => g.nodeMap.index k)).Nodup ∧
    (∀ m : Node, some m ∈ ks.map (fun k => g.nodeMap.index k)
      ↔ (g.nodeMap.index m.ID = some m ∧ m.ID ∈ ks)) := by
  refine ⟨?_, ?_, ?_⟩
  · intro hmem
    rw [List.mem_map] at hmem
    obtain ⟨k, hk, hk2⟩ := hmem
    exact hlive k hk hk2
  · apply List.Nodup.map_on _ hn
    intro x hx y hy hxy
    cases hvx : g.nodeMap.index x with
    | none => exact absurd hvx (hlive x hx)
    | some m =>
      have h1 := hI.nodeID x m hvx
      have hvy : g.nodeMap.index y = some m := by
        rw [← hxy]; exact hvx
      have h2 := hI.nodeID y m hvy
      rw [← h1, ← h2]
  · intro m
    rw [List.mem_map]
    constructor
    · rintro ⟨k, hk, hk2⟩
      have h1 := hI.nodeID k m hk2
      subst h1
      exact ⟨hk2, hk⟩
    · rintro ⟨h1, h2⟩
      exact ⟨m.ID, h2, h1⟩

/-- C10. Neighbour lists: in every reachable state, for a live node `n`, `From(n)`
contains exactly the live nodes `v` for which an edge `n->v` is stored, each exactly once
and never a nil entry, so `len(From(n)) = OutDegree(n)`; `To(n)` contains exactly the
nodes `u` with a stored edge `u->n`, each once, so `len(To(n)) = InDegree(n)`; both
`From(n)` and `To(n)` return nil when `n` is not live. -/
theorem neighbour_lists (g : DirectedGraph) (n : Node) (hR : Reachable g) :
    (g.nodeMap.index n.ID ≠ none →
      (∃ l, From g n = some l ∧ none ∉ l ∧ l.Nodup ∧ l.length = OutDegree g n ∧
        ∀ v : Node, some v ∈ l ↔
          (g.nodeMap.index v.ID = some v ∧ g.successors.index2 n.ID v.ID ≠ none)) ∧
      (∃ l, To g n = some l ∧ none ∉ l ∧ l.Nodup ∧ l.length = InDegree g n ∧
        ∀ u : Node, some u ∈ l ↔
          (g.nodeMap.index u.ID = some u ∧ g.successors.index2 u.ID n.ID ≠ none))) ∧
    (g.nodeMap.index n.ID = none → From g n = none ∧ To g n = none) := by
  have hI := hR.inv
  constructor
  · intro hl
    cases hs : g.successors.index n.ID with
    | none => exact absurd ((hI.succKeys _).1 hs) hl
    | some s =>
      cases hp : g.predecessors.index n.ID with
      | none => exact absurd ((hI.predKeys _).1 hp) hl
      | some p =>
        have hsk : ∀ v, v ∈ s.keys ↔ g.successors.index2 n.ID v ≠ none := by
          intro v
          rw [GoMap.mem_keys_iff, index2_of_index _ _ _ _ hs]
        have hpk : ∀ u, u ∈ p.keys ↔ g.successors.index2 u n.ID ≠ none := by
          intro u
          rw [GoMap.mem_keys_iff, hI.mirror, index2_of_index _ _ _ _ hp]
        obtain ⟨a1, a2, a3⟩ := neighbours_of_keys g hI s.keys (hI.succInner _ _ hs)
          (fun k hk => hI.targetLive n.ID k ((hsk k).1 hk))
        obtain ⟨b1, b2, b3⟩ := neighbours_of_keys g hI p.keys (hI.predInner _ _ hp)
          (fun k hk => hI.sourceLive k n.ID ((hpk k).1 hk))
        refine ⟨⟨_, From_of_index g n s hs, a1, a2, ?_, ?_⟩,
          ⟨_, To_of_index g n s p hs hp, b1, b2, ?_, ?_⟩⟩
        · unfold OutDegree innerLen
          cases hn : g.nodeMap.index n.ID with
          | none => exact absurd hn hl
          | some x => simp [hs, GoMap.len, GoMap.keys]
        · intro v
          rw [a3 v, hsk]
        · unfold InDegree innerLen
          cases hn : g.nodeMap.index n.ID with
          | none => exact absurd hn hl
          | some x => simp [hp, GoMap.len, GoMap.keys]
        · intro u
          rw [b3 u, hpk]
  · intro hd
    have hs := (hI.succKeys _).2 hd
    unfold From To
    rw [hs]
    exact ⟨rfl, rfl⟩

theorem reachable_edgeSetTwice : Reachable edgeSetTwice :=
  Reachable.setEdge overwrittenEdge reachable_generateDummyGraph (by decide)

/-- C10 at the store of `generateDummyGraph` after `SetEdge` was called a second time
for the pair 2->1: node 2 is live and has the two successors 1 and 0 (the test of edge
overcounting), node 3 is not live. -/
theorem neighbour_lists_witness :
    (Reachable edgeSetTwice ∧ edgeSetTwice.nodeMap.index 2 ≠ none ∧
      edgeSetTwice.nodeMap.index 3 = none) ∧
    From edgeSetTwice ⟨2⟩ = some [some ⟨1⟩, some ⟨0⟩] ∧
    (∃ l, From edgeSetTwice ⟨2⟩ = some l ∧ none ∉ l ∧ l.Nodup ∧
      l.length = OutDegree edgeSetTwice ⟨2⟩ ∧
      ∀ v : Node, some v ∈ l ↔
        (edgeSetTwice.nodeMap.index v.ID = some v
          ∧ edgeSetTwice.successors.index2 2 v.ID ≠ none)) ∧
    (From edgeSetTwice ⟨3⟩ = none ∧ To edgeSetTwice ⟨3⟩ = none) :=
  ⟨⟨reachable_edgeSetTwice, by decide, by decide⟩, by decide,
    ((neighbour_lists edgeSetTwice ⟨2⟩ reachable_edgeSetTwice).1 (by decide)).1,
    (neighbour_lists edgeSetTwice ⟨3⟩ reachable_edgeSetTwice).2 (by decide)⟩

/-! ## Sequences of calls keep the configuration -/

theorem AddNode_config (g : DirectedGraph) (n : Node) :
    (AddNode g n).2.self = g.self ∧ (AddNode g n).2.absent = g.absent := by
  by_cases h : g.nodeMap.index n.ID = none
  · rw [AddNode_of_dead g n h]; exact ⟨rfl, rfl⟩
  · rw [AddNode_of_live g n h]; exact ⟨rfl, rfl⟩

theorem addIfMissing_config (g : DirectedGraph) (n : Node) :
    (addIfMissing g n).2.self = g.self ∧ (addIfMissing g n).2.absent = g.absent := by
  by_cases h : g.nodeMap.index n.ID = none
  · rw [addIfMissing_of_dead g n h]; exact AddNode_config g n
  · rw [addIfMissing_of_live g n h]; exact ⟨rfl, rfl⟩

theorem withEndpoints_config (g : DirectedGraph) (e : Edge) :
    (withEndpoints g e).self = g.self ∧ (withEndpoints g e).absent = g.absent := by
  unfold withEndpoints
  have h1 := addIfMissing_config g e.From
  have h2 := addIfMissing_config (addIfMissing g e.From).2 e.To
  exact ⟨h2.1.trans h1.1, h2.2.trans h1.2⟩

theorem SetEdge_config (g : DirectedGraph) (e : Edge) :
    (SetEdge g e).2.self = g.self ∧ (SetEdge g e).2.absent = g.absent := by
  by_cases h : e.From.ID = e.To.ID
  · rw [SetEdge_of_eq g e h]; exact ⟨rfl, rfl⟩
  · rw [SetEdge_of_ne g e h]
    cases (withEndpoints g e).successors.assignIn e.From.ID e.To.ID e with
    | none => exact withEndpoints_config g e
    | some s =>
      simp only
      cases ({ withEndpoints g e with successors := s } : DirectedGraph).predecessors.assignIn
          e.To.ID e.From.ID e with
      | none => exact withEndpoints_config g e
      | some p => exact withEndpoints_config g e

theorem RemoveEdge_config (g : DirectedGraph) (e : Edge) :
    (RemoveEdge g e).self = g.self ∧ (RemoveEdge g e).absent = g.absent := by
  unfold RemoveEdge
  cases g.nodeMap.index e.From.ID with
  | none => exact ⟨rfl, rfl⟩
  | some a =>
    cases g.nodeMap.index e.To.ID with
    | none => exact ⟨rfl, rfl⟩
    | some b => exact ⟨rfl, rfl⟩

theorem RemoveNode_config (g : DirectedGraph) (n : Node) :
    (RemoveNode g n).self = g.self ∧ (RemoveNode g n).absent = g.absent := by
  by_cases h : g.nodeMap.index n.ID = none
  · rw [RemoveNode_of_dead g n h]; exact ⟨rfl, rfl⟩
  · rw [RemoveNode_of_live g n h]; exact ⟨rfl, rfl⟩

theorem NewNodeID_config (g : DirectedGraph) (start : Nat) :
    (NewNodeID g start).2.self = g.self ∧ (NewNodeID g start).2.absent = g.absent := by
  by_cases h : g.maxID = maxInt
  · rw [NewNodeID_state_of_eq g start h]; exact ⟨rfl, rfl⟩
  · rw [NewNodeID_of_ne g start h]; exact ⟨rfl, rfl⟩

theorem Call.run_config (g : DirectedGraph) (c : Call) :
    (Call.run g c).self = g.self ∧ (Call.run g c).absent = g.absent := by
  cases c with
  | addNode n => exact AddNode_config g n
  | setEdge e => exact SetEdge_config g e
  | removeEdge e => exact RemoveEdge_config g e
  | removeNode n => exact RemoveNode_config g n
  | newNodeID start => exact NewNodeID_config g start
  | emptyGraph => exact ⟨rfl, rfl⟩

theorem runCalls_config (calls : List Call) (g : DirectedGraph) :
    (runCalls g calls).self = g.self ∧ (runCalls g calls).absent = g.absent := by
  induction calls generalizing g with
  | nil => exact ⟨rfl, rfl⟩
  | cons c cs ih =>
    have h1 := Call.run_config g c
    have h2 := ih (Call.run g c)
    exact ⟨h2.1.trans h1.1, h2.2.trans h1.2⟩

theorem Call.run_reachable (g : DirectedGraph) (c : Call) (hR : Reachable g) (hv : c.valid) :
    Reachable (Call.run g c) := by
  cases c with
  | addNode n => exact Reachable.addNode n hR hv
  | setEdge e => exact Reachable.setEdge e hR hv
  | removeEdge e => exact Reachable.removeEdge e hR
  | removeNode n => exact Reachable.removeNode n hR
  | newNodeID start => exact Reachable.newNodeID start hR
  | emptyGraph => exact Reachable.emptyGraph hR

theorem runCalls_reachable (calls : List Call) (g : DirectedGraph) (hR : Reachable g)
    (hv : ∀ c ∈ calls, c.valid) : Reachable (runCalls g calls) := by
  induction calls generalizing g with
  | nil => exact hR
  | cons c cs ih =>
    exact ih (Call.run g c)
      (Call.run_reachable g c hR (hv c (List.mem_cons_self c cs)))
      (fun c' hc' => hv c' (List.mem_cons_of_mem c hc'))

/-- In a store that satisfies the invariant, `Edge(u, v)` is `successors[u][v]`. -/
theorem Edge_eq_index2 (g : DirectedGraph) (hI : Inv g) (u v : Node) :
    g.Edge u v = g.successors.index2 u.ID v.ID := by
  unfold DirectedGraph.Edge
  cases hu : g.nodeMap.index u.ID with
  | none => exact (hI.succ_dead_left u.ID v.ID hu).symm
  | some a =>
    cases hv : g.nodeMap.index v.ID with
    | none => exact (hI.succ_dead_right u.ID v.ID hv).symm
    | some b => rfl

/-! ## `Weight` -/

/-- C12. `Weight` on the directed store: after any sequence of calls on a store made by
`NewDirectedGraph(self, absent)`, `Weight(x, y)` is `(self, true)` when
`x.ID() == y.ID()`, whether or not `x` is live; otherwise `(e.Weight(), true)` when an
edge `e` from `x` to `y` is stored; otherwise `(absent, false)`, also when the reverse
edge `y->x` is stored. -/
theorem weight_contract (self absent : Float64) (calls : List Call)
    (hv : ∀ c ∈ calls, c.valid) (x y : Node) :
    (x.ID = y.ID →
      Weight (runCalls (NewDirectedGraph self absent) calls) x y = (self, true)) ∧
    (x.ID ≠ y.ID → ∀ e, (runCalls (NewDirectedGraph self absent) calls).Edge x y = some e →
      Weight (runCalls (NewDirectedGraph self absent) calls) x y = (e.Weight, true)) ∧
    (x.ID ≠ y.ID → (runCalls (NewDirectedGraph self absent) calls).Edge x y = none →
      Weight (runCalls (NewDirectedGraph self absent) calls) x y = (absent, false)) := by
  have hR := runCalls_reachable calls _ (Reachable.new self absent) hv
  have hc := runCalls_config calls (NewDirectedGraph self absent)
  have hself : (runCalls (NewDirectedGraph self absent) calls).self = self := hc.1
  have habs : (runCalls (NewDirectedGraph self absent) calls).absent = absent := hc.2
  refine ⟨?_, ?_, ?_⟩
  · intro h
    rw [Weight_eq, if_pos h, hself]
  · intro h e he
    rw [Edge_eq_index2 _ hR.inv] at he
    rw [Weight_eq, if_neg h, he]
  · intro h he
    rw [Edge_eq_index2 _ hR.inv] at he
    rw [Weight_eq, if_neg h, he, habs]

/-- C12 after the calls of `sampleCalls`: the weight of a node with itself is the
configured 0, also for node 9 that never was live; the edge 2->1 has weight 1; the pair
1->2, of which only the reverse edge is stored, and the removed edge 1->0 have the
weight `+Inf` and no edge. -/
theorem weight_contract_witness :
    (∀ c ∈ sampleCalls, c.valid) ∧
    Weight (runCalls (NewDirectedGraph Float64.zero Float64.posInf) sampleCalls) ⟨9⟩ ⟨9⟩
      = (Float64.zero, true) ∧
    ((runCalls (NewDirectedGraph Float64.zero Float64.posInf) sampleCalls).Edge ⟨2⟩ ⟨1⟩
        = some (unitEdge 2 1) ∧
      Weight (runCalls (NewDirectedGraph Float64.zero Float64.posInf) sampleCalls) ⟨2⟩ ⟨1⟩
        = ((unitEdge 2 1).Weight, true)) ∧
    ((runCalls (NewDirectedGraph Float64.zero Float64.posInf) sampleCalls).Edge ⟨1⟩ ⟨2⟩ = none ∧
      Weight (runCalls (NewDirectedGraph Float64.zero Float64.posInf) sampleCalls) ⟨1⟩ ⟨2⟩
        = (Float64.posInf, false)) :=
  ⟨by decide,
    (weight_contract Float64.zero Float64.posInf sampleCalls (by decide) ⟨9⟩ ⟨9⟩).1 rfl,
    ⟨by decide,
      (weight_contract Float64.zero Float64.posInf sampleCalls (by decide) ⟨2⟩ ⟨1⟩).2.1
        (by decide) (unitEdge 2 1) (by decide)⟩,
    ⟨by decide,
      (weight_contract Float64.zero Float64.posInf sampleCalls (by decide) ⟨1⟩ ⟨2⟩).2.2
        (by decide) (by decide)⟩⟩

/-! ## Consistency of the indexes -/

theorem AddNode_maxID (g : DirectedGraph) (n : Node) : g.maxID ≤ (AddNode g n).2.maxID := by
  by_cases h : g.nodeMap.index n.ID = none
  · rw [AddNode_of_dead g n h]; exact le_max_left _ _
  · rw [AddNode_of_live g n h]

theorem addIfMissing_maxID (g : DirectedGraph) (n : Node) :
    g.maxID ≤ (addIfMissing g n).2.maxID := by
  by_cases h : g.nodeMap.index n.ID = none
  · rw [addIfMissing_of_dead g n h]; exact AddNode_maxID g n
  · rw [addIfMissing_of_live g n h]

theorem withEndpoints_maxID (g : DirectedGraph) (e : Edge) :
    g.maxID ≤ (withEndpoints g e).maxID :=
  le_trans (addIfMissing_maxID g e.From) (addIfMissing_maxID _ e.To)

theorem SetEdge_maxID (g : DirectedGraph) (e : Edge) : g.maxID ≤ (SetEdge g e).2.maxID := by
  by_cases h : e.From.ID = e.To.ID
  · rw [SetEdge_of_eq g e h]
  · rw [SetEdge_of_ne g e h]
    cases (withEndpoints g e).successors.assignIn e.From.ID e.To.ID e with
    | none => exact withEndpoints_maxID g e
    | some s =>
      simp only
      cases ({ withEndpoints g e with successors := s } : DirectedGraph).predecessors.assignIn
          e.To.ID e.From.ID e with
      | none => exact withEndpoints_maxID g e
      | some p => exact withEndpoints_maxID g e

theorem RemoveEdge_maxID (g : DirectedGraph) (e : Edge) : (RemoveEdge g e).maxID = g.maxID := by
  unfold RemoveEdge
  cases g.nodeMap.index e.From.ID with
  | none => rfl
  | some a =>
    cases g.nodeMap.index e.To.ID with
    | none => rfl
    | some b => rfl

theorem NewNodeID_maxID (g : DirectedGraph) (start : Nat) :
    g.maxID ≤ (NewNodeID g start).2.maxID := by
  by_cases h : g.maxID = maxInt
  · rw [NewNodeID_state_of_eq g start h]
  · rw [NewNodeID_of_ne g start h]
    show g.maxID ≤ g.maxID + 1
    omega

theorem Call.run_maxID (g : DirectedGraph) (c : Call) : g.maxID ≤ (Call.run g c).maxID := by
  cases c with
  | addNode n => exact AddNode_maxID g n
  | setEdge e => exact SetEdge_maxID g e
  | removeEdge e => exact le_of_eq (RemoveEdge_maxID g e).symm
  | removeNode n => exact le_of_eq (RemoveNode_maxID g n).symm
  | newNodeID start => exact NewNodeID_maxID g start
  | emptyGraph => exact le_refl _

/-- The slice `Nodes` returns for a store that satisfies the invariant: no nil entry,
no node twice, and exactly the values of `nodeMap`. -/
theorem Nodes_entries (g : DirectedGraph) (hI : Inv g) :
    none ∉ g.nodeMap.map (fun p => some p.2) ∧
    (g.nodeMap.map (fun p => some p.2)).Nodup ∧
    (∀ m : Node, some m ∈ g.nodeMap.map (fun p => some p.2)
      ↔ g.nodeMap.index m.ID = some m) := by
  refine ⟨?_, ?_, ?_⟩
  · simp
  · have hk : (g.nodeMap.map Prod.fst).Nodup := hI.nodesNodup
    have hinj : ∀ x ∈ g.nodeMap, ∀ y ∈ g.nodeMap,
        (fun p : Int × Node => some p.2) x = (fun p : Int × Node => some p.2) y → x = y := by
      intro x hx y hy hxy
      obtain ⟨k1, m1⟩ := x
      obtain ⟨k2, m2⟩ := y
      simp only [Option.some.injEq] at hxy
      subst hxy
      have h1 := hI.nodeID k1 m1 (index_of_mem _ _ _ hI.nodesNodup hx)
      have h2 := hI.nodeID k2 m1 (index_of_mem _ _ _ hI.nodesNodup hy)
      rw [← h1, ← h2]
    exact List.Nodup.map_on hinj (List.Nodup.of_map _ hk)
  · intro m
    rw [List.mem_map]
    constructor
    · rintro ⟨⟨k, m'⟩, hmem, hval⟩
      simp only [Option.some.injEq] at hval
      subst hval
      have hidx := index_of_mem _ k m' hI.nodesNodup hmem
      have hk := hI.nodeID k m' hidx
      rw [hk]; exact hidx
    · intro h
      exact ⟨(m.ID, m), mem_of_index _ _ _ h, rfl⟩

/-- C20. Index consistency of the directed store: in every reachable state the key
sets of `successors`, `predecessors` and `nodeMap` are equal, the free set contains no
live id, and `maxID` is at least every live id and does not decrease across a call;
so `Nodes()` returns each live node exactly once with no nil entry, and `To(n)`, which
tests the successors index, returns nil exactly when `n` is not live. -/
theorem index_consistency (g : DirectedGraph) (hR : Reachable g) :
    (∀ k, (g.successors.index k = none ↔ g.nodeMap.index k = none) ∧
      (g.predecessors.index k = none ↔ g.nodeMap.index k = none)) ∧
    (g.successors.keys.Nodup ∧ g.predecessors.keys.Nodup ∧ g.nodeMap.keys.Nodup) ∧
    (∀ k, g.freeMap.index k ≠ none → g.nodeMap.index k = none) ∧
    (∀ k, g.nodeMap.index k ≠ none → k ≤ g.maxID) ∧
    (∀ c : Call, g.maxID ≤ (Call.run g c).maxID) ∧
    (∃ l, Nodes g = .ok l ∧ none ∉ l ∧ l.Nodup ∧
      ∀ m : Node, some m ∈ l ↔ g.nodeMap.index m.ID = some m) ∧
    (∀ n : Node, To g n = none ↔ g.nodeMap.index n.ID = none) := by
  have hI := hR.inv
  refine ⟨fun k => ⟨hI.succKeys k, hI.predKeys k⟩,
    ⟨hI.succNodup, hI.predNodup, hI.nodesNodup⟩, hI.freeDead, hI.liveLeMax,
    Call.run_maxID g, ?_, ?_⟩
  · obtain ⟨h1, h2, h3⟩ := Nodes_entries g hI
    exact ⟨_, Nodes_of_inv g hI, h1, h2, h3⟩
  · intro n
    rw [← hI.succKeys n.ID]
    unfold To
    cases g.successors.index n.ID with
    | none => simp
    | some s => simp

/-- C20 after the calls of `sampleCalls`, which add and remove node 3. -/
theorem index_consistency_witness :
    Reachable (runCalls emptyStore sampleCalls) ∧
    Nodes (runCalls emptyStore sampleCalls) = .ok [some ⟨2⟩, some ⟨1⟩, some ⟨0⟩] ∧
    (runCalls emptyStore sampleCalls).freeMap.index 3 ≠ none ∧
    (∃ l, Nodes (runCalls emptyStore sampleCalls) = .ok l ∧ none ∉ l ∧ l.Nodup ∧
      ∀ m : Node, some m ∈ l ↔ (runCalls emptyStore sampleCalls).nodeMap.index m.ID = some m) ∧
    (∀ n : Node, To (runCalls emptyStore sampleCalls) n = none
      ↔ (runCalls emptyStore sampleCalls).nodeMap.index n.ID = none) :=
  ⟨runCalls_reachable sampleCalls emptyStore (Reachable.new _ _) (by decide), by decide,
    by decide,
    (index_consistency (runCalls emptyStore sampleCalls)
      (runCalls_reachable sampleCalls emptyStore (Reachable.new _ _) (by decide))).2.2.2.2.2.1,
    (index_consistency (runCalls emptyStore sampleCalls)
      (runCalls_reachable sampleCalls emptyStore (Reachable.new _ _) (by decide))).2.2.2.2.2.2⟩

/-! ## `Edges` lists every stored edge once -/

theorem foldl_append_flatMap {α β : Type} (f : α → List β) (l : List α) (init : List β) :
    l.foldl (fun acc a => acc ++ f a) init = init ++ l.flatMap f := by
  induction l generalizing init with
  | nil => simp
  | cons a l ih => simp [ih, List.append_assoc]

theorem Edges_eq_flatMap (g : DirectedGraph) :
    Edges g = g.nodeMap.flatMap (fun p => innerValues g.successors p.2.ID) := by
  unfold Edges
  rw [foldl_append_flatMap (fun p : Int × Node => innerValues g.successors p.2.ID)]
  simp

theorem innerValues_of_index (m : GoMap (GoMap Edge)) (k : Int) (s : GoMap Edge)
    (h : m.index k = some s) : innerValues m k = s.map Prod.snd := by
  unfold innerValues; rw [h]

theorem innerValues_length (m : GoMap (GoMap Edge)) (k : Int) :
    (innerValues m k).length = innerLen m k := by
  unfold innerValues innerLen
  cases m.index k with
  | none => rfl
  | some s => simp [GoMap.len]

theorem storedEdges_eq_keys (m : GoMap (GoMap Edge)) (hm : m.keys.Nodup) :
    storedEdges m = m.keys.flatMap (innerValues m) := by
  unfold storedEdges GoMap.keys
  rw [List.flatMap_map]
  apply List.flatMap_congr
  intro p hp
  obtain ⟨k, s⟩ := p
  exact (innerValues_of_index m k s (index_of_mem m k s hm hp)).symm

/-- Visiting the inner maps of `m` in the order of `nodeMap` gives the values of `m`,
when both have the same keys. -/
theorem flatMap_nodes_perm (g : DirectedGraph) (hI : Inv g) (m : GoMap (GoMap Edge))
    (hm : m.keys.Nodup) (hk : ∀ k, m.index k = none ↔ g.nodeMap.index k = none) :
    List.Perm (g.nodeMap.flatMap (fun p => innerValues m p.2.ID)) (storedEdges m) := by
  have h1 : g.nodeMap.flatMap (fun p => innerValues m p.2.ID)
      = g.nodeMap.keys.flatMap (innerValues m) := by
    unfold GoMap.keys
    rw [List.flatMap_map]
    apply List.flatMap_congr
    intro p hp
    obtain ⟨k, n⟩ := p
    have := hI.nodeID k n (index_of_mem _ k n hI.nodesNodup hp)
    simp only
    rw [this]
  rw [h1, storedEdges_eq_keys m hm]
  apply List.Perm.flatMap_right
  rw [List.perm_ext_iff_of_nodup hI.nodesNodup hm]
  intro k
  rw [GoMap.mem_keys_iff, GoMap.mem_keys_iff, not_iff_not]
  exact (hk k).symm

theorem mem_storedEdges (m : GoMap (GoMap Edge)) (hm : m.keys.Nodup)
    (hi : ∀ k s, m.index k = some s → s.keys.Nodup) (e : Edge) :
    e ∈ storedEdges m ↔ ∃ k v, m.index2 k v = some e := by
  unfold storedEdges
  rw [List.mem_flatMap]
  constructor
  · rintro ⟨⟨k, s⟩, hks, he⟩
    rw [List.mem_map] at he
    obtain ⟨⟨v, e'⟩, hve, hval⟩ := he
    simp only at hval
    subst hval
    have h1 := index_of_mem m k s hm hks
    have h2 := index_of_mem s v e' (hi k s h1) hve
    exact ⟨k, v, by rw [index2_of_index m k v s h1]; exact h2⟩
  · rintro ⟨k, v, h⟩
    obtain ⟨s, h1, h2⟩ := index2_eq_some m k v e h
    exact ⟨(k, s), mem_of_index m k s h1, List.mem_map.2 ⟨(v, e), mem_of_index s v e h2, rfl⟩⟩

theorem nodup_storedEdges (m : GoMap (GoMap Edge)) (hm : m.keys.Nodup)
    (hi : ∀ k s, m.index k = some s → s.keys.Nodup) (f1 f2 : Edge → Int)
    (h : ∀ k v e, m.index2 k v = some e → f1 e = k ∧ f2 e = v) :
    (storedEdges m).Nodup := by
  unfold storedEdges
  rw [List.nodup_flatMap]
  constructor
  · rintro ⟨k, s⟩ hks
    have h1 := index_of_mem m k s hm hks
    have hsn : (s.map Prod.fst).Nodup := hi k s h1
    apply List.Nodup.map_on _ (List.Nodup.of_map _ hsn)
    rintro ⟨v1, e1⟩ hx ⟨v2, e2⟩ hy hxy
    simp only at hxy
    subst hxy
    have a1 := index_of_mem s v1 e1 (hi k s h1) hx
    have a2 := index_of_mem s v2 e1 (hi k s h1) hy
    have b1 := (h k v1 e1 (by rw [index2_of_index m k v1 s h1]; exact a1)).2
    have b2 := (h k v2 e1 (by rw [index2_of_index m k v2 s h1]; exact a2)).2
    rw [← b1, ← b2]
  · have hp : List.Pairwise (fun a b : Int × GoMap Edge => a.1 ≠ b.1) m := by
      have : List.Pairwise (fun a b : Int => a ≠ b) (m.map Prod.fst) := hm
      rw [List.pairwise_map] at this
      exact this
    apply List.Pairwise.imp_of_mem _ hp
    rintro ⟨k1, s1⟩ ⟨k2, s2⟩ hm1 hm2 hne
    simp only [Function.onFun]
    intro e he1 he2
    rw [List.mem_map] at he1 he2
    obtain ⟨⟨v1, e1⟩, hx, hx2⟩ := he1
    obtain ⟨⟨v2, e2⟩, hy, hy2⟩ := he2
    simp only at hx2 hy2
    subst hx2; subst hy2
    have i1 := index_of_mem m k1 s1 hm hm1
    have i2 := index_of_mem m k2 s2 hm hm2
    have a1 := index_of_mem s1 v1 e2 (hi k1 s1 i1) hx
    have a2 := index_of_mem s2 v2 e2 (hi k2 s2 i2) hy
    have b1 := (h k1 v1 e2 (by rw [index2_of_index m k1 v1 s1 i1]; exact a1)).1
    have b2 := (h k2 v2 e2 (by rw [index2_of_index m k2 v2 s2 i2]; exact a2)).1
    exact hne (b1.symm.trans b2)

theorem storedEdges_pred_perm (g : DirectedGraph) (hI : Inv g) :
    List.Perm (storedEdges g.predecessors) (storedEdges g.successors) := by
  have hs := nodup_storedEdges g.successors hI.succNodup hI.succInner
    (fun e => e.From.ID) (fun e => e.To.ID) hI.endpoints
  have hp := nodup_storedEdges g.predecessors hI.predNodup hI.predInner
    (fun e => e.To.ID) (fun e => e.From.ID) (by
      intro k v e he
      rw [← hI.mirror] at he
      exact ⟨(hI.endpoints v k e he).2, (hI.endpoints v k e he).1⟩)
  rw [List.perm_ext_iff_of_nodup hp hs]
  intro e
  rw [mem_storedEdges _ hI.predNodup hI.predInner, mem_storedEdges _ hI.succNodup hI.succInner]
  constructor
  · rintro ⟨k, v, h⟩
    exact ⟨v, k, by rw [hI.mirror]; exact h⟩
  · rintro ⟨k, v, h⟩
    exact ⟨v, k, by rw [← hI.mirror]; exact h⟩

theorem sum_degree_eq_length (g : DirectedGraph) (hI : Inv g) (m : GoMap (GoMap Edge))
    (deg : DirectedGraph → Node → Nat)
    (hdeg : ∀ n : Node, g.nodeMap.index n.ID ≠ none → deg g n = innerLen m n.ID) :
    (g.nodeMap.map (fun p => deg g p.2)).sum
      = (g.nodeMap.flatMap (fun p => innerValues m p.2.ID)).length := by
  rw [List.length_flatMap]
  congr 1
  apply List.map_congr_left
  rintro ⟨k, n⟩ hp
  have h1 := index_of_mem _ k n hI.nodesNodup hp
  have h2 := hI.nodeID k n h1
  simp only [Function.comp]
  rw [innerValues_length]
  apply hdeg
  rw [h2, h1]
  simp

theorem OutDegree_of_live (g : DirectedGraph) (n : Node) (h : g.nodeMap.index n.ID ≠ none) :
    OutDegree g n = innerLen g.successors n.ID := by
  unfold OutDegree
  cases hn : g.nodeMap.index n.ID with
  | none => exact absurd hn h
  | some x => rfl

theorem InDegree_of_live (g : DirectedGraph) (n : Node) (h : g.nodeMap.index n.ID ≠ none) :
    InDegree g n = innerLen g.predecessors n.ID := by
  unfold InDegree
  cases hn : g.nodeMap.index n.ID with
  | none => exact absurd hn h
  | some x => rfl

/-- C11. `Edges()` yields each stored edge exactly once: in every reachable state the
result is a rearrangement of all values `successors[u][v]` and has no repetition, an
edge `e` is in `Edges()` if and only if `Edge(e.From(), e.To()) = e`, and
`len(Edges())` equals the sum of `OutDegree(n)` over the live nodes, which equals the
sum of `InDegree(n)` over the live nodes. -/
theorem edges_once (g : DirectedGraph) (hR : Reachable g) :
    List.Perm (Edges g) (storedEdges g.successors) ∧
    (Edges g).Nodup ∧
    (∀ e : Edge, e ∈ Edges g ↔ g.Edge e.From e.To = some e) ∧
    (Edges g).length = (g.nodeMap.map (fun p => OutDegree g p.2)).sum ∧
    (Edges g).length = (g.nodeMap.map (fun p => InDegree g p.2)).sum := by
  have hI := hR.inv
  have hperm : List.Perm (Edges g) (storedEdges g.successors) := by
    rw [Edges_eq_flatMap]
    exact flatMap_nodes_perm g hI g.successors hI.succNodup hI.succKeys
  have hnd := nodup_storedEdges g.successors hI.succNodup hI.succInner
    (fun e => e.From.ID) (fun e => e.To.ID) hI.endpoints
  refine ⟨hperm, hperm.nodup_iff.2 hnd, ?_, ?_, ?_⟩
  · intro e
    rw [hperm.mem_iff, mem_storedEdges _ hI.succNodup hI.succInner, Edge_eq_index2 g hI]
    constructor
    · rintro ⟨k, v, h⟩
      obtain ⟨h1, h2⟩ := hI.endpoints k v e h
      rw [h1, h2]; exact h
    · intro h
      exact ⟨_, _, h⟩
  · rw [sum_degree_eq_length g hI g.successors OutDegree (OutDegree_of_live g),
      Edges_eq_flatMap]
  · rw [sum_degree_eq_length g hI g.predecessors InDegree (InDegree_of_live g)]
    have h1 := (flatMap_nodes_perm g hI g.predecessors hI.predNodup hI.predKeys).length_eq
    have h2 := (storedEdges_pred_perm g hI).length_eq
    rw [h1, h2, hperm.length_eq]

/-- C11 at the store of `generateDummyGraph`, which holds four edges. -/
theorem edges_once_witness :
    Reachable generateDummyGraph ∧
    Edges generateDummyGraph = [unitEdge 2 1, unitEdge 2 0, unitEdge 1 0, unitEdge 0 2] ∧
    (List.Perm (Edges generateDummyGraph) (storedEdges generateDummyGraph.successors) ∧
    (Edges generateDummyGraph).Nodup ∧
    (∀ e : Edge, e ∈ Edges generateDummyGraph ↔ generateDummyGraph.Edge e.From e.To = some e) ∧
    (Edges generateDummyGraph).length
      = (generateDummyGraph.nodeMap.map (fun p => OutDegree generateDummyGraph p.2)).sum ∧
    (Edges generateDummyGraph).length
      = (generateDummyGraph.nodeMap.map (fun p => InDegree generateDummyGraph p.2)).sum) :=
  ⟨reachable_generateDummyGraph, by decide,
    edges_once generateDummyGraph reachable_generateDummyGraph⟩

/-! ## The symmetric matrix -/

theorem isSame_refl (a : Float64) : isSame a a = true := by
  unfold isSame Float64.goEq
  cases h : a.isNaN <;> simp

namespace SymDense

theorem offset_symm (s : SymDense) (i j : Nat) : s.offset i j = s.offset j i := by
  unfold offset
  rcases Nat.lt_trichotomy i j with h | h | h
  · have h1 : ¬ i > j := by omega
    rw [if_neg h1, if_pos h]
  · subst h; rfl
  · have h1 : ¬ j > i := by omega
    rw [if_pos h, if_neg h1]

theorem upper_lt (n a b : Nat) (ha : a < n) (hb : b < n) : a * n + b < n * n := by
  have h1 : (a + 1) * n ≤ n * n := Nat.mul_le_mul_right n ha
  rw [Nat.succ_mul] at h1
  omega

theorem offset_lt (s : SymDense) (i j : Nat) (hi : i < s.n) (hj : j < s.n) :
    s.offset i j < s.n * s.n := by
  unfold offset
  split
  · exact upper_lt s.n j i hj hi
  · exact upper_lt s.n i j hi hj

theorem upper_inj (n a b c d : Nat) (hb : b < n) (hd : d < n)
    (h : a * n + b = c * n + d) : a = c ∧ b = d := by
  rcases Nat.lt_trichotomy a c with hac | hac | hac
  · exfalso
    have h1 : (a + 1) * n ≤ c * n := Nat.mul_le_mul_right n hac
    rw [Nat.succ_mul] at h1
    omega
  · subst hac
    exact ⟨rfl, by omega⟩
  · exfalso
    have h1 : (c + 1) * n ≤ a * n := Nat.mul_le_mul_right n hac
    rw [Nat.succ_mul] at h1
    omega

/-- Two cells in range share a position of the backing array only if they are the same
unordered pair. -/
theorem offset_inj (s : SymDense) (i j a b : Nat) (hi : i < s.n) (hj : j < s.n)
    (ha : a < s.n) (hb : b < s.n) (h : s.offset i j = s.offset a b) :
    (i = a ∧ j = b) ∨ (i = b ∧ j = a) := by
  unfold offset at h
  by_cases h1 : i > j
  · by_cases h2 : a > b
    · rw [if_pos h1, if_pos h2] at h
      have := upper_inj s.n j i b a hi ha h
      exact Or.inl ⟨this.2, this.1⟩
    · rw [if_pos h1, if_neg h2] at h
      have := upper_inj s.n j i a b hi hb h
      exact Or.inr ⟨this.2, this.1⟩
  · by_cases h2 : a > b
    · rw [if_neg h1, if_pos h2] at h
      have := upper_inj s.n i j b a hj ha h
      exact Or.inr ⟨this.1, this.2⟩
    · rw [if_neg h1, if_neg h2] at h
      exact Or.inl (upper_inj s.n i j a b hj hb h)

theorem At_natCast (s : SymDense) (i j : Nat) (hi : i < s.n) (hj : j < s.n) :
    s.At (i : Int) (j : Int) = s.read i j := by
  unfold At
  have h1 : ¬ ((i : Int) < 0 ∨ (s.n : Int) ≤ (i : Int)) := by omega
  have h2 : ¬ ((j : Int) < 0 ∨ (s.n : Int) ≤ (j : Int)) := by omega
  rw [if_neg h1, if_neg h2]
  simp

theorem At_row_out (s : SymDense) (i j : Int) (h : i < 0 ∨ (s.n : Int) ≤ i) :
    s.At i j = .panic .rowAccess := by
  unfold At
  rw [if_pos h]

theorem SetSym_natCast (s : SymDense) (i j : Nat) (v : Float64) (hi : i < s.n) (hj : j < s.n)
    (hlen : s.data.length = s.n * s.n) :
    s.SetSym (i : Int) (j : Int) v
      = (.ok (), { s with data := s.data.set (s.offset i j) v }) := by
  unfold SetSym
  have h1 : ¬ ((i : Int) < 0 ∨ (s.n : Int) ≤ (i : Int)) := by omega
  have h2 : ¬ ((j : Int) < 0 ∨ (s.n : Int) ≤ (j : Int)) := by omega
  rw [if_neg h1, if_neg h2]
  simp only [Int.toNat_ofNat]
  have h3 : s.offset i j < s.data.length := by rw [hlen]; exact s.offset_lt i j hi hj
  rw [if_pos h3]

theorem SetSym_n (s : SymDense) (i j : Int) (v : Float64) : (s.SetSym i j v).2.n = s.n := by
  unfold SetSym
  split
  · rfl
  · split
    · rfl
    · split <;> rfl

theorem SetSym_length (s : SymDense) (i j : Int) (v : Float64) :
    (s.SetSym i j v).2.data.length = s.data.length := by
  unfold SetSym
  split
  · rfl
  · split
    · rfl
    · split
      · simp
      · rfl

end SymDense

namespace UndirectedDenseGraph

theorem At_eq_cell (g : UndirectedDenseGraph) (hW : g.WF) (i j : Nat)
    (hi : i < g.mat.n) (hj : j < g.mat.n) :
    g.mat.At (i : Int) (j : Int) = .ok (g.cell i j) := by
  rw [SymDense.At_natCast g.mat i j hi hj]
  unfold SymDense.read cell
  have h3 : g.mat.offset i j < g.mat.data.length := by
    rw [hW]; exact g.mat.offset_lt i j hi hj
  rw [List.getElem?_eq_getElem h3, List.getD_eq_getElem _ _ h3]

theorem cell_symm (g : UndirectedDenseGraph) (i j : Nat) : g.cell i j = g.cell j i := by
  unfold cell
  rw [g.mat.offset_symm i j]

theorem present_symm (g : UndirectedDenseGraph) (i j : Nat) : g.present i j = g.present j i := by
  unfold present
  rw [g.cell_symm i j]

theorem has_iff (g : UndirectedDenseGraph) (id : Int) :
    g.has id = true ↔ ∃ i : Nat, i < g.mat.n ∧ id = (i : Int) := by
  unfold has SymDense.Symmetric
  simp only [Bool.and_eq_true, decide_eq_true_eq]
  constructor
  · rintro ⟨h1, h2⟩
    exact ⟨id.toNat, by omega, by omega⟩
  · rintro ⟨i, hi, rfl⟩
    omega

theorem not_has_iff (g : UndirectedDenseGraph) (id : Int) :
    g.has id = false ↔ (id < 0 ∨ (g.mat.n : Int) ≤ id) := by
  unfold has SymDense.Symmetric
  rw [← Bool.not_eq_true, Bool.and_eq_true, decide_eq_true_eq, decide_eq_true_eq]
  omega

/-- The store after a `SetSym` on two ids in range. -/
theorem setSym_cell (g : UndirectedDenseGraph) (hW : g.WF) (i j : Nat) (v : Float64)
    (hi : i < g.mat.n) (hj : j < g.mat.n) (a b : Nat) (ha : a < g.mat.n) (hb : b < g.mat.n) :
    cell { g with mat := (g.mat.SetSym (i : Int) (j : Int) v).2 } a b
      = if (a = i ∧ b = j) ∨ (a = j ∧ b = i) then v else g.cell a b := by
  rw [SymDense.SetSym_natCast g.mat i j v hi hj hW]
  unfold cell
  simp only
  have hoff : ∀ x y, SymDense.offset { g.mat with data := g.mat.data.set (g.mat.offset i j) v } x y
      = g.mat.offset x y := fun x y => rfl
  rw [hoff]
  have h3 : g.mat.offset a b < g.mat.data.length := by
    rw [hW]; exact g.mat.offset_lt a b ha hb
  have h4 : g.mat.offset a b < (g.mat.data.set (g.mat.offset i j) v).length := by
    simpa using h3
  rw [List.getD_eq_getElem _ _ h4, List.getD_eq_getElem _ _ h3, List.getElem_set]
  by_cases hc : (a = i ∧ b = j) ∨ (a = j ∧ b = i)
  · have : g.mat.offset i j = g.mat.offset a b := by
      rcases hc with ⟨h1, h2⟩ | ⟨h1, h2⟩
      · rw [h1, h2]
      · rw [h1, h2]; exact g.mat.offset_symm i j
    rw [if_pos this, if_pos hc]
  · have : ¬ g.mat.offset i j = g.mat.offset a b := by
      intro he
      rcases g.mat.offset_inj i j a b hi hj ha hb he with ⟨h1, h2⟩ | ⟨h1, h2⟩
      · exact hc (Or.inl ⟨h1.symm, h2.symm⟩)
      · exact hc (Or.inr ⟨h2.symm, h1.symm⟩)
    rw [if_neg this, if_neg hc]

theorem SetEdgeWeight_WF (g : UndirectedDenseGraph) (e : Simple.Edge) (hW : g.WF) :
    (g.SetEdgeWeight e).2.WF := by
  unfold SetEdgeWeight
  split
  · exact hW
  · unfold WF
    simp only
    rw [SymDense.SetSym_length, SymDense.SetSym_n]
    exact hW

theorem RemoveEdge_WF (g : UndirectedDenseGraph) (e : Simple.Edge) (hW : g.WF) :
    (g.RemoveEdge e).2.WF := by
  unfold RemoveEdge WF
  simp only
  rw [SymDense.SetSym_length, SymDense.SetSym_n]
  exact hW

theorem New_WF (n : Nat) (passable : Bool) (self absent : Float64) :
    (filledStore n passable self absent).WF := by
  unfold filledStore WF
  simp

end UndirectedDenseGraph

theorem runDense_WF (calls : List DenseCall) (g : UndirectedDenseGraph) (hW : g.WF) :
    (runDense g calls).WF := by
  induction calls generalizing g with
  | nil => exact hW
  | cons c cs ih =>
    apply ih
    cases c with
    | setEdgeWeight e => exact g.SetEdgeWeight_WF e hW
    | removeEdge e => exact g.RemoveEdge_WF e hW

theorem runDense_config (calls : List DenseCall) (g : UndirectedDenseGraph) :
    (runDense g calls).self = g.self ∧ (runDense g calls).absent = g.absent ∧
      (runDense g calls).mat.n = g.mat.n := by
  induction calls generalizing g with
  | nil => exact ⟨rfl, rfl, rfl⟩
  | cons c cs ih =>
    have h := ih (DenseCall.run g c)
    have hc : (DenseCall.run g c).self = g.self ∧ (DenseCall.run g c).absent = g.absent ∧
        (DenseCall.run g c).mat.n = g.mat.n := by
      cases c with
      | setEdgeWeight e =>
        show (g.SetEdgeWeight e).2.self = _ ∧ (g.SetEdgeWeight e).2.absent = _ ∧
          (g.SetEdgeWeight e).2.mat.n = _
        unfold UndirectedDenseGraph.SetEdgeWeight
        split
        · exact ⟨rfl, rfl, rfl⟩
        · exact ⟨rfl, rfl, SymDense.SetSym_n _ _ _ _⟩
      | removeEdge e =>
        exact ⟨rfl, rfl, SymDense.SetSym_n _ _ _ _⟩
    exact ⟨h.1.trans hc.1, h.2.1.trans hc.2.1, h.2.2.trans hc.2.2⟩

/-! ## `Weight` on the dense store -/

namespace UndirectedDenseGraph

theorem Weight_self (g : UndirectedDenseGraph) (x y : Node) (h : x.ID = y.ID) :
    g.Weight x y = .ok (g.self, true) := by
  unfold Weight
  rw [if_pos h]

theorem Weight_in_range (g : UndirectedDenseGraph) (hW : g.WF) (i j : Nat)
    (hi : i < g.mat.n) (hj : j < g.mat.n) (hne : i ≠ j) :
    g.Weight ⟨i⟩ ⟨j⟩ = .ok (g.cell i j, true) := by
  unfold Weight
  have h1 : ¬ ((i : Int) = (j : Int)) := by omega
  have h2 : (g.has (i : Int) && g.has (j : Int)) = true := by
    rw [Bool.and_eq_true]
    exact ⟨(g.has_iff _).2 ⟨i, hi, rfl⟩, (g.has_iff _).2 ⟨j, hj, rfl⟩⟩
  simp only [h1, if_false, h2, if_true]
  rw [g.At_eq_cell hW i j hi hj]

theorem HasEdgeBetween_in_range (g : UndirectedDenseGraph) (hW : g.WF) (i j : Nat)
    (hi : i < g.mat.n) (hj : j < g.mat.n) (hne : i ≠ j) :
    g.HasEdgeBetween ⟨i⟩ ⟨j⟩ = .ok (g.present i j) := by
  unfold HasEdgeBetween present
  have h1 : ¬ ((i : Int) = (j : Int)) := by omega
  simp only [h1, if_false]
  rw [g.At_eq_cell hW i j hi hj]

theorem EdgeBetween_in_range (g : UndirectedDenseGraph) (hW : g.WF) (i j : Nat)
    (hi : i < g.mat.n) (hj : j < g.mat.n) (hne : i ≠ j) :
    g.EdgeBetween ⟨i⟩ ⟨j⟩
      = .ok (if g.present i j then some ⟨⟨i⟩, ⟨j⟩, g.cell i j⟩ else none) := by
  unfold EdgeBetween
  rw [g.HasEdgeBetween_in_range hW i j hi hj hne]
  cases hp : g.present i j
  · rfl
  · simp only
    rw [g.At_eq_cell hW i j hi hj]
    rfl

end UndirectedDenseGraph

/-- C13 as stated fails: in a 4-node store with `absent = +0`, after `SetEdgeWeight` of
the pair 0-1 with the weight `-0`, no edge is present (`HasEdgeBetween(0, 1)` is false),
yet `Weight(0, 1)` is `(-0, true)`, which is not `(absent, true)`. -/
theorem dense_weight_negative_zero :
    denseNegZero.WF ∧ denseNegZero.absent = Float64.zero ∧
    denseNegZero.HasEdgeBetween ⟨0⟩ ⟨1⟩ = .ok false ∧
    denseNegZero.Weight ⟨0⟩ ⟨1⟩ = .ok (Float64.negZero, true) ∧
    denseNegZero.Weight ⟨0⟩ ⟨1⟩ ≠ .ok (denseNegZero.absent, true) := by
  decide

/-- C13, amended. `Weight` on the dense store is total and has three cases: for every
store and all ids `x`, `y`, in range or not, `Weight(x, y)` returns without an
out-of-range access, and it is `(self, true)` if `x == y`; `(matrix[x][y], true)` if
`x != y` and both ids are in `[0, n)`, where the weight is one that `isSame` takes for
`absent` when no edge is present; and `(absent, false)` otherwise.  `Weight(x, x)` stays
`(self, true)` after any sequence of `SetEdgeWeight` and `RemoveEdge` calls. -/
theorem dense_weight_total (g : UndirectedDenseGraph) (hW : g.WF) (x y : Node) :
    (∃ r, g.Weight x y = .ok r) ∧
    (x.ID = y.ID → g.Weight x y = .ok (g.self, true)) ∧
    (x.ID ≠ y.ID → g.has x.ID = true → g.has y.ID = true →
      ∃ w, g.Matrix.At x.ID y.ID = .ok w ∧ g.Weight x y = .ok (w, true) ∧
        (g.HasEdgeBetween x y = .ok false → isSame w g.absent = true)) ∧
    (x.ID ≠ y.ID → (g.has x.ID = false ∨ g.has y.ID = false) →
      g.Weight x y = .ok (g.absent, false)) ∧
    (∀ calls : List DenseCall, x.ID = y.ID →
      (runDense g calls).Weight x y = .ok (g.self, true)) := by
  have hin : x.ID ≠ y.ID → g.has x.ID = true → g.has y.ID = true →
      ∃ w, g.Matrix.At x.ID y.ID = .ok w ∧ g.Weight x y = .ok (w, true) ∧
        (g.HasEdgeBetween x y = .ok false → isSame w g.absent = true) := by
    intro hne hx hy
    obtain ⟨i, hi, hxi⟩ := (g.has_iff _).1 hx
    obtain ⟨j, hj, hyj⟩ := (g.has_iff _).1 hy
    obtain ⟨xid⟩ := x
    obtain ⟨yid⟩ := y
    simp only at hxi hyj hne
    subst hxi; subst hyj
    have hij : i ≠ j := fun c => hne (by rw [c])
    refine ⟨g.cell i j, g.At_eq_cell hW i j hi hj, g.Weight_in_range hW i j hi hj hij, ?_⟩
    rw [g.HasEdgeBetween_in_range hW i j hi hj hij]
    intro hp
    injection hp with hp
    unfold UndirectedDenseGraph.present at hp
    simpa using hp
  have hout : x.ID ≠ y.ID → (g.has x.ID = false ∨ g.has y.ID = false) →
      g.Weight x y = .ok (g.absent, false) := by
    intro hne hh
    unfold UndirectedDenseGraph.Weight
    have h2 : (g.has x.ID && g.has y.ID) = false := by
      rcases hh with h | h <;> simp [h]
    simp [hne, h2]
  refine ⟨?_, g.Weight_self x y, hin, hout, ?_⟩
  · by_cases h : x.ID = y.ID
    · exact ⟨_, g.Weight_self x y h⟩
    · cases hx : g.has x.ID with
      | false => exact ⟨_, hout h (Or.inl hx)⟩
      | true =>
        cases hy : g.has y.ID with
        | false => exact ⟨_, hout h (Or.inr hy)⟩
        | true =>
          obtain ⟨w, _, hw, _⟩ := hin h hx hy
          exact ⟨_, hw⟩
  · intro calls h
    rw [UndirectedDenseGraph.Weight_self _ x y h, (runDense_config calls g).1]

/-- C13, amended, at the 4-node store of the spec with the edge 0-1 set: the weight of 0 and 1 is
the cell, the weight of the absent pair 0-2 is `+Inf` with `true`, the weight of 0 and the
out-of-range id 7 is `+Inf` with `false`, and the weight of 7 with itself is 0. -/
theorem dense_weight_total_witness :
    denseFourEdge.WF ∧
    denseFourEdge.Weight ⟨7⟩ ⟨7⟩ = .ok (Float64.zero, true) ∧
    (∃ w, denseFourEdge.Matrix.At 0 2 = .ok w ∧ denseFourEdge.Weight ⟨0⟩ ⟨2⟩ = .ok (w, true) ∧
      (denseFourEdge.HasEdgeBetween ⟨0⟩ ⟨2⟩ = .ok false → isSame w denseFourEdge.absent = true)) ∧
    denseFourEdge.Weight ⟨0⟩ ⟨7⟩ = .ok (Float64.posInf, false) ∧
    (runDense denseFourEdge sampleDenseCalls).Weight ⟨1⟩ ⟨1⟩ = .ok (Float64.zero, true) :=
  ⟨by decide,
    (dense_weight_total denseFourEdge (by decide) ⟨7⟩ ⟨7⟩).2.1 rfl,
    (dense_weight_total denseFourEdge (by decide) ⟨0⟩ ⟨2⟩).2.2.1 (by decide) (by decide)
      (by decide),
    (dense_weight_total denseFourEdge (by decide) ⟨0⟩ ⟨7⟩).2.2.2.1 (by decide)
      (Or.inr (by decide)),
    (dense_weight_total denseFourEdge (by decide) ⟨1⟩ ⟨1⟩).2.2.2.2 sampleDenseCalls rfl⟩

/-! ## The loops of the dense store -/

namespace UndirectedDenseGraph

theorem degree_foldl (g : UndirectedDenseGraph) (hW : g.WF) (i : Nat) (hi : i < g.mat.n)
    (l : List Nat) (hl : ∀ j ∈ l, j < g.mat.n) (d : Nat) :
    l.foldl (g.degreeStep (i : Int)) (.ok d)
      = .ok (d + l.countP (fun j => decide (j ≠ i) && g.present i j)) := by
  induction l generalizing d with
  | nil => simp
  | cons j l ih =>
    have hj : j < g.mat.n := hl j (List.mem_cons_self j l)
    have hl' : ∀ k ∈ l, k < g.mat.n := fun k hk => hl k (List.mem_cons_of_mem j hk)
    rw [List.foldl_cons]
    by_cases hji : j = i
    · subst hji
      have : g.degreeStep (j : Int) (.ok d) j = .ok d := by
        unfold degreeStep; simp
      rw [this, ih hl']
      simp
    · have hcast : ¬ ((j : Int) = (i : Int)) := by omega
      by_cases hp : g.present i j = true
      · have : g.degreeStep (i : Int) (.ok d) j = .ok (d + 1) := by
          unfold degreeStep
          simp only [hcast, if_false]
          rw [g.At_eq_cell hW i j hi hj]
          unfold present at hp
          simp only [hp, if_true]
        rw [this, ih hl']
        rw [List.countP_cons_of_pos]
        · congr 1; omega
        · simp [hji, hp]
      · have hp' : g.present i j = false := by simpa using hp
        have : g.degreeStep (i : Int) (.ok d) j = .ok d := by
          unfold degreeStep
          simp only [hcast, if_false]
          rw [g.At_eq_cell hW i j hi hj]
          unfold present at hp'
          simp [hp']
        rw [this, ih hl']
        rw [List.countP_cons_of_neg]
        simp [hp']

theorem Degree_in_range (g : UndirectedDenseGraph) (hW : g.WF) (i : Nat) (hi : i < g.mat.n) :
    g.Degree ⟨i⟩ = .ok (g.degreeOf i) := by
  unfold Degree degreeOf SymDense.Symmetric
  rw [g.degree_foldl hW i hi (List.range g.mat.n) (fun j hj => List.mem_range.1 hj) 0]
  simp

theorem from_foldl (g : UndirectedDenseGraph) (hW : g.WF) (i : Nat) (hi : i < g.mat.n)
    (l : List Nat) (hl : ∀ j ∈ l, j < g.mat.n) (acc : List Node) :
    l.foldl (g.fromStep (i : Int)) (.ok acc)
      = .ok (acc ++ (l.filter (fun j => decide (j ≠ i) && g.present i j)).map
          (fun j : Nat => (⟨(j : Int)⟩ : Node))) := by
  induction l generalizing acc with
  | nil => simp
  | cons j l ih =>
    have hj : j < g.mat.n := hl j (List.mem_cons_self j l)
    have hl' : ∀ k ∈ l, k < g.mat.n := fun k hk => hl k (List.mem_cons_of_mem j hk)
    rw [List.foldl_cons]
    by_cases hji : j = i
    · subst hji
      have : g.fromStep (j : Int) (.ok acc) j = .ok acc := by
        unfold fromStep; simp
      rw [this, ih hl']
      simp
    · have hcast : ¬ ((j : Int) = (i : Int)) := by omega
      by_cases hp : g.present i j = true
      · have : g.fromStep (i : Int) (.ok acc) j = .ok (acc ++ [⟨j⟩]) := by
          unfold fromStep
          simp only [hcast, if_false]
          rw [g.At_eq_cell hW i j hi hj]
          unfold present at hp
          simp only [hp, if_true]
        rw [this, ih hl']
        rw [List.filter_cons_of_pos (by simp [hji, hp])]
        simp
      · have hp' : g.present i j = false := by simpa using hp
        have : g.fromStep (i : Int) (.ok acc) j = .ok acc := by
          unfold fromStep
          simp only [hcast, if_false]
          rw [g.At_eq_cell hW i j hi hj]
          unfold present at hp'
          simp [hp']
        rw [this, ih hl']
        rw [List.filter_cons_of_neg (by simp [hp'])]

theorem From_in_range (g : UndirectedDenseGraph) (hW : g.WF) (i : Nat) (hi : i < g.mat.n) :
    g.From ⟨i⟩ = .ok (g.neighborsOf i) := by
  unfold From neighborsOf SymDense.Symmetric
  rw [g.from_foldl hW i hi (List.range g.mat.n) (fun j hj => List.mem_range.1 hj) []]
  simp

theorem neighborsOf_length (g : UndirectedDenseGraph) (i : Nat) :
    (g.neighborsOf i).length = g.degreeOf i := by
  unfold neighborsOf degreeOf
  rw [List.length_map, List.countP_eq_length_filter]

theorem edges_inner_foldl (g : UndirectedDenseGraph) (hW : g.WF) (i : Nat) (hi : i < g.mat.n)
    (l : List Nat) (hl : ∀ j ∈ l, j < g.mat.n) (acc : List Simple.Edge) :
    l.foldl (g.edgesStep i) (.ok acc)
      = .ok (acc ++ (l.filter (g.present i)).map
          (fun j : Nat => (⟨⟨(i : Int)⟩, ⟨(j : Int)⟩, g.cell i j⟩ : Simple.Edge))) := by
  induction l generalizing acc with
  | nil => simp
  | cons j l ih =>
    have hj : j < g.mat.n := hl j (List.mem_cons_self j l)
    have hl' : ∀ k ∈ l, k < g.mat.n := fun k hk => hl k (List.mem_cons_of_mem j hk)
    rw [List.foldl_cons]
    by_cases hp : g.present i j = true
    · have : g.edgesStep i (.ok acc) j = .ok (acc ++ [⟨⟨i⟩, ⟨j⟩, g.cell i j⟩]) := by
        unfold edgesStep
        simp only
        rw [g.At_eq_cell hW i j hi hj]
        unfold present at hp
        simp only [hp, if_true]
      rw [this, ih hl']
      rw [List.filter_cons_of_pos hp]
      simp
    · have hp' : g.present i j = false := by simpa using hp
      have : g.edgesStep i (.ok acc) j = .ok acc := by
        unfold edgesStep
        simp only
        rw [g.At_eq_cell hW i j hi hj]
        unfold present at hp'
        simp [hp']
      rw [this, ih hl']
      rw [List.filter_cons_of_neg (by simp [hp'])]

theorem edges_outer_foldl (g : UndirectedDenseGraph) (hW : g.WF)
    (l : List Nat) (hl : ∀ i ∈ l, i < g.mat.n) (acc : List Simple.Edge) :
    l.foldl
        (fun acc i => (List.range' (i + 1) (g.mat.n - (i + 1))).foldl (g.edgesStep i) acc)
        (.ok acc)
      = .ok (acc ++ l.flatMap g.rowEdges) := by
  induction l generalizing acc with
  | nil => simp
  | cons i l ih =>
    have hi : i < g.mat.n := hl i (List.mem_cons_self i l)
    have hl' : ∀ k ∈ l, k < g.mat.n := fun k hk => hl k (List.mem_cons_of_mem i hk)
    rw [List.foldl_cons]
    rw [g.edges_inner_foldl hW i hi _ (by
      intro j hj
      rw [List.mem_range'_1] at hj
      omega)]
    rw [ih hl']
    simp [rowEdges, List.append_assoc]

theorem Edges_eq (g : UndirectedDenseGraph) (hW : g.WF) : g.Edges = .ok g.upperEdges := by
  unfold Edges upperEdges
  rw [g.edges_outer_foldl hW (List.range g.mat.n) (fun j hj => List.mem_range.1 hj) []]
  simp

theorem degree_foldl_panic (g : UndirectedDenseGraph) (id : Int) (p : DensePanic)
    (l : List Nat) : l.foldl (g.degreeStep id) (.panic p) = .panic p := by
  induction l with
  | nil => rfl
  | cons j l ih => rw [List.foldl_cons]; exact ih

theorem from_foldl_panic (g : UndirectedDenseGraph) (id : Int) (p : DensePanic)
    (l : List Nat) : l.foldl (g.fromStep id) (.panic p) = .panic p := by
  induction l with
  | nil => rfl
  | cons j l ih => rw [List.foldl_cons]; exact ih

end UndirectedDenseGraph

/-! ## Counting over a symmetric relation -/

theorem sum_map_add_indicator (l : List Nat) (f : Nat → Nat) (q : Nat → Bool) :
    (l.map (fun i => f i + if q i then 1 else 0)).sum = (l.map f).sum + l.countP q := by
  induction l with
  | nil => simp
  | cons a l ih =>
    simp only [List.map_cons, List.sum_cons, ih, List.countP_cons]
    omega

/-- Handshake over `[0, m)`: for a symmetric relation, the ordered pairs off the
diagonal are twice the pairs `i < j`. -/
theorem handshake_count (P : Nat → Nat → Bool) (hP : ∀ i j, P i j = P j i) (m : Nat) :
    ((List.range m).map
        (fun i => (List.range m).countP (fun j => decide (j ≠ i) && P i j))).sum
      = 2 * ((List.range m).map
        (fun i => (List.range m).countP (fun j => decide (i < j) && P i j))).sum := by
  induction m with
  | zero => simp
  | succ m ih =>
    rw [List.range_succ, List.map_append, List.map_append, List.sum_append, List.sum_append]
    have h1 : (List.range m).map
          (fun i => (List.range m ++ [m]).countP (fun j => decide (j ≠ i) && P i j))
        = (List.range m).map (fun i =>
            (List.range m).countP (fun j => decide (j ≠ i) && P i j)
              + if P i m then 1 else 0) := by
      apply List.map_congr_left
      intro i hi
      have him : i < m := List.mem_range.1 hi
      have hne : m ≠ i := by omega
      rw [List.countP_append, List.countP_cons, List.countP_nil]
      simp [hne]
    have h2 : (List.range m).map
          (fun i => (List.range m ++ [m]).countP (fun j => decide (i < j) && P i j))
        = (List.range m).map (fun i =>
            (List.range m).countP (fun j => decide (i < j) && P i j)
              + if P i m then 1 else 0) := by
      apply List.map_congr_left
      intro i hi
      have him : i < m := List.mem_range.1 hi
      rw [List.countP_append, List.countP_cons, List.countP_nil]
      simp [him]
    have h3 : (List.range m ++ [m]).countP (fun j => decide (j ≠ m) && P m j)
        = (List.range m).countP (fun i => P i m) := by
      rw [List.countP_append]
      have : (List.range m).countP (fun j => decide (j ≠ m) && P m j)
          = (List.range m).countP (fun i => P i m) := by
        apply List.countP_congr
        intro j hj
        have hjm : j < m := List.mem_range.1 hj
        have hne : j ≠ m := by omega
        simp [hne, hP m j]
      rw [this]
      simp
    have h4 : (List.range m ++ [m]).countP (fun j => decide (m < j) && P m j) = 0 := by
      rw [List.countP_eq_zero]
      intro j hj
      rw [List.mem_append] at hj
      have hjm : j ≤ m := by
        rcases hj with hj | hj
        · exact Nat.le_of_lt (List.mem_range.1 hj)
        · simp at hj; omega
      have : ¬ m < j := by omega
      simp [this]
    rw [h1, h2]
    simp only [List.map_cons, List.map_nil, List.sum_cons, List.sum_nil]
    rw [h3, h4, sum_map_add_indicator, sum_map_add_indicator, ih]
    omega

namespace UndirectedDenseGraph

theorem rowEdges_length (g : UndirectedDenseGraph) (i : Nat) (hi : i < g.mat.n) :
    (g.rowEdges i).length
      = (List.range g.mat.n).countP (fun j => decide (i < j) && g.present i j) := by
  unfold rowEdges
  rw [List.length_map, ← List.countP_eq_length_filter]
  have hsplit : List.range g.mat.n
      = List.range' 0 (i + 1) ++ List.range' (i + 1) (g.mat.n - (i + 1)) := by
    rw [List.range_eq_range']
    have := List.range'_append_1 0 (i + 1) (g.mat.n - (i + 1))
    rw [Nat.zero_add] at this
    rw [this]
    congr 1
    omega
  rw [hsplit, List.countP_append]
  have h0 : (List.range' 0 (i + 1)).countP (fun j => decide (i < j) && g.present i j) = 0 := by
    rw [List.countP_eq_zero]
    intro j hj
    rw [List.mem_range'_1] at hj
    have : ¬ i < j := by omega
    simp [this]
  rw [h0, Nat.zero_add]
  apply List.countP_congr
  intro j hj
  rw [List.mem_range'_1] at hj
  have : i < j := by omega
  simp [this]

/-- The sum of the degrees is twice the number of edges of the upper triangle. -/
theorem degree_sum (g : UndirectedDenseGraph) :
    ((List.range g.mat.n).map g.degreeOf).sum = 2 * g.upperEdges.length := by
  unfold upperEdges
  rw [List.length_flatMap]
  have h1 : List.map (List.length ∘ g.rowEdges) (List.range g.mat.n)
      = (List.range g.mat.n).map
          (fun i => (List.range g.mat.n).countP (fun j => decide (i < j) && g.present i j)) := by
    apply List.map_congr_left
    intro i hi
    exact g.rowEdges_length i (List.mem_range.1 hi)
  rw [h1, ← handshake_count g.present g.present_symm g.mat.n]
  rfl

end UndirectedDenseGraph

/-! ## The handshake property -/

namespace UndirectedDenseGraph

theorem mem_rowEdges (g : UndirectedDenseGraph) (i : Nat) (e : Simple.Edge) :
    e ∈ g.rowEdges i ↔
      ∃ j : Nat, i < j ∧ j < g.mat.n ∧ g.present i j = true ∧
        e = ⟨⟨(i : Int)⟩, ⟨(j : Int)⟩, g.cell i j⟩ := by
  unfold rowEdges
  rw [List.mem_map]
  constructor
  · rintro ⟨j, hj, rfl⟩
    rw [List.mem_filter, List.mem_range'_1] at hj
    exact ⟨j, by omega, by omega, hj.2, rfl⟩
  · rintro ⟨j, h1, h2, h3, rfl⟩
    refine ⟨j, ?_, rfl⟩
    rw [List.mem_filter, List.mem_range'_1]
    exact ⟨by omega, h3⟩

theorem mem_upperEdges (g : UndirectedDenseGraph) (e : Simple.Edge) :
    e ∈ g.upperEdges ↔
      ∃ i j : Nat, i < j ∧ j < g.mat.n ∧ g.present i j = true ∧
        e = ⟨⟨(i : Int)⟩, ⟨(j : Int)⟩, g.cell i j⟩ := by
  unfold upperEdges
  rw [List.mem_flatMap]
  constructor
  · rintro ⟨i, _, he⟩
    obtain ⟨j, h⟩ := (g.mem_rowEdges i e).1 he
    exact ⟨i, j, h⟩
  · rintro ⟨i, j, h1, h2, h3, h4⟩
    exact ⟨i, List.mem_range.2 (by omega), (g.mem_rowEdges i e).2 ⟨j, h1, h2, h3, h4⟩⟩

theorem nodup_upperEdges (g : UndirectedDenseGraph) : g.upperEdges.Nodup := by
  unfold upperEdges
  rw [List.nodup_flatMap]
  constructor
  · intro i _
    unfold rowEdges
    apply List.Nodup.map_on _ ((List.nodup_range' _ _).filter _)
    intro x _ y _ hxy
    have := congrArg (fun e : Simple.Edge => e.T.ID) hxy
    simp only at this
    omega
  · apply List.Pairwise.imp _ (List.pairwise_lt_range g.mat.n)
    intro a b hab
    simp only [Function.onFun]
    intro e h1 h2
    obtain ⟨j1, _, _, _, e1⟩ := (g.mem_rowEdges a e).1 h1
    obtain ⟨j2, _, _, _, e2⟩ := (g.mem_rowEdges b e).1 h2
    rw [e1] at e2
    have := congrArg (fun e : Simple.Edge => e.F.ID) e2
    simp only at this
    omega

/-- The handshake property of a store whose backing array has `n*n` elements. -/
theorem handshake_of_WF (g : UndirectedDenseGraph) (hW : g.WF) :
    g.Edges = .ok g.upperEdges ∧ g.upperEdges.Nodup ∧
    (∀ e : Simple.Edge, e ∈ g.upperEdges ↔
      ∃ i j : Nat, i < j ∧ j < g.mat.n ∧ e.F = ⟨(i : Int)⟩ ∧ e.T = ⟨(j : Int)⟩ ∧
        g.Matrix.At (i : Int) (j : Int) = .ok e.W ∧ isSame e.W g.absent = false) ∧
    (∀ i : Nat, i < g.mat.n →
      g.Degree ⟨(i : Int)⟩ = .ok (g.degreeOf i) ∧ g.From ⟨(i : Int)⟩ = .ok (g.neighborsOf i) ∧
        (g.neighborsOf i).length = g.degreeOf i) ∧
    ((List.range g.mat.n).map (fun i : Nat => g.Degree ⟨(i : Int)⟩)
        = ((List.range g.mat.n).map g.degreeOf).map DenseRes.ok ∧
      ((List.range g.mat.n).map g.degreeOf).sum = 2 * g.upperEdges.length) := by
  refine ⟨g.Edges_eq hW, g.nodup_upperEdges, ?_, ?_, ?_, g.degree_sum⟩
  · intro e
    rw [g.mem_upperEdges]
    constructor
    · rintro ⟨i, j, h1, h2, h3, rfl⟩
      refine ⟨i, j, h1, h2, rfl, rfl, g.At_eq_cell hW i j (by omega) h2, ?_⟩
      unfold present at h3
      simpa using h3
    · rintro ⟨i, j, h1, h2, hF, hT, hAt, hS⟩
      have hc : g.Matrix.At (i : Int) (j : Int) = .ok (g.cell i j) :=
        g.At_eq_cell hW i j (by omega) h2
      rw [hc] at hAt
      injection hAt with hAt
      refine ⟨i, j, h1, h2, ?_, ?_⟩
      · unfold present
        rw [hAt, hS]; rfl
      · obtain ⟨F, T, W⟩ := e
        simp only at hF hT hAt
        rw [hF, hT, hAt]
  · intro i hi
    exact ⟨g.Degree_in_range hW i hi, g.From_in_range hW i hi, g.neighborsOf_length i⟩
  · rw [List.map_map]
    apply List.map_congr_left
    intro i hi
    exact g.Degree_in_range hW i (List.mem_range.1 hi)

end UndirectedDenseGraph

/-- The handshake property after any sequence of `SetEdgeWeight` and `RemoveEdge` calls
on a store of `n` nodes with `n*n` cells: `Edges()` lists each unordered pair `{i, j}`
with a non-absent cell exactly once, as an edge with `F = i < T = j` and the cell's
weight, `len(From(i)) = Degree(i)` for every in-range `i`, and the sum of `Degree(i)` over
all `i` in `[0, n)` equals `2 * len(Edges())`. -/
theorem filledStore_handshake (n : Nat) (passable : Bool) (self absent : Float64)
    (calls : List DenseCall) :
    ∃ edges : List Edge,
      (runDense (filledStore n passable self absent) calls).Edges = .ok edges ∧
      edges.Nodup ∧
      (∀ e : Edge, e ∈ edges ↔
        ∃ i j : Nat, i < j ∧ j < n ∧ e.F = ⟨(i : Int)⟩ ∧ e.T = ⟨(j : Int)⟩ ∧
          (runDense (filledStore n passable self absent) calls).Matrix.At
            (i : Int) (j : Int) = .ok e.W ∧
          isSame e.W absent = false) ∧
      (∀ i : Nat, i < n → ∃ d nb,
        (runDense (filledStore n passable self absent) calls).Degree ⟨(i : Int)⟩
          = .ok d ∧
        (runDense (filledStore n passable self absent) calls).From ⟨(i : Int)⟩
          = .ok nb ∧
        nb.length = d) ∧
      ∃ ds : List Nat,
        (List.range n).map (fun i : Nat =>
          (runDense (filledStore n passable self absent) calls).Degree ⟨(i : Int)⟩)
          = ds.map DenseRes.ok ∧
        ds.sum = 2 * edges.length := by
  have hW := runDense_WF calls _ (UndirectedDenseGraph.New_WF n passable self absent)
  obtain ⟨_, habs, hn⟩ := runDense_config calls (filledStore n passable self absent)
  have hn' : (runDense (filledStore n passable self absent) calls).mat.n = n := hn
  have habs' : (runDense (filledStore n passable self absent) calls).absent
      = absent := habs
  obtain ⟨h1, h2, h3, h4, h5, h6⟩ := UndirectedDenseGraph.handshake_of_WF _ hW
  rw [hn'] at h3 h4 h5 h6
  rw [habs'] at h3
  exact ⟨_, h1, h2, h3, fun i hi => ⟨_, _, h4 i hi⟩, _, h5, h6⟩

/-! ## Setting and removing an edge of the dense store -/

namespace UndirectedDenseGraph

/-- The store with the cell of the ids `f` and `t` in range set to `v`. -/
theorem setSym_store (g : UndirectedDenseGraph) (hW : g.WF) (f t : Nat) (v : Float64)
    (hf : f < g.mat.n) (ht : t < g.mat.n) :
    (g.mat.SetSym (f : Int) (t : Int) v).1 = .ok () ∧
    WF { g with mat := (g.mat.SetSym (f : Int) (t : Int) v).2 } ∧
    (g.mat.SetSym (f : Int) (t : Int) v).2.n = g.mat.n := by
  refine ⟨?_, ?_, SymDense.SetSym_n _ _ _ _⟩
  · rw [SymDense.SetSym_natCast g.mat f t v hf ht hW]
  · unfold WF
    simp only
    rw [SymDense.SetSym_length, SymDense.SetSym_n]
    exact hW

/-- What the queries return after the cell of the distinct ids `f` and `t` in range is
set to `v`. -/
theorem setSym_queries (g : UndirectedDenseGraph) (hW : g.WF) (f t : Nat) (v : Float64)
    (hf : f < g.mat.n) (ht : t < g.mat.n) (hne : f ≠ t) :
    Weight { g with mat := (g.mat.SetSym (f : Int) (t : Int) v).2 } ⟨f⟩ ⟨t⟩ = .ok (v, true) ∧
    Weight { g with mat := (g.mat.SetSym (f : Int) (t : Int) v).2 } ⟨t⟩ ⟨f⟩ = .ok (v, true) ∧
    HasEdgeBetween { g with mat := (g.mat.SetSym (f : Int) (t : Int) v).2 } ⟨f⟩ ⟨t⟩
      = .ok (!isSame v g.absent) ∧
    HasEdgeBetween { g with mat := (g.mat.SetSym (f : Int) (t : Int) v).2 } ⟨t⟩ ⟨f⟩
      = .ok (!isSame v g.absent) ∧
    (∀ a b : Nat, a < g.mat.n → b < g.mat.n → ¬ ((a = f ∧ b = t) ∨ (a = t ∧ b = f)) →
      (Matrix { g with mat := (g.mat.SetSym (f : Int) (t : Int) v).2 }).At (a : Int) (b : Int)
        = g.Matrix.At (a : Int) (b : Int)) := by
  obtain ⟨_, hW', hn⟩ := g.setSym_store hW f t v hf ht
  have hn' : ({ g with mat := (g.mat.SetSym (f : Int) (t : Int) v).2 } :
      UndirectedDenseGraph).mat.n = g.mat.n := hn
  have hf' := hf
  have ht' := ht
  rw [← hn'] at hf' ht'
  have c1 := g.setSym_cell hW f t v hf ht f t hf ht
  have c2 := g.setSym_cell hW f t v hf ht t f ht hf
  rw [if_pos (Or.inl ⟨rfl, rfl⟩)] at c1
  rw [if_pos (Or.inr ⟨rfl, rfl⟩)] at c2
  refine ⟨?_, ?_, ?_, ?_, ?_⟩
  · rw [Weight_in_range _ hW' f t hf' ht' hne, c1]
  · rw [Weight_in_range _ hW' t f ht' hf' (Ne.symm hne), c2]
  · rw [HasEdgeBetween_in_range _ hW' f t hf' ht' hne]
    unfold present
    rw [c1]
  · rw [HasEdgeBetween_in_range _ hW' t f ht' hf' (Ne.symm hne)]
    unfold present
    rw [c2]
  · intro a b ha hb hab
    have ha' := ha
    have hb' := hb
    rw [← hn'] at ha' hb'
    unfold Matrix
    rw [At_eq_cell _ hW' a b ha' hb', g.At_eq_cell hW a b ha hb,
      g.setSym_cell hW f t v hf ht a b ha hb, if_neg hab]

theorem SetEdgeWeight_of_ne (g : UndirectedDenseGraph) (e : Simple.Edge)
    (hne : e.From.ID ≠ e.To.ID) :
    g.SetEdgeWeight e = ((g.mat.SetSym e.From.ID e.To.ID e.Weight).1,
      { g with mat := (g.mat.SetSym e.From.ID e.To.ID e.Weight).2 }) := by
  unfold SetEdgeWeight
  rw [if_neg hne]

end UndirectedDenseGraph

set_option maxRecDepth 8192 in
/-- C14. Symmetric edge update on the dense store: `SetEdgeWeight(e)` fails if
`e.From().ID() == e.To().ID()` and then leaves the matrix unchanged; for distinct
in-range ids `f`, `t` and weight `w` it makes `Weight(f, t) = Weight(t, f) = (w, true)`,
makes `HasEdgeBetween(f, t) = HasEdgeBetween(t, f) =` (`w` is not the absent value), and
leaves the cell of every other unordered pair unchanged.  On a 4-node disconnected store
with `absent = +Inf`, `SetEdgeWeight({0,1,w=1})` gives
`Weight(0,1) = Weight(1,0) = (1, true)` and `Degree(0) = 1`. -/
theorem dense_setEdgeWeight (g : UndirectedDenseGraph) (hW : g.WF) (e : Edge) :
    (e.From.ID = e.To.ID → g.SetEdgeWeight e = (.panic .illegalEdge, g)) ∧
    (e.From.ID ≠ e.To.ID → g.has e.From.ID = true → g.has e.To.ID = true →
      (g.SetEdgeWeight e).1 = .ok () ∧
      (g.SetEdgeWeight e).2.Weight e.From e.To = .ok (e.Weight, true) ∧
      (g.SetEdgeWeight e).2.Weight e.To e.From = .ok (e.Weight, true) ∧
      (g.SetEdgeWeight e).2.HasEdgeBetween e.From e.To = .ok (!isSame e.Weight g.absent) ∧
      (g.SetEdgeWeight e).2.HasEdgeBetween e.To e.From = .ok (!isSame e.Weight g.absent) ∧
      (∀ a b : Node, g.has a.ID = true → g.has b.ID = true →
        ¬ ((a.ID = e.From.ID ∧ b.ID = e.To.ID) ∨ (a.ID = e.To.ID ∧ b.ID = e.From.ID)) →
        (g.SetEdgeWeight e).2.Matrix.At a.ID b.ID = g.Matrix.At a.ID b.ID)) ∧
    (denseFourEdge.Weight ⟨0⟩ ⟨1⟩ = .ok (Float64.one, true) ∧
      denseFourEdge.Weight ⟨1⟩ ⟨0⟩ = .ok (Float64.one, true) ∧
      denseFourEdge.Degree ⟨0⟩ = .ok 1) := by
  refine ⟨?_, ?_, by decide⟩
  · intro h
    unfold UndirectedDenseGraph.SetEdgeWeight
    rw [if_pos h]
  · intro hne hf ht
    obtain ⟨f, hfn, hfe⟩ := (g.has_iff _).1 hf
    obtain ⟨t, htn, hte⟩ := (g.has_iff _).1 ht
    obtain ⟨⟨fid⟩, ⟨tid⟩, w⟩ := e
    simp only [Edge.From, Edge.To, Edge.Weight] at hfe hte hne ⊢
    subst hfe; subst hte
    have hft : f ≠ t := fun c => hne (by rw [c])
    rw [UndirectedDenseGraph.SetEdgeWeight_of_ne g ⟨⟨(f : Int)⟩, ⟨(t : Int)⟩, w⟩ hne]
    simp only [Edge.From, Edge.To, Edge.Weight]
    obtain ⟨q1, q2, q3, q4, q5⟩ := g.setSym_queries hW f t w hfn htn hft
    refine ⟨(g.setSym_store hW f t w hfn htn).1, q1, q2, q3, q4, ?_⟩
    intro a b ha hb hab
    obtain ⟨i, hi, hia⟩ := (g.has_iff _).1 ha
    obtain ⟨j, hj, hjb⟩ := (g.has_iff _).1 hb
    rw [hia, hjb]
    apply q5 i j hi hj
    rw [hia, hjb] at hab
    omega

/-- C14 at the 4-node store of the spec, for the self-pair 2-2 and for the edge 0-1. -/
theorem dense_setEdgeWeight_witness :
    denseFour.WF ∧
    denseFour.SetEdgeWeight (unitEdge 2 2) = (.panic .illegalEdge, denseFour) ∧
    ((denseFour.SetEdgeWeight (unitEdge 0 1)).1 = .ok () ∧
      (denseFour.SetEdgeWeight (unitEdge 0 1)).2.Weight ⟨0⟩ ⟨1⟩ = .ok (Float64.one, true) ∧
      (denseFour.SetEdgeWeight (unitEdge 0 1)).2.HasEdgeBetween ⟨1⟩ ⟨0⟩ = .ok true) :=
  ⟨by decide, (dense_setEdgeWeight denseFour (by decide) (unitEdge 2 2)).1 rfl,
    ((dense_setEdgeWeight denseFour (by decide) (unitEdge 0 1)).2.1 (by decide) (by decide)
      (by decide)).1,
    ((dense_setEdgeWeight denseFour (by decide) (unitEdge 0 1)).2.1 (by decide) (by decide)
      (by decide)).2.1,
    ((dense_setEdgeWeight denseFour (by decide) (unitEdge 0 1)).2.1 (by decide) (by decide)
      (by decide)).2.2.2.2.1⟩

theorem countP_drop (l : List Nat) (hl : l.Nodup) (t : Nat) (ht : t ∈ l) (p q : Nat → Bool)
    (hp : p t = true) (hq : q t = false) (hagree : ∀ x ∈ l, x ≠ t → q x = p x) :
    l.countP q + 1 = l.countP p := by
  induction l with
  | nil => simp at ht
  | cons a l ih =>
    have hnd : a ∉ l ∧ l.Nodup := List.nodup_cons.1 hl
    rw [List.countP_cons, List.countP_cons]
    by_cases hat : a = t
    · subst hat
      have hc : l.countP q = l.countP p := by
        apply List.countP_congr
        intro x hx
        have hxa : x ≠ a := fun c => hnd.1 (c ▸ hx)
        rw [hagree x (List.mem_cons_of_mem a hx) hxa]
      simp [hp, hq, hc]
    · have ht' : t ∈ l := by
        rcases List.mem_cons.1 ht with h | h
        · exact absurd h.symm hat
        · exact h
      have := ih hnd.2 ht' (fun x hx => hagree x (List.mem_cons_of_mem a hx))
      rw [hagree a (List.mem_cons_self a l) hat]
      omega

namespace UndirectedDenseGraph

/-- Resetting the cell of the distinct ids `f` and `t` lowers the degree of either end
by one when the edge was present. -/
theorem degreeOf_drop (g : UndirectedDenseGraph) (hW : g.WF) (f t : Nat)
    (hf : f < g.mat.n) (ht : t < g.mat.n) (r c : Nat)
    (hrc : (r = f ∧ c = t) ∨ (r = t ∧ c = f)) (hne : f ≠ t)
    (hp : g.present r c = true) :
    degreeOf { g with mat := (g.mat.SetSym (f : Int) (t : Int) g.absent).2 } r + 1
      = g.degreeOf r := by
  have hr : r < g.mat.n := by rcases hrc with ⟨h, _⟩ | ⟨h, _⟩ <;> omega
  have hc : c < g.mat.n := by rcases hrc with ⟨_, h⟩ | ⟨_, h⟩ <;> omega
  have hrc' : r ≠ c := by rcases hrc with ⟨h1, h2⟩ | ⟨h1, h2⟩ <;> omega
  unfold degreeOf
  have hn : ({ g with mat := (g.mat.SetSym (f : Int) (t : Int) g.absent).2 } :
      UndirectedDenseGraph).mat.n = g.mat.n := SymDense.SetSym_n _ _ _ _
  rw [hn]
  apply countP_drop _ (List.nodup_range _) c (List.mem_range.2 hc)
  · simp [hp, Ne.symm hrc']
  · have hcell := g.setSym_cell hW f t g.absent hf ht r c hr hc
    have hcond : (r = f ∧ c = t) ∨ (r = t ∧ c = f) := hrc
    rw [if_pos hcond] at hcell
    unfold present
    rw [hcell]
    simp [isSame_refl]
  · intro x hx hxc
    have hxn : x < g.mat.n := List.mem_range.1 hx
    have hcell := g.setSym_cell hW f t g.absent hf ht r x hr hxn
    have hcond : ¬ ((r = f ∧ x = t) ∨ (r = t ∧ x = f)) := by
      rcases hrc with ⟨h1, h2⟩ | ⟨h1, h2⟩ <;> omega
    rw [if_neg hcond] at hcell
    unfold present
    rw [hcell]

end UndirectedDenseGraph

/-- C16. `RemoveEdge` on the dense store resets both mirrored cells: for distinct
in-range ids `f` and `t`, after `RemoveEdge(e)` with endpoints `f`, `t`,
`HasEdgeBetween(f, t)` and `HasEdgeBetween(t, f)` are false, `EdgeBetween` returns nil
in both orders, `Weight(f, t) = Weight(t, f) = (absent, true)`, the degrees of `f` and
`t` each drop by one if the edge was present, and the cells of every other unordered
pair are unchanged. -/
theorem dense_removeEdge (g : UndirectedDenseGraph) (hW : g.WF) (e : Edge)
    (hne : e.From.ID ≠ e.To.ID) (hf : g.has e.From.ID = true) (ht : g.has e.To.ID = true) :
    (g.RemoveEdge e).1 = .ok () ∧
    (g.RemoveEdge e).2.HasEdgeBetween e.From e.To = .ok false ∧
    (g.RemoveEdge e).2.HasEdgeBetween e.To e.From = .ok false ∧
    (g.RemoveEdge e).2.EdgeBetween e.From e.To = .ok none ∧
    (g.RemoveEdge e).2.EdgeBetween e.To e.From = .ok none ∧
    (g.RemoveEdge e).2.Weight e.From e.To = .ok (g.absent, true) ∧
    (g.RemoveEdge e).2.Weight e.To e.From = .ok (g.absent, true) ∧
    (g.HasEdgeBetween e.From e.To = .ok true →
      ∃ df dt, g.Degree e.From = .ok (df + 1) ∧ (g.RemoveEdge e).2.Degree e.From = .ok df ∧
        g.Degree e.To = .ok (dt + 1) ∧ (g.RemoveEdge e).2.Degree e.To = .ok dt) ∧
    (∀ a b : Node, g.has a.ID = true → g.has b.ID = true →
      ¬ ((a.ID = e.From.ID ∧ b.ID = e.To.ID) ∨ (a.ID = e.To.ID ∧ b.ID = e.From.ID)) →
      (g.RemoveEdge e).2.Matrix.At a.ID b.ID = g.Matrix.At a.ID b.ID) := by
  obtain ⟨f, hfn, hfe⟩ := (g.has_iff _).1 hf
  obtain ⟨t, htn, hte⟩ := (g.has_iff _).1 ht
  obtain ⟨⟨fid⟩, ⟨tid⟩, w⟩ := e
  simp only [Edge.From, Edge.To, Edge.Weight] at hfe hte hne ⊢
  subst hfe; subst hte
  have hft : f ≠ t := fun c => hne (by rw [c])
  unfold UndirectedDenseGraph.RemoveEdge
  simp only [Edge.From, Edge.To]
  obtain ⟨q1, q2, q3, q4, q5⟩ := g.setSym_queries hW f t g.absent hfn htn hft
  obtain ⟨s1, hW', hn⟩ := g.setSym_store hW f t g.absent hfn htn
  have hn' : ({ g with mat := (g.mat.SetSym (f : Int) (t : Int) g.absent).2 } :
      UndirectedDenseGraph).mat.n = g.mat.n := hn
  have hfn' := hfn
  have htn' := htn
  rw [← hn'] at hfn' htn'
  rw [isSame_refl] at q3 q4
  have e1 : UndirectedDenseGraph.EdgeBetween
      { g with mat := (g.mat.SetSym (f : Int) (t : Int) g.absent).2 } ⟨f⟩ ⟨t⟩ = .ok none := by
    unfold UndirectedDenseGraph.EdgeBetween
    rw [q3]; rfl
  have e2 : UndirectedDenseGraph.EdgeBetween
      { g with mat := (g.mat.SetSym (f : Int) (t : Int) g.absent).2 } ⟨t⟩ ⟨f⟩ = .ok none := by
    unfold UndirectedDenseGraph.EdgeBetween
    rw [q4]; rfl
  refine ⟨s1, q3, q4, e1, e2, q1, q2, ?_, ?_⟩
  · intro hp
    rw [g.HasEdgeBetween_in_range hW f t hfn htn hft] at hp
    injection hp with hp
    have hp2 : g.present t f = true := by rw [g.present_symm]; exact hp
    have d1 := g.degreeOf_drop hW f t hfn htn f t (Or.inl ⟨rfl, rfl⟩) hft hp
    have d2 := g.degreeOf_drop hW f t hfn htn t f (Or.inr ⟨rfl, rfl⟩) hft hp2
    refine ⟨_, _, ?_, UndirectedDenseGraph.Degree_in_range _ hW' f hfn', ?_,
      UndirectedDenseGraph.Degree_in_range _ hW' t htn'⟩
    · rw [g.Degree_in_range hW f hfn, ← d1]
    · rw [g.Degree_in_range hW t htn, ← d2]
  · intro a b ha hb hab
    obtain ⟨i, hi, hia⟩ := (g.has_iff _).1 ha
    obtain ⟨j, hj, hjb⟩ := (g.has_iff _).1 hb
    rw [hia, hjb]
    apply q5 i j hi hj
    rw [hia, hjb] at hab
    omega

/-- C16 at the connected 3-node store, removing the edge 0-1. -/
theorem dense_removeEdge_witness :
    (denseThree.WF ∧ (unitEdge 0 1).From.ID ≠ (unitEdge 0 1).To.ID ∧
      denseThree.has 0 = true ∧ denseThree.has 1 = true ∧
      denseThree.HasEdgeBetween ⟨0⟩ ⟨1⟩ = .ok true) ∧
    (denseThree.RemoveEdge (unitEdge 0 1)).2.HasEdgeBetween ⟨1⟩ ⟨0⟩ = .ok false ∧
    (denseThree.RemoveEdge (unitEdge 0 1)).2.Weight ⟨0⟩ ⟨1⟩ = .ok (Float64.posInf, true) ∧
    (∃ df dt, denseThree.Degree ⟨0⟩ = .ok (df + 1) ∧
      (denseThree.RemoveEdge (unitEdge 0 1)).2.Degree ⟨0⟩ = .ok df ∧
      denseThree.Degree ⟨1⟩ = .ok (dt + 1) ∧
      (denseThree.RemoveEdge (unitEdge 0 1)).2.Degree ⟨1⟩ = .ok dt) :=
  ⟨⟨by decide, by decide, by decide, by decide, by decide⟩,
    (dense_removeEdge denseThree (by decide) (unitEdge 0 1) (by decide) (by decide)
      (by decide)).2.2.1,
    (dense_removeEdge denseThree (by decide) (unitEdge 0 1) (by decide) (by decide)
      (by decide)).2.2.2.2.2.1,
    (dense_removeEdge denseThree (by decide) (unitEdge 0 1) (by decide) (by decide)
      (by decide)).2.2.2.2.2.2.2.1 (by decide)⟩

/-! ## The two modes of the constructor -/

namespace UndirectedDenseGraph

theorem New_cell (n : Nat) (passable : Bool) (self absent : Float64) (i j : Nat)
    (hi : i < n) (hj : j < n) :
    (filledStore n passable self absent).cell i j
      = if !passable then absent else Float64.one := by
  unfold cell filledStore
  simp only
  have h : SymDense.offset
      { n := n, data := List.replicate (n * n) (if !passable then absent else Float64.one) } i j
      < (List.replicate (n * n) (if !passable then absent else Float64.one)).length := by
    rw [List.length_replicate]
    exact SymDense.offset_lt _ i j hi hj
  rw [List.getD_eq_getElem _ _ h, List.getElem_replicate]

theorem New_n (n : Nat) (passable : Bool) (self absent : Float64) :
    (filledStore n passable self absent).mat.n = n := rfl

theorem New_absent (n : Nat) (passable : Bool) (self absent : Float64) :
    (filledStore n passable self absent).absent = absent := rfl

theorem New_present (n : Nat) (passable : Bool) (self absent : Float64) (i j : Nat)
    (hi : i < n) (hj : j < n) :
    (filledStore n passable self absent).present i j
      = !isSame (if !passable then absent else Float64.one) absent := by
  unfold present
  rw [New_cell n passable self absent i j hi hj, New_absent]

/-- A store all of whose cells off the diagonal hold an edge: every degree is `n - 1`. -/
theorem degreeOf_full (g : UndirectedDenseGraph) (i : Nat) (hi : i < g.mat.n)
    (h : ∀ j, j < g.mat.n → g.present i j = true) : g.degreeOf i = g.mat.n - 1 := by
  unfold degreeOf
  have := countP_drop (List.range g.mat.n) (List.nodup_range _) i (List.mem_range.2 hi)
    (fun _ => true) (fun j => decide (j ≠ i) && g.present i j) rfl (by simp)
    (by
      intro x hx hxi
      simp [hxi, h x (List.mem_range.1 hx)])
  rw [List.countP_true, List.length_range] at this
  omega

/-- A store none of whose cells holds an edge: every degree is 0. -/
theorem degreeOf_empty (g : UndirectedDenseGraph) (i : Nat)
    (h : ∀ j, j < g.mat.n → g.present i j = false) : g.degreeOf i = 0 := by
  unfold degreeOf
  rw [List.countP_eq_zero]
  intro j hj
  simp [h j (List.mem_range.1 hj)]

end UndirectedDenseGraph

/-- C15 fails on the code: `NewUndirectedDenseGraph(2, true, 0, 1)` returns a store, made
with `passable = true`, in which the two nodes are not connected: `HasEdgeBetween(0, 1)`
is false, `EdgeBetween(0, 1)` is nil, `Degree(0)` is 0 and `Edges()` is empty, because a
cell that holds the unit cost reads as `absent`. -/
theorem dense_passable_absent_one :
    NewUndirectedDenseGraph 2 true Float64.zero Float64.one = .ok denseAbsentOne ∧
    denseAbsentOne.HasEdgeBetween ⟨0⟩ ⟨1⟩ = .ok false ∧
    denseAbsentOne.EdgeBetween ⟨0⟩ ⟨1⟩ = .ok none ∧
    denseAbsentOne.Degree ⟨0⟩ = .ok 0 ∧
    denseAbsentOne.Edges = .ok [] := by
  decide

/-- The two modes on a store of `n` nodes with `n*n` cells.  When `absent` is not the same
value as 1, the store filled with 1 has every pair of distinct nodes in `[0, n)`
connected by an edge of weight 1, every degree `n-1` and `n(n-1)/2` entries in
`Edges()`.  The store filled with `absent` has no edges, every degree 0 and `Edges()`
empty, and `Weight(i, j) = (absent, true)` for distinct in-range `i`, `j`. -/
theorem filledStore_modes (n : Nat) (self absent : Float64) :
    (isSame Float64.one absent = false →
      (∀ i j : Nat, i < n → j < n → i ≠ j →
        (filledStore n true self absent).HasEdgeBetween ⟨i⟩ ⟨j⟩ = .ok true ∧
        (filledStore n true self absent).EdgeBetween ⟨i⟩ ⟨j⟩
          = .ok (some ⟨⟨i⟩, ⟨j⟩, Float64.one⟩)) ∧
      (∀ i : Nat, i < n →
        (filledStore n true self absent).Degree ⟨i⟩ = .ok (n - 1)) ∧
      (∃ l, (filledStore n true self absent).Edges = .ok l ∧
        l.length = n * (n - 1) / 2)) ∧
    ((∀ i j : Nat, i < n → j < n →
        (filledStore n false self absent).HasEdgeBetween ⟨i⟩ ⟨j⟩ = .ok false) ∧
      (∀ i : Nat, i < n →
        (filledStore n false self absent).Degree ⟨i⟩ = .ok 0) ∧
      (filledStore n false self absent).Edges = .ok [] ∧
      (∀ i j : Nat, i < n → j < n → i ≠ j →
        (filledStore n false self absent).Weight ⟨i⟩ ⟨j⟩ = .ok (absent, true))) := by
  constructor
  · intro h1
    have hW := UndirectedDenseGraph.New_WF n true self absent
    have hp : ∀ i j, i < n → j < n →
        (filledStore n true self absent).present i j = true := by
      intro i j hi hj
      rw [UndirectedDenseGraph.New_present n true self absent i j hi hj]
      simp [h1]
    have hdeg : ∀ i, i < n →
        (filledStore n true self absent).degreeOf i = n - 1 := fun i hi =>
      UndirectedDenseGraph.degreeOf_full _ i hi (fun j hj => hp i j hi hj)
    refine ⟨?_, ?_, ?_⟩
    · intro i j hi hj hij
      rw [UndirectedDenseGraph.HasEdgeBetween_in_range _ hW i j hi hj hij,
        UndirectedDenseGraph.EdgeBetween_in_range _ hW i j hi hj hij, hp i j hi hj,
        UndirectedDenseGraph.New_cell n true self absent i j hi hj]
      exact ⟨rfl, rfl⟩
    · intro i hi
      rw [UndirectedDenseGraph.Degree_in_range _ hW i hi, hdeg i hi]
    · refine ⟨_, UndirectedDenseGraph.Edges_eq _ hW, ?_⟩
      have hs := UndirectedDenseGraph.degree_sum (filledStore n true self absent)
      rw [UndirectedDenseGraph.New_n] at hs
      have hc : (List.range n).map (filledStore n true self absent).degreeOf
          = (List.range n).map (fun _ => n - 1) := by
        apply List.map_congr_left
        intro i hi
        exact hdeg i (List.mem_range.1 hi)
      rw [hc] at hs
      simp only [List.map_const', List.length_range, List.sum_replicate, smul_eq_mul] at hs
      generalize n * (n - 1) = k at hs ⊢
      omega
  · have hW := UndirectedDenseGraph.New_WF n false self absent
    have hp : ∀ i j, i < n → j < n →
        (filledStore n false self absent).present i j = false := by
      intro i j hi hj
      rw [UndirectedDenseGraph.New_present n false self absent i j hi hj]
      simp [isSame_refl]
    have hdeg : ∀ i, i < n →
        (filledStore n false self absent).degreeOf i = 0 := fun i hi =>
      UndirectedDenseGraph.degreeOf_empty _ i (fun j hj => hp i j hi hj)
    refine ⟨?_, ?_, ?_, ?_⟩
    · intro i j hi hj
      by_cases hij : i = j
      · subst hij
        unfold UndirectedDenseGraph.HasEdgeBetween
        simp
      · rw [UndirectedDenseGraph.HasEdgeBetween_in_range _ hW i j hi hj hij, hp i j hi hj]
    · intro i hi
      rw [UndirectedDenseGraph.Degree_in_range _ hW i hi, hdeg i hi]
    · rw [UndirectedDenseGraph.Edges_eq _ hW]
      have hs := UndirectedDenseGraph.degree_sum (filledStore n false self absent)
      rw [UndirectedDenseGraph.New_n] at hs
      have hc : (List.range n).map (filledStore n false self absent).degreeOf
          = (List.range n).map (fun _ => 0) := by
        apply List.map_congr_left
        intro i hi
        exact hdeg i (List.mem_range.1 hi)
      rw [hc] at hs
      simp only [List.map_const', List.length_range, List.sum_replicate, smul_eq_mul,
        Nat.mul_zero] at hs
      have hl : (filledStore n false self absent).upperEdges.length = 0 := by
        omega
      rw [List.length_eq_zero.1 hl]
    · intro i j hi hj hij
      rw [UndirectedDenseGraph.Weight_in_range _ hW i j hi hj hij,
        UndirectedDenseGraph.New_cell n false self absent i j hi hj]
      rfl

/-! ## Calls the dense store does not guard -/

/-- Removing an absent edge between two distinct ids in range: `RemoveEdge` returns, and
every cell in range holds a value the store takes for the one it held before. -/
theorem dense_removeEdge_absent_pair (g : UndirectedDenseGraph) (hW : g.WF) (f t : Nat)
    (hf : f < g.mat.n) (ht : t < g.mat.n) (hne : f ≠ t) (w : Float64)
    (hab : g.HasEdgeBetween ⟨f⟩ ⟨t⟩ = .ok false) :
    (g.RemoveEdge ⟨⟨f⟩, ⟨t⟩, w⟩).1 = .ok () ∧
    ∀ a b : Nat, a < g.mat.n → b < g.mat.n →
      ∃ old new, g.Matrix.At (a : Int) (b : Int) = .ok old ∧
        (g.RemoveEdge ⟨⟨f⟩, ⟨t⟩, w⟩).2.Matrix.At (a : Int) (b : Int) = .ok new ∧
        isSame old new = true := by
  rw [g.HasEdgeBetween_in_range hW f t hf ht hne] at hab
  injection hab with hab
  have hcell : isSame (g.cell f t) g.absent = true := by
    unfold UndirectedDenseGraph.present at hab
    simpa using hab
  obtain ⟨s1, hW', hn⟩ := g.setSym_store hW f t g.absent hf ht
  unfold UndirectedDenseGraph.RemoveEdge
  simp only [Edge.From, Edge.To]
  refine ⟨s1, ?_⟩
  intro a b ha hb
  have hn' : ({ g with mat := (g.mat.SetSym (f : Int) (t : Int) g.absent).2 } :
      UndirectedDenseGraph).mat.n = g.mat.n := hn
  have ha' := ha
  have hb' := hb
  rw [← hn'] at ha' hb'
  refine ⟨g.cell a b, _, g.At_eq_cell hW a b ha hb,
    UndirectedDenseGraph.At_eq_cell _ hW' a b ha' hb', ?_⟩
  rw [g.setSym_cell hW f t g.absent hf ht a b ha hb]
  by_cases hc : (a = f ∧ b = t) ∨ (a = t ∧ b = f)
  · rw [if_pos hc]
    rcases hc with ⟨h1, h2⟩ | ⟨h1, h2⟩
    · rw [h1, h2]; exact hcell
    · rw [h1, h2, g.cell_symm t f]; exact hcell
  · rw [if_neg hc]; exact isSame_refl _

/-- C17 fails on the code for a self-pair: in the connected 3-node store
`HasEdgeBetween(0, 0)` is false and `RemoveEdge` of an edge from 0 to 0 returns, but it
writes `absent` into the diagonal cell, so `Matrix().At(0, 0)` changes from 1 to `+Inf`.
`SetEdgeWeight` rejects the same edge. -/
theorem dense_removeEdge_self_pair :
    denseThree.has 0 = true ∧
    denseThree.HasEdgeBetween ⟨0⟩ ⟨0⟩ = .ok false ∧
    denseThree.Matrix.At 0 0 = .ok Float64.one ∧
    (denseThree.RemoveEdge (unitEdge 0 0)).1 = .ok () ∧
    (denseThree.RemoveEdge (unitEdge 0 0)).2.Matrix.At 0 0 = .ok Float64.posInf ∧
    denseThree.SetEdgeWeight (unitEdge 0 0) = (.panic .illegalEdge, denseThree) := by
  decide

/-- C18 fails on the code: in the connected 3-node store the ids 5 and -1 are not in
range, and `Degree` and `From` panic in `At` with a row index out of range; `Weight`,
which tests `has` first, returns `(absent, false)` for the same node. -/
theorem dense_degree_out_of_range :
    denseThree.has 5 = false ∧ denseThree.has (-1) = false ∧
    denseThree.Degree ⟨5⟩ = .panic .rowAccess ∧
    denseThree.From ⟨5⟩ = .panic .rowAccess ∧
    denseThree.Degree ⟨-1⟩ = .panic .rowAccess ∧
    denseThree.From ⟨-1⟩ = .panic .rowAccess ∧
    denseThree.Weight ⟨5⟩ ⟨0⟩ = .ok (Float64.posInf, false) := by
  decide

/-! ## The constructor and the length `n*n` -/

theorem wrapInt_of_small (x : Int) (h0 : 0 ≤ x) (h1 : x ≤ maxInt) : wrapInt x = x := by
  unfold wrapInt
  unfold maxInt at h1
  omega

theorem NewSymDense_of_small (n : Nat) (cells : List Float64)
    (hw : wrapInt ((n : Int) * (n : Int)) = (n : Int) * (n : Int))
    (hlen : cells.length = n * n) :
    NewSymDense (n : Int) cells = .ok { n := n, data := cells } := by
  unfold NewSymDense
  have h2 : ¬ ((n : Int) < 0) := by omega
  have h3 : ¬ (wrapInt ((n : Int) * (n : Int)) ≠ (cells.length : Int)) := by
    rw [hw, hlen]; push_cast; simp
  rw [if_neg h2, if_neg h3, Int.toNat_ofNat]

/-- Where `n*n` does not wrap around, the constructor returns the store of `n` nodes with
`n*n` cells, to which `filledStore_modes` and `filledStore_handshake` apply. -/
theorem NewUndirectedDenseGraph_of_small (n : Nat) (passable : Bool) (self absent : Float64)
    (h : (n : Int) * (n : Int) ≤ maxInt) :
    NewUndirectedDenseGraph (n : Int) passable self absent
      = .ok (filledStore n passable self absent) := by
  have h0 : (0 : Int) ≤ (n : Int) * (n : Int) := mul_self_nonneg _
  have hnat : ((n : Int) * (n : Int)).toNat = n * n := by
    have : (n : Int) * (n : Int) = ((n * n : Nat) : Int) := by push_cast; rfl
    rw [this, Int.toNat_ofNat]
  have hw := wrapInt_of_small _ h0 h
  have h1 : ¬ (wrapInt ((n : Int) * (n : Int)) < 0) := by
    rw [hw]; exact not_lt.2 h0
  unfold NewUndirectedDenseGraph
  rw [if_neg h1]
  simp only
  rw [hw, hnat, NewSymDense_of_small n _ hw (List.length_replicate _ _)]
  rfl

namespace UndirectedDenseGraph

theorem edges_inner_panic (g : UndirectedDenseGraph) (i : Nat) (p : DensePanic)
    (l : List Nat) : l.foldl (g.edgesStep i) (.panic p) = .panic p := by
  induction l with
  | nil => rfl
  | cons j l ih => rw [List.foldl_cons]; exact ih

theorem edges_outer_panic (g : UndirectedDenseGraph) (p : DensePanic) (l : List Nat) :
    l.foldl
        (fun acc i => (List.range' (i + 1) (g.mat.n - (i + 1))).foldl (g.edgesStep i) acc)
        (.panic p)
      = .panic p := by
  induction l with
  | nil => rfl
  | cons i l ih => rw [List.foldl_cons, edges_inner_panic]; exact ih

/-- A store of at least two nodes whose cell of 0 and 1 cannot be read: the loops of
`Degree`, `From` and `Edges` reach that cell and panic. -/
theorem loops_panic (g : UndirectedDenseGraph) (m : Nat) (p : DensePanic)
    (hn : g.mat.n = m + 2) (hAt : g.mat.At 0 1 = .panic p) :
    g.Degree ⟨0⟩ = .panic p ∧ g.From ⟨0⟩ = .panic p ∧ g.Edges = .panic p := by
  have hAt' : g.mat.At ((0 : Nat) : Int) ((1 : Nat) : Int) = .panic p := by
    simpa using hAt
  have hr : List.range (m + 2) = 0 :: 1 :: List.range' 2 m := by
    rw [List.range_eq_range', List.range'_succ, List.range'_succ]
  refine ⟨?_, ?_, ?_⟩
  · unfold Degree SymDense.Symmetric
    rw [hn, hr, List.foldl_cons, List.foldl_cons]
    have s0 : g.degreeStep (⟨0⟩ : Node).ID (.ok 0) 0 = .ok 0 := by
      unfold degreeStep; simp
    have s1 : g.degreeStep (⟨0⟩ : Node).ID (.ok 0) 1 = .panic p := by
      unfold degreeStep
      simp only [Nat.cast_one, one_ne_zero, if_false]
      rw [hAt]
    rw [s0, s1, degree_foldl_panic]
  · unfold From SymDense.Symmetric
    rw [hn, hr, List.foldl_cons, List.foldl_cons]
    have s0 : g.fromStep (⟨0⟩ : Node).ID (.ok []) 0 = .ok [] := by
      unfold fromStep; simp
    have s1 : g.fromStep (⟨0⟩ : Node).ID (.ok []) 1 = .panic p := by
      unfold fromStep
      simp only [Nat.cast_one, one_ne_zero, if_false]
      rw [hAt]
    rw [s0, s1, from_foldl_panic]
  · unfold Edges
    rw [hn, hr, List.foldl_cons]
    have hin : List.range' (0 + 1) (m + 2 - (0 + 1)) = 1 :: List.range' 2 m := by
      have : m + 2 - (0 + 1) = m + 1 := by omega
      rw [this, List.range'_succ]
    have s1 : g.edgesStep 0 (.ok []) 1 = .panic p := by
      unfold edgesStep
      simp only
      rw [hAt']
    have hfirst : (List.range' (0 + 1) (g.mat.n - (0 + 1))).foldl (g.edgesStep 0) (.ok [])
        = .panic p := by
      rw [hn, hin, List.foldl_cons, s1, edges_inner_panic]
    have hstep : ∀ l : List Nat,
        List.foldl
          (fun acc i => (List.range' (i + 1) (g.mat.n - (i + 1))).foldl (g.edgesStep i) acc)
          ((List.range' (0 + 1) (g.mat.n - (0 + 1))).foldl (g.edgesStep 0) (.ok [])) l
        = .panic p := by
      intro l
      rw [hfirst]
      exact g.edges_outer_panic p l
    have hn' : m + 2 = g.mat.n := hn.symm
    simp only [hn'] at hstep ⊢
    exact hstep _

end UndirectedDenseGraph

/-- C19 fails on the code: for `n = 1<<32` the length `n*n` of the backing slice wraps
around to 0, so `NewUndirectedDenseGraph` returns a store of `2^32` nodes without cells.
Its nodes are in range (`Has(Node(5))` is true), but `HasEdgeBetween(0, 1)`,
`Degree(0)`, `From(0)` and `Edges()` panic with an index out of range instead of
returning. -/
theorem dense_overflow_store :
    NewUndirectedDenseGraph 4294967296 true Float64.zero Float64.posInf = .ok denseOverflow ∧
    denseOverflow.mat.Symmetric = 4294967296 ∧
    denseOverflow.Matrix.data = [] ∧
    denseOverflow.Has ⟨5⟩ = true ∧
    denseOverflow.HasEdgeBetween ⟨0⟩ ⟨1⟩ = .panic .indexOutOfRange ∧
    denseOverflow.Degree ⟨0⟩ = .panic .indexOutOfRange ∧
    denseOverflow.From ⟨0⟩ = .panic .indexOutOfRange ∧
    denseOverflow.Edges = .panic .indexOutOfRange :=
  ⟨by decide, by decide, by decide, by decide, by decide,
    denseOverflow.loops_panic 4294967294 .indexOutOfRange (by decide) (by decide)⟩

end Simple
